import Mathlib

/-!
Shallow embedding of the relations-graph engine of the `home.theor.net`
repository (`src/content.config.ts`, `src/lib/graph-data.ts`,
`src/pages/backlinks.json.ts`), together with proofs about it.

JavaScript `Map`s are modelled as association lists in insertion order,
JS `Set`s as duplicate-free lists in insertion order, and JS string
truthiness (`undefined`/`""` are falsy) is modelled explicitly.
-/

namespace Site

/-! ## Association lists standing for JS `Map`s -/

/-- Keys of an association list, in insertion order. -/
def keysOf {β : Type} (m : List (String × β)) : List String := m.map Prod.fst

/-- `Map.get`: first entry with the key, if any. -/
def lookupA {β : Type} : List (String × β) → String → Option β
  | [], _ => none
  | e :: rest, k => if e.1 = k then some e.2 else lookupA rest k

/-- Mutate the value stored at `k` in place (no-op when `k` is absent),
mirroring a JS mutation through an object reference obtained from
`Map.get`. -/
def updateA {β : Type} : List (String × β) → String → (β → β) → List (String × β)
  | [], _, _ => []
  | e :: rest, k, f => if e.1 = k then (e.1, f e.2) :: rest else e :: updateA rest k f

/-- `Map.set`: replace the value in place if the key exists, otherwise
append a fresh entry. -/
def setA {β : Type} (m : List (String × β)) (k : String) (v : β) : List (String × β) :=
  if (keysOf m).contains k then updateA m k (fun _ => v) else m ++ [(k, v)]

/-- `addUnique` from `content.config.ts`: push unless already present. -/
def addUnique (arr : List String) (value : String) : List String :=
  if value ∈ arr then arr else arr ++ [value]

/-- JS truthiness of an optional string: `undefined` and `""` are falsy. -/
def truthy : Option String → Bool
  | none => false
  | some s => !(s == "")

/-! ## Data model (`PageRelations`, `PageInfo`, the page store) -/

/-- `PageRelations` from `content.config.ts`. -/
structure PageRelations where
  ntpp : List String
  nttpi : List String
  tpp : List String
  tppi : List String
  po : List String
  ec : List String
  eq : List String
  dc : List String
  next : Option String
  prev : Option String
  r : List String
  ri : List String
  deriving DecidableEq, Repr

/-- `PageInfo` from `content.config.ts`. -/
structure PageInfo where
  slug : String
  title : String
  deriving DecidableEq, Repr

/-- One page as supplied by the page store (`getCollection('pages')`):
id, title, raw body, and the declared relation fields. -/
structure RawPage where
  id : String
  title : String
  body : String
  ntpp : Option (List String) := none
  tpp : Option (List String) := none
  po : Option (List String) := none
  ec : Option (List String) := none
  eq : Option (List String) := none
  dc : Option (List String) := none
  next : Option String := none
  prev : Option String := none
  deriving DecidableEq, Repr

/-- The relations graph: slug → PageRelations, in insertion order. -/
abbrev Graph := List (String × PageRelations)

/-- The page-info map: slug → PageInfo, in insertion order. -/
abbrev PageMap := List (String × PageInfo)

/-! ## Link extraction (`extractLinkSlugs`)

The regex `/\[([^\]]+)\]\(([^)]+)\)/g` is embedded as a left-to-right,
non-overlapping scan over the character list of the body. -/

/-- Try to match the bracket-link pattern at the very start of `cs`:
`[` then one or more non-`]` characters, `]` `(`, one or more non-`)`
characters, `)`.  On success return the link target and the remaining
characters after the match. -/
def tryMatch (cs : List Char) : Option (List Char × List Char) :=
  match cs with
  | '[' :: rest =>
    let label := rest.takeWhile (fun c => !(c == ']'))
    let rest1 := rest.dropWhile (fun c => !(c == ']'))
    if label.isEmpty then none else
    match rest1 with
    | ']' :: '(' :: rest2 =>
      let target := rest2.takeWhile (fun c => !(c == ')'))
      let rest3 := rest2.dropWhile (fun c => !(c == ')'))
      if target.isEmpty then none else
      match rest3 with
      | ')' :: rest4 => some (target, rest4)
      | _ => none
    | _ => none
  | _ => none

/-- All link targets of the body, left to right, non-overlapping, as the
repeated `regex.exec` loop produces them.  `fuel` bounds the recursion;
one unit per character is always enough because every step consumes at
least one character. -/
def scanTargets : Nat → List Char → List (List Char)
  | 0, _ => []
  | fuel + 1, cs =>
    match cs with
    | [] => []
    | c :: cs1 =>
      match tryMatch (c :: cs1) with
      | some (t, rest) => t :: scanTargets fuel rest
      | none => scanTargets fuel cs1

/-- The raw link targets of a body string. -/
def linkTargets (body : String) : List (List Char) :=
  scanTargets body.data.length body.data

/-- The rejection test: external (`http` prefix), in-page anchor (`#`),
or `mailto:` link. -/
def skipT (t : List Char) : Bool :=
  "http".data.isPrefixOf t || "#".data.isPrefixOf t || "mailto:".data.isPrefixOf t

/-- Path normalization applied to a non-skipped link target: strip a
leading `./` (one character via `slice(1)`), ensure a leading `/`,
strip a single trailing `/` unless the path is exactly `/`. -/
def normPath (t : List Char) : List Char :=
  let t1 := if ['.', '/'].isPrefixOf t then t.drop 1 else t
  let t2 := if ['/'].isPrefixOf t1 then t1 else '/' :: t1
  if t2.getLast? = some '/' ∧ t2 ≠ ['/'] then t2.dropLast else t2

/-- `pathToSlug` from `content.config.ts`, on character lists. -/
def pathToSlugC (p : List Char) : List Char :=
  if p = ['/'] then "index".data
  else if ['/'].isPrefixOf p then p.drop 1 else p

/-- Slug a raw (non-skipped) link target resolves to. -/
def targetSlug (t : List Char) : String :=
  ⟨pathToSlugC (normPath t)⟩

/-- `extractLinkSlugs` from `content.config.ts`. -/
def extractLinkSlugs (body : String) (sourceSlug : String) (knownSlugs : List String) :
    List String :=
  (linkTargets body).foldl
    (fun slugs t =>
      if skipT t then slugs
      else
        let slug := targetSlug t
        if knownSlugs.contains slug ∧ slug ≠ sourceSlug ∧ slug ∉ slugs
        then slugs ++ [slug] else slugs)
    []

/-! ## Relation graph construction (`buildRelationsGraph`) -/

/-- Pass 1 for one page: declared relations into fresh sets, inferred
fields empty, references extracted from the body. -/
def pass1Rel (p : RawPage) (known : List String) : PageRelations :=
  { ntpp := p.ntpp.getD []
    nttpi := []
    tpp := p.tpp.getD []
    tppi := []
    po := p.po.getD []
    ec := p.ec.getD []
    eq := p.eq.getD []
    dc := p.dc.getD []
    next := p.next
    prev := p.prev
    r := extractLinkSlugs p.body p.id known
    ri := [] }

/-- The graph after pass 1. -/
def pass1Graph (store : List RawPage) : Graph :=
  let known := store.map (·.id)
  store.foldl (fun g p => setA g p.id (pass1Rel p known)) []

/-- The page-info map (filled during pass 1). -/
def pageMapOf (store : List RawPage) : PageMap :=
  store.foldl (fun m p => setA m p.id ⟨p.id, p.title⟩) []

/-- The `Next -> Prev` inference step of pass 2: `if (rel.next)` is JS
truthiness (skips `undefined` and `""`), and `B.prev` is only assigned
when currently falsy. -/
def inferNextStage (g : Graph) (s : String) (nx? : Option String) : Graph :=
  match nx? with
  | some nx =>
    if nx = "" then g
    else updateA g nx (fun r => if truthy r.prev then r else { r with prev := some s })
  | none => g

/-- The `Prev -> Next` inference step of pass 2: JS re-reads the live
`rel.prev`, which the `Next -> Prev` step may just have assigned. -/
def inferPrevStage (g : Graph) (s : String) : Graph :=
  match lookupA g s with
  | some r1 =>
    match r1.prev with
    | some pv =>
      if pv = "" then g
      else updateA g pv (fun r => if truthy r.next then r else { r with next := some s })
    | none => g
  | none => g

/-- `addUnique(targetRel.nttpi, slug)` as a record update. -/
def pushNttpi (s : String) (r : PageRelations) : PageRelations :=
  { r with nttpi := addUnique r.nttpi s }

def pushTppi (s : String) (r : PageRelations) : PageRelations :=
  { r with tppi := addUnique r.tppi s }

def pushPo (s : String) (r : PageRelations) : PageRelations :=
  { r with po := addUnique r.po s }

def pushEc (s : String) (r : PageRelations) : PageRelations :=
  { r with ec := addUnique r.ec s }

def pushEq (s : String) (r : PageRelations) : PageRelations :=
  { r with eq := addUnique r.eq s }

def pushDc (s : String) (r : PageRelations) : PageRelations :=
  { r with dc := addUnique r.dc s }

def pushRi (s : String) (r : PageRelations) : PageRelations :=
  { r with ri := addUnique r.ri s }

/-- The six forward `addUnique` loops of pass 2 for one page `s`, in
source order: `NTPP -> NTPPi`, `TPP -> TPPi`, then the symmetric
`PO`, `EC`, `EQ`, `DC` loops. -/
def symStages (g : Graph) (s : String) (rel : PageRelations) : Graph :=
  rel.dc.foldl (fun g t => updateA g t (pushDc s))
    (rel.eq.foldl (fun g t => updateA g t (pushEq s))
      (rel.ec.foldl (fun g t => updateA g t (pushEc s))
        (rel.po.foldl (fun g t => updateA g t (pushPo s))
          (rel.tpp.foldl (fun g t => updateA g t (pushTppi s))
            (rel.ntpp.foldl (fun g t => updateA g t (pushNttpi s)) g)))))

/-- Pass 2 for one page `s`: push inverse/symmetric entries into every
target, infer `next`/`prev` without overwriting set (truthy) values,
then the `R -> Ri` loop.  Field reads happen at the moment the
corresponding JS statement runs. -/
def processPage (g : Graph) (s : String) : Graph :=
  match lookupA g s with
  | none => g
  | some rel =>
    rel.r.foldl (fun g t => updateA g t (pushRi s))
      (inferPrevStage (inferNextStage (symStages g s rel) s rel.next) s)

/-- `buildRelationsGraph`: pass 1, then pass 2 over the graph in
insertion order. -/
def buildRelationsGraph (store : List RawPage) : Graph × PageMap :=
  let g1 := pass1Graph store
  ((keysOf g1).foldl processPage g1, pageMapOf store)

/-! ## Graph view builder (`graph-data.ts`) -/

/-- Edge types of the full graph view. -/
inductive EdgeType where
  | ntpp | tpp | po | ec | eq | dc | next | r
  deriving DecidableEq, Repr

/-- The literal name of an edge type, as used inside dedup keys. -/
def typeName : EdgeType → String
  | .ntpp => "ntpp"
  | .tpp => "tpp"
  | .po => "po"
  | .ec => "ec"
  | .eq => "eq"
  | .dc => "dc"
  | .next => "next"
  | .r => "r"

structure GraphNode where
  id : String
  title : String
  connections : Nat
  deriving DecidableEq, Repr

structure GraphEdge where
  source : String
  target : String
  type : EdgeType
  deriving DecidableEq, Repr

structure GraphData where
  nodes : List GraphNode
  edges : List GraphEdge
  deriving DecidableEq, Repr

/-- JS string `<` on UTF-16 code units, restricted to the scalar values
Lean characters carry (kernel-reducible, unlike `String.decidableLE`). -/
def lexLt : List Char → List Char → Bool
  | [], [] => false
  | [], _ :: _ => true
  | _ :: _, [] => false
  | a :: as, b :: bs =>
    if a.toNat < b.toNat then true
    else if b.toNat < a.toNat then false
    else lexLt as bs

/-- `a ≤ b` on strings, as JS `Array.prototype.sort` compares them. -/
def strLe (a b : String) : Bool := !(lexLt b.data a.data)

/-- `[a, b].sort().join('::') + '::' + type`: the dedup key for one
edge of a symmetric kind (also used for `next`). -/
def mkKey (a b : String) (ty : EdgeType) : String :=
  (if strLe a b then a ++ "::" ++ b else b ++ "::" ++ a) ++ "::" ++ typeName ty

/-- State threaded through `buildGraphData`: nodes, edges, seen keys. -/
abbrev BuildSt := List GraphNode × List GraphEdge × List String

/-- The symmetric-relation loop body for one kind: push one edge per
unseen canonical key. -/
def symFold (slug : String) (ty : EdgeType) (targets : List String) (st : BuildSt) : BuildSt :=
  targets.foldl
    (fun st t =>
      let key := mkKey slug t ty
      if st.2.2.contains key then st
      else (st.1, st.2.1 ++ [(⟨slug, t, ty⟩ : GraphEdge)], st.2.2 ++ [key]))
    st

/-- Processing of one graph entry inside `buildGraphData`. -/
def buildStep (pages : PageMap) (st : BuildSt) (e : String × PageRelations) : BuildSt :=
  match lookupA pages e.1 with
  | none => st
  | some info =>
    let slug := e.1
    let rel := e.2
    let connections :=
      rel.ntpp.length + rel.nttpi.length +
      rel.tpp.length + rel.tppi.length +
      rel.po.length + rel.ec.length +
      rel.eq.length + rel.dc.length +
      (if truthy rel.next then 1 else 0) + (if truthy rel.prev then 1 else 0) +
      rel.r.length + rel.ri.length
    let st := (st.1 ++ [⟨slug, info.title, connections⟩],
      st.2.1 ++ rel.ntpp.map (fun t => ⟨slug, t, .ntpp⟩)
            ++ rel.tpp.map (fun t => ⟨slug, t, .tpp⟩),
      st.2.2)
    let st := symFold slug .po rel.po st
    let st := symFold slug .ec rel.ec st
    let st := symFold slug .eq rel.eq st
    let st := symFold slug .dc rel.dc st
    let st :=
      match rel.next with
      | some nx =>
        if nx = "" then st
        else
          let key := mkKey slug nx .next
          if st.2.2.contains key then st
          else (st.1, st.2.1 ++ [(⟨slug, nx, .next⟩ : GraphEdge)], st.2.2 ++ [key])
      | none => st
    (st.1, st.2.1 ++ rel.r.map (fun t => ⟨slug, t, .r⟩), st.2.2)

/-- `buildGraphData` from `graph-data.ts`. -/
def buildGraphData (graph : Graph) (pages : PageMap) : GraphData :=
  let st := graph.foldl (buildStep pages) ([], [], [])
  ⟨st.1, st.2.1⟩

structure SubgraphOptions where
  relationTypes : List EdgeType
  depth : Nat

/-- `includedSlugs.add(slug)` for every frontier slug (JS `Set` order). -/
def unionInto (included frontier : List String) : List String :=
  frontier.foldl addUnique included

/-- The two conditional inserts the BFS performs for one frontier slug
and one relevant edge: collect the far endpoint unless already
included. -/
def frontierStep (included : List String) (slug : String) (acc : List String)
    (e : GraphEdge) : List String :=
  let acc1 := if e.source = slug ∧ e.target ∉ included then addUnique acc e.target else acc
  if e.target = slug ∧ e.source ∉ included then addUnique acc1 e.source else acc1

/-- One frontier expansion: for every frontier slug and every relevant
edge, collect the far endpoint unless already included. -/
def nextFrontier (E : List GraphEdge) (included frontier : List String) : List String :=
  frontier.foldl (fun acc slug => E.foldl (frontierStep included slug) acc) []

/-- The `for (let d = 0; d <= depth; d++)` BFS loop of
`buildSubgraphData`; the fuel counts the remaining hops. -/
def bfsLoop (E : List GraphEdge) : Nat → List String → List String → List String
  | 0, included, frontier => unionInto included frontier
  | n + 1, included, frontier =>
    let included1 := unionInto included frontier
    bfsLoop E n included1 (nextFrontier E included1 frontier)

/-- `buildSubgraphData` from `graph-data.ts`. -/
def buildSubgraphData (graph : Graph) (pages : PageMap) (rootSlug : String)
    (opts : SubgraphOptions) : GraphData :=
  let full := buildGraphData graph pages
  let relevantEdges := full.edges.filter (fun e => opts.relationTypes.contains e.type)
  let included := bfsLoop relevantEdges opts.depth [] [rootSlug]
  ⟨full.nodes.filter (fun n => included.contains n.id),
   relevantEdges.filter (fun e => included.contains e.source && included.contains e.target)⟩

/-! ## Breadcrumbs (`getBreadcrumbs`) -/

/-- The parent a breadcrumb step follows: `rel.ntpp[0] ?? rel.tpp[0]`. -/
def parentOf (g : Graph) (s : String) : Option String :=
  match lookupA g s with
  | none => none
  | some rel => rel.ntpp.head?.orElse (fun _ => rel.tpp.head?)

/-- The breadcrumb walk, producing the visit order of slugs.  The loop
condition is JS `while (current && !visited.has(current))`; `fuel` is
spent one unit per iteration and `graph.length + 1` units always
suffice (each continuing iteration visits a fresh graph key). -/
def walkAux (g : Graph) : Nat → Option String → List String → List String
  | 0, _, _ => []
  | fuel + 1, cur?, visited =>
    match cur? with
    | none => []
    | some cur =>
      if cur = "" then []
      else if cur ∈ visited then []
      else
        match lookupA g cur with
        | none => [cur]
        | some rel => cur :: walkAux g fuel (rel.ntpp.head?.orElse (fun _ => rel.tpp.head?)) (cur :: visited)

/-- Slugs visited by `getBreadcrumbs`, in visit order (leaf first). -/
def visitOrder (g : Graph) (s : String) : List String :=
  walkAux g (g.length + 1) (some s) []

/-- `getBreadcrumbs` from `content.config.ts`: `unshift` of each visited
page's info means the result is the reverse of the visit order. -/
def getBreadcrumbs (slug : String) (g : Graph) (pages : PageMap) : List PageInfo :=
  ((visitOrder g slug).filterMap (fun c => lookupA pages c)).reverse

/-! ## Backlinks endpoint (`backlinks.json.ts`) -/

/-- `slugToPath` (also inlined in the endpoint). -/
def slugToPath (slug : String) : String :=
  if slug = "index" then "/" else "/" ++ slug

/-- The backlinks accumulator: URL path → list of `{path, title}`. -/
abbrev Backlinks := List (String × List (String × String))

/-- Processing of one source page's body inside the `GET` handler. -/
def backlinkStep (m : Backlinks) (p : RawPage) : Backlinks :=
  let sourcePath := slugToPath p.id
  (linkTargets p.body).foldl
    (fun m t =>
      if skipT t then m
      else
        let targetPath : String := ⟨normPath t⟩
        if (lookupA m targetPath).isSome ∧ targetPath ≠ sourcePath then
          updateA m targetPath
            (fun lst => if lst.any (fun bl => bl.1 = sourcePath) then lst
                        else lst ++ [(sourcePath, p.title)])
        else m)
    m

/-- The backlinks map the `GET` endpoint serializes: initialize every
page's path to `[]`, then scan every page's body. -/
def backlinksMap (store : List RawPage) : Backlinks :=
  let init := store.foldl (fun m p => setA m (slugToPath p.id) []) []
  store.foldl backlinkStep init

/-! ## Basic lemmas about the association-list operations -/

theorem lookupA_updateA {β : Type} (m : List (String × β)) (t : String) (f : β → β)
    (k : String) :
    lookupA (updateA m t f) k = if k = t then (lookupA m k).map f else lookupA m k := by
  induction m with
  | nil => simp [lookupA, updateA]
  | cons e rest ih =>
    simp only [updateA]
    by_cases he : e.1 = t
    · rw [if_pos he]
      by_cases hk : e.1 = k
      · have hkt : k = t := hk ▸ he
        simp [lookupA, hk, hkt]
      · have hkt : ¬ k = t := fun h => hk (he.trans h.symm)
        simp [lookupA, hk, hkt]
    · rw [if_neg he]
      by_cases hk : e.1 = k
      · have hkt : ¬ k = t := fun h => he (hk.trans h)
        simp [lookupA, hk, hkt]
      · simp [lookupA, hk, ih]

theorem keysOf_updateA {β : Type} (m : List (String × β)) (t : String) (f : β → β) :
    keysOf (updateA m t f) = keysOf m := by
  induction m with
  | nil => rfl
  | cons e rest ih =>
    simp only [updateA]
    by_cases he : e.1 = t
    · rw [if_pos he]; rfl
    · rw [if_neg he]
      simp only [keysOf, List.map_cons] at ih ⊢
      rw [ih]

theorem isSome_lookupA_updateA {β : Type} (m : List (String × β)) (t : String) (f : β → β)
    (k : String) : (lookupA (updateA m t f) k).isSome = (lookupA m k).isSome := by
  rw [lookupA_updateA]
  by_cases hk : k = t <;> simp [hk]

theorem lookupA_append {β : Type} (m1 m2 : List (String × β)) (k : String) :
    lookupA (m1 ++ m2) k = (lookupA m1 k).orElse (fun _ => lookupA m2 k) := by
  induction m1 with
  | nil => simp [lookupA]
  | cons e rest ih =>
    by_cases he : e.1 = k <;> simp [lookupA, he, ih, Option.orElse]

theorem mem_keysOf_iff_isSome {β : Type} (m : List (String × β)) (k : String) :
    k ∈ keysOf m ↔ (lookupA m k).isSome := by
  induction m with
  | nil => simp [keysOf, lookupA]
  | cons e rest ih =>
    by_cases he : e.1 = k
    · simp [keysOf, lookupA, he]
    · simp only [keysOf, lookupA, List.map_cons, List.mem_cons, he, if_neg]
      constructor
      · rintro (h | h)
        · exact absurd h.symm he
        · exact (ih.mp (by simpa [keysOf] using h))
      · intro h; exact Or.inr (by simpa [keysOf] using ih.mpr h)

theorem lookupA_setA {β : Type} (m : List (String × β)) (k : String) (v : β) (s : String) :
    lookupA (setA m k v) s = if s = k then some v else lookupA m s := by
  unfold setA
  by_cases hc : (keysOf m).contains k
  · rw [if_pos hc, lookupA_updateA]
    by_cases hs : s = k
    · subst hs
      have : (lookupA m s).isSome := by
        rw [← mem_keysOf_iff_isSome]; simpa using hc
      obtain ⟨v0, hv0⟩ := Option.isSome_iff_exists.mp this
      simp [hv0]
    · simp [hs]
  · rw [if_neg hc, lookupA_append]
    by_cases hs : s = k
    · subst hs
      have : ¬ (lookupA m s).isSome := by
        rw [← mem_keysOf_iff_isSome]; simpa using hc
      have hnone : lookupA m s = none := by
        cases h : lookupA m s
        · rfl
        · exact absurd (by simp [h]) this
      simp [hnone, lookupA, Option.orElse]
    · cases h : lookupA m s <;>
        simp [h, lookupA, hs, Ne.symm hs, Option.orElse]

theorem mem_addUnique (l : List String) (v x : String) :
    x ∈ addUnique l v ↔ x ∈ l ∨ x = v := by
  unfold addUnique
  by_cases hv : v ∈ l
  · simp only [if_pos hv]
    constructor
    · exact Or.inl
    · rintro (h | rfl) <;> assumption
  · simp [if_neg hv]

theorem addUnique_idem (l : List String) (v : String) :
    addUnique (addUnique l v) v = addUnique l v := by
  unfold addUnique
  by_cases hv : v ∈ l <;> simp [hv]

/-- Growing a list by `addUnique`: the old list is a front segment and
the new elements are fresh and duplicate-free. -/
def ExtendsU (l l2 : List String) : Prop :=
  ∃ ex, l2 = l ++ ex ∧ ex.Nodup ∧ ∀ x ∈ ex, x ∉ l

theorem ExtendsU.refl (l : List String) : ExtendsU l l :=
  ⟨[], by simp, by simp, by simp⟩

theorem ExtendsU.trans {l m n : List String} (h1 : ExtendsU l m) (h2 : ExtendsU m n) :
    ExtendsU l n := by
  obtain ⟨e1, rfl, hn1, hf1⟩ := h1
  obtain ⟨e2, rfl, hn2, hf2⟩ := h2
  refine ⟨e1 ++ e2, by simp, ?_, ?_⟩
  · rw [List.nodup_append]
    exact ⟨hn1, hn2, fun x hx1 hx2 => hf2 x hx2 (by simp [hx1])⟩
  · intro x hx hxl
    rcases List.mem_append.mp hx with h | h
    · exact hf1 x h hxl
    · exact hf2 x h (by simp [hxl])

theorem ExtendsU.addUnique (l : List String) (v : String) : ExtendsU l (addUnique l v) := by
  unfold Site.addUnique
  by_cases hv : v ∈ l
  · rw [if_pos hv]; exact ExtendsU.refl l
  · exact ⟨[v], by simp [hv], by simp, by simp [hv]⟩

/-! ## Reading one relation field of one graph entry -/

/-- The list stored in field `f` of the entry at `k` (empty when the
entry is absent). -/
def fieldList (f : PageRelations → List String) (g : Graph) (k : String) : List String :=
  ((lookupA g k).map f).getD []

/-- The `next` pointer of the entry at `k`. -/
def nextOf (g : Graph) (k : String) : Option String :=
  match lookupA g k with
  | none => none
  | some r => r.next

/-- The `prev` pointer of the entry at `k`. -/
def prevOf (g : Graph) (k : String) : Option String :=
  match lookupA g k with
  | none => none
  | some r => r.prev

theorem fieldList_updateA_frame {f : PageRelations → List String}
    {u : PageRelations → PageRelations} (h : ∀ r, f (u r) = f r)
    (g : Graph) (t k : String) :
    fieldList f (updateA g t u) k = fieldList f g k := by
  unfold fieldList
  rw [lookupA_updateA]
  by_cases hk : k = t
  · rw [if_pos hk]; cases lookupA g k <;> simp [h]
  · rw [if_neg hk]

theorem fieldList_updateA_addU {f : PageRelations → List String}
    {u : PageRelations → PageRelations} {s : String}
    (h : ∀ r, f (u r) = addUnique (f r) s) (g : Graph) (t k : String) :
    fieldList f (updateA g t u) k =
      if k = t ∧ (lookupA g k).isSome then addUnique (fieldList f g k) s
      else fieldList f g k := by
  unfold fieldList
  rw [lookupA_updateA]
  by_cases hk : k = t
  · rw [if_pos hk]
    cases hl : lookupA g k <;> simp [h, hk, hl]
  · rw [if_neg hk]
    simp [hk]

theorem nextOf_updateA_frame {u : PageRelations → PageRelations}
    (h : ∀ r, (u r).next = r.next) (g : Graph) (t k : String) :
    nextOf (updateA g t u) k = nextOf g k := by
  unfold nextOf
  rw [lookupA_updateA]
  by_cases hk : k = t
  · rw [if_pos hk]; cases lookupA g k <;> simp [h]
  · rw [if_neg hk]

theorem prevOf_updateA_frame {u : PageRelations → PageRelations}
    (h : ∀ r, (u r).prev = r.prev) (g : Graph) (t k : String) :
    prevOf (updateA g t u) k = prevOf g k := by
  unfold prevOf
  rw [lookupA_updateA]
  by_cases hk : k = t
  · rw [if_pos hk]; cases lookupA g k <;> simp [h]
  · rw [if_neg hk]

/-! Lemmas about the `addUnique` folds of pass 2. -/

theorem isSome_foldAdd {u : PageRelations → PageRelations} (l : List String)
    (g : Graph) (k : String) :
    (lookupA (l.foldl (fun g t => updateA g t u) g) k).isSome = (lookupA g k).isSome := by
  induction l generalizing g with
  | nil => rfl
  | cons t l ih => rw [List.foldl_cons, ih, isSome_lookupA_updateA]

theorem keysOf_foldAdd {u : PageRelations → PageRelations} (l : List String) (g : Graph) :
    keysOf (l.foldl (fun g t => updateA g t u) g) = keysOf g := by
  induction l generalizing g with
  | nil => rfl
  | cons t l ih => rw [List.foldl_cons, ih, keysOf_updateA]

theorem fieldList_foldAdd_frame (f : PageRelations → List String)
    (u : PageRelations → PageRelations) (h : ∀ r, f (u r) = f r)
    (l : List String) (g : Graph) (k : String) :
    fieldList f (l.foldl (fun g t => updateA g t u) g) k = fieldList f g k := by
  induction l generalizing g with
  | nil => rfl
  | cons t l ih => rw [List.foldl_cons, ih, fieldList_updateA_frame h]

theorem nextOf_foldAdd_frame (u : PageRelations → PageRelations)
    (h : ∀ r, (u r).next = r.next) (l : List String) (g : Graph) (k : String) :
    nextOf (l.foldl (fun g t => updateA g t u) g) k = nextOf g k := by
  induction l generalizing g with
  | nil => rfl
  | cons t l ih => rw [List.foldl_cons, ih, nextOf_updateA_frame h]

theorem prevOf_foldAdd_frame (u : PageRelations → PageRelations)
    (h : ∀ r, (u r).prev = r.prev) (l : List String) (g : Graph) (k : String) :
    prevOf (l.foldl (fun g t => updateA g t u) g) k = prevOf g k := by
  induction l generalizing g with
  | nil => rfl
  | cons t l ih => rw [List.foldl_cons, ih, prevOf_updateA_frame h]

theorem fieldList_foldAdd_addU (f : PageRelations → List String)
    (u : PageRelations → PageRelations) {s : String}
    (h : ∀ r, f (u r) = addUnique (f r) s) (l : List String) (g : Graph) (k : String) :
    fieldList f (l.foldl (fun g t => updateA g t u) g) k =
      if k ∈ l ∧ (lookupA g k).isSome then addUnique (fieldList f g k) s
      else fieldList f g k := by
  induction l generalizing g with
  | nil => simp
  | cons t l ih =>
    rw [List.foldl_cons, ih, isSome_lookupA_updateA, fieldList_updateA_addU h]
    by_cases hkt : k = t
    · subst hkt
      by_cases hkl : k ∈ l <;> by_cases hks : (lookupA g k).isSome <;>
        simp [hkl, hks, addUnique_idem]
    · by_cases hkl : k ∈ l <;> by_cases hks : (lookupA g k).isSome <;>
        simp [hkt, hkl, hks]

/-! Lemmas about the two `next`/`prev` inference stages. -/

theorem isSome_inferNextStage (g : Graph) (s : String) (nx? : Option String) (k : String) :
    (lookupA (inferNextStage g s nx?) k).isSome = (lookupA g k).isSome := by
  cases nx? with
  | none => rfl
  | some nx =>
    by_cases hnx : nx = ""
    · simp [inferNextStage, hnx]
    · simp [inferNextStage, hnx, isSome_lookupA_updateA]

theorem isSome_inferPrevStage (g : Graph) (s k : String) :
    (lookupA (inferPrevStage g s) k).isSome = (lookupA g k).isSome := by
  unfold inferPrevStage
  cases hl : lookupA g s with
  | none => rfl
  | some r1 =>
    cases hp : r1.prev with
    | none => simp [hp]
    | some pv =>
      by_cases hpv : pv = ""
      · simp [hp, hpv]
      · simp [hp, hpv, isSome_lookupA_updateA]

theorem keysOf_inferNextStage (g : Graph) (s : String) (nx? : Option String) :
    keysOf (inferNextStage g s nx?) = keysOf g := by
  cases nx? with
  | none => rfl
  | some nx =>
    by_cases hnx : nx = ""
    · simp [inferNextStage, hnx]
    · simp [inferNextStage, hnx, keysOf_updateA]

theorem keysOf_inferPrevStage (g : Graph) (s : String) :
    keysOf (inferPrevStage g s) = keysOf g := by
  unfold inferPrevStage
  cases hl : lookupA g s with
  | none => rfl
  | some r1 =>
    cases hp : r1.prev with
    | none => simp [hp]
    | some pv =>
      by_cases hpv : pv = ""
      · simp [hp, hpv]
      · simp [hp, hpv, keysOf_updateA]

theorem fieldList_inferNextStage (f : PageRelations → List String)
    (h : ∀ r v, f { r with prev := v } = f r) (g : Graph) (s : String)
    (nx? : Option String) (k : String) :
    fieldList f (inferNextStage g s nx?) k = fieldList f g k := by
  cases nx? with
  | none => rfl
  | some nx =>
    by_cases hnx : nx = ""
    · simp [inferNextStage, hnx]
    · simp only [inferNextStage, hnx, if_false, if_neg]
      rw [fieldList_updateA_frame]
      intro r
      by_cases hp : truthy r.prev
      · rw [if_pos hp]
      · rw [if_neg hp, h]

theorem fieldList_inferPrevStage (f : PageRelations → List String)
    (h : ∀ r v, f { r with next := v } = f r) (g : Graph) (s k : String) :
    fieldList f (inferPrevStage g s) k = fieldList f g k := by
  unfold inferPrevStage
  cases hl : lookupA g s with
  | none => rfl
  | some r1 =>
    cases hp : r1.prev with
    | none => simp [hp]
    | some pv =>
      by_cases hpv : pv = ""
      · simp [hp, hpv]
      · simp only [hp]
        rw [if_neg hpv, fieldList_updateA_frame]
        intro r
        by_cases hn : truthy r.next
        · rw [if_pos hn]
        · rw [if_neg hn, h]

theorem nextOf_inferNextStage (g : Graph) (s : String) (nx? : Option String) (k : String) :
    nextOf (inferNextStage g s nx?) k = nextOf g k := by
  cases nx? with
  | none => rfl
  | some nx =>
    by_cases hnx : nx = ""
    · simp [inferNextStage, hnx]
    · simp only [inferNextStage, hnx, if_false, if_neg]
      rw [nextOf_updateA_frame]
      intro r
      by_cases hp : truthy r.prev
      · rw [if_pos hp]
      · rw [if_neg hp]

theorem prevOf_inferPrevStage (g : Graph) (s k : String) :
    prevOf (inferPrevStage g s) k = prevOf g k := by
  unfold inferPrevStage
  cases hl : lookupA g s with
  | none => rfl
  | some r1 =>
    cases hp : r1.prev with
    | none => simp [hp]
    | some pv =>
      by_cases hpv : pv = ""
      · simp [hp, hpv]
      · simp only [hp]
        rw [if_neg hpv, prevOf_updateA_frame]
        intro r
        by_cases hn : truthy r.next
        · rw [if_pos hn]
        · rw [if_neg hn]

theorem inferNextStage_none (g : Graph) (s : String) : inferNextStage g s none = g := rfl

theorem inferNextStage_empty (g : Graph) (s : String) : inferNextStage g s (some "") = g := by
  simp [inferNextStage]

theorem prevOf_inferNextStage (g : Graph) (s nx : String) (hnx : nx ≠ "") (k : String) :
    prevOf (inferNextStage g s (some nx)) k =
      if k = nx ∧ (lookupA g k).isSome ∧ ¬ truthy (prevOf g k) then some s
      else prevOf g k := by
  simp only [inferNextStage, hnx, if_false, if_neg]
  unfold prevOf
  rw [lookupA_updateA]
  by_cases hk : k = nx
  · rw [if_pos hk]
    cases hl : lookupA g k with
    | none => simp [hk, hl]
    | some r =>
      by_cases hp : truthy r.prev
      · simp [hk, hl, hp]
      · simp [hk, hl, hp]
  · rw [if_neg hk]
    simp [hk]

theorem inferPrevStage_of_prev_none (g : Graph) (s : String) (h : prevOf g s = none) :
    inferPrevStage g s = g := by
  unfold inferPrevStage
  unfold prevOf at h
  cases hl : lookupA g s with
  | none => rfl
  | some r1 =>
    rw [hl] at h
    simp only at h
    simp [h]

theorem inferPrevStage_of_prev_empty (g : Graph) (s : String) (h : prevOf g s = some "") :
    inferPrevStage g s = g := by
  unfold inferPrevStage
  unfold prevOf at h
  cases hl : lookupA g s with
  | none => rfl
  | some r1 =>
    rw [hl] at h
    simp only at h
    simp [h]

theorem nextOf_inferPrevStage (g : Graph) (s pv : String) (hp : prevOf g s = some pv)
    (hpv : pv ≠ "") (k : String) :
    nextOf (inferPrevStage g s) k =
      if k = pv ∧ (lookupA g k).isSome ∧ ¬ truthy (nextOf g k) then some s
      else nextOf g k := by
  unfold inferPrevStage
  unfold prevOf at hp
  cases hl : lookupA g s with
  | none => rw [hl] at hp; exact absurd hp (by simp)
  | some r1 =>
    rw [hl] at hp
    simp only at hp
    simp only [hp, hpv, if_false, if_neg]
    unfold nextOf
    rw [lookupA_updateA]
    by_cases hk : k = pv
    · rw [if_pos hk]
      cases hlk : lookupA g k with
      | none => simp [hk, hlk]
      | some r =>
        by_cases hn : truthy r.next
        · simp [hk, hlk, hn]
        · simp [hk, hlk, hn]
    · rw [if_neg hk]
      simp [hk]

/-- `processPage` written out as the composition of its stages. -/
theorem processPage_eq (g : Graph) (s : String) (rel : PageRelations)
    (hs : lookupA g s = some rel) :
    processPage g s =
      rel.r.foldl (fun g t => updateA g t (pushRi s))
        (inferPrevStage (inferNextStage (symStages g s rel) s rel.next) s) := by
  unfold processPage
  rw [hs]

theorem processPage_not_mem (g : Graph) (s : String) (hs : lookupA g s = none) :
    processPage g s = g := by
  unfold processPage
  rw [hs]

theorem isSome_symStages (g : Graph) (s : String) (rel : PageRelations) (k : String) :
    (lookupA (symStages g s rel) k).isSome = (lookupA g k).isSome := by
  unfold symStages
  rw [isSome_foldAdd, isSome_foldAdd, isSome_foldAdd, isSome_foldAdd,
    isSome_foldAdd, isSome_foldAdd]

theorem keysOf_symStages (g : Graph) (s : String) (rel : PageRelations) :
    keysOf (symStages g s rel) = keysOf g := by
  unfold symStages
  rw [keysOf_foldAdd, keysOf_foldAdd, keysOf_foldAdd, keysOf_foldAdd,
    keysOf_foldAdd, keysOf_foldAdd]

theorem nextOf_symStages (g : Graph) (s : String) (rel : PageRelations) (k : String) :
    nextOf (symStages g s rel) k = nextOf g k := by
  unfold symStages
  rw [nextOf_foldAdd_frame (pushDc s) (fun r => rfl),
    nextOf_foldAdd_frame (pushEq s) (fun r => rfl),
    nextOf_foldAdd_frame (pushEc s) (fun r => rfl),
    nextOf_foldAdd_frame (pushPo s) (fun r => rfl),
    nextOf_foldAdd_frame (pushTppi s) (fun r => rfl),
    nextOf_foldAdd_frame (pushNttpi s) (fun r => rfl)]

theorem prevOf_symStages (g : Graph) (s : String) (rel : PageRelations) (k : String) :
    prevOf (symStages g s rel) k = prevOf g k := by
  unfold symStages
  rw [prevOf_foldAdd_frame (pushDc s) (fun r => rfl),
    prevOf_foldAdd_frame (pushEq s) (fun r => rfl),
    prevOf_foldAdd_frame (pushEc s) (fun r => rfl),
    prevOf_foldAdd_frame (pushPo s) (fun r => rfl),
    prevOf_foldAdd_frame (pushTppi s) (fun r => rfl),
    prevOf_foldAdd_frame (pushNttpi s) (fun r => rfl)]

theorem isSome_processPage (g : Graph) (s k : String) :
    (lookupA (processPage g s) k).isSome = (lookupA g k).isSome := by
  cases hs : lookupA g s with
  | none => rw [processPage_not_mem g s hs]
  | some rel =>
    rw [processPage_eq g s rel hs, isSome_foldAdd, isSome_inferPrevStage,
      isSome_inferNextStage, isSome_symStages]

theorem keysOf_processPage (g : Graph) (s : String) :
    keysOf (processPage g s) = keysOf g := by
  cases hs : lookupA g s with
  | none => rw [processPage_not_mem g s hs]
  | some rel =>
    rw [processPage_eq g s rel hs, keysOf_foldAdd, keysOf_inferPrevStage,
      keysOf_inferNextStage, keysOf_symStages]

theorem fieldList_symStages_frame (f : PageRelations → List String) (g : Graph)
    (s : String) (rel : PageRelations) (k : String)
    (hntpp : ∀ r, f (pushNttpi s r) = f r)
    (htpp : ∀ r, f (pushTppi s r) = f r)
    (hpo : ∀ r, f (pushPo s r) = f r)
    (hec : ∀ r, f (pushEc s r) = f r)
    (heqq : ∀ r, f (pushEq s r) = f r)
    (hdc : ∀ r, f (pushDc s r) = f r) :
    fieldList f (symStages g s rel) k = fieldList f g k := by
  unfold symStages
  rw [fieldList_foldAdd_frame f (pushDc s) hdc,
    fieldList_foldAdd_frame f (pushEq s) heqq,
    fieldList_foldAdd_frame f (pushEc s) hec,
    fieldList_foldAdd_frame f (pushPo s) hpo,
    fieldList_foldAdd_frame f (pushTppi s) htpp,
    fieldList_foldAdd_frame f (pushNttpi s) hntpp]

/-! ### What pass 2 does to each relation field of each entry -/

/-- Pass 2 never changes any `ntpp` list. -/
theorem ntpp_processPage (g : Graph) (s k : String) :
    fieldList (fun r => r.ntpp) (processPage g s) k = fieldList (fun r => r.ntpp) g k := by
  cases hs : lookupA g s with
  | none => rw [processPage_not_mem g s hs]
  | some rel =>
    rw [processPage_eq g s rel hs,
      fieldList_foldAdd_frame (fun r => r.ntpp) (pushRi s) (fun r => rfl),
      fieldList_inferPrevStage (fun r => r.ntpp) (fun r v => rfl),
      fieldList_inferNextStage (fun r => r.ntpp) (fun r v => rfl),
      fieldList_symStages_frame (fun r => r.ntpp) g s rel k (fun r => rfl) (fun r => rfl)
        (fun r => rfl) (fun r => rfl) (fun r => rfl) (fun r => rfl)]

/-- Pass 2 never changes any `tpp` list. -/
theorem tpp_processPage (g : Graph) (s k : String) :
    fieldList (fun r => r.tpp) (processPage g s) k = fieldList (fun r => r.tpp) g k := by
  cases hs : lookupA g s with
  | none => rw [processPage_not_mem g s hs]
  | some rel =>
    rw [processPage_eq g s rel hs,
      fieldList_foldAdd_frame (fun r => r.tpp) (pushRi s) (fun r => rfl),
      fieldList_inferPrevStage (fun r => r.tpp) (fun r v => rfl),
      fieldList_inferNextStage (fun r => r.tpp) (fun r v => rfl),
      fieldList_symStages_frame (fun r => r.tpp) g s rel k (fun r => rfl) (fun r => rfl)
        (fun r => rfl) (fun r => rfl) (fun r => rfl) (fun r => rfl)]

/-- Pass 2 never changes any `r` list. -/
theorem r_processPage (g : Graph) (s k : String) :
    fieldList (fun r => r.r) (processPage g s) k = fieldList (fun r => r.r) g k := by
  cases hs : lookupA g s with
  | none => rw [processPage_not_mem g s hs]
  | some rel =>
    rw [processPage_eq g s rel hs,
      fieldList_foldAdd_frame (fun r => r.r) (pushRi s) (fun r => rfl),
      fieldList_inferPrevStage (fun r => r.r) (fun r v => rfl),
      fieldList_inferNextStage (fun r => r.r) (fun r v => rfl),
      fieldList_symStages_frame (fun r => r.r) g s rel k (fun r => rfl) (fun r => rfl)
        (fun r => rfl) (fun r => rfl) (fun r => rfl) (fun r => rfl)]

/-- Processing page `s` dedup-appends `s` to `target.nttpi` for every
existing target in `s.ntpp`, and touches no other `nttpi` list. -/
theorem nttpi_processPage (g : Graph) (s k : String) :
    fieldList (fun r => r.nttpi) (processPage g s) k =
      if k ∈ fieldList (fun r => r.ntpp) g s ∧ (lookupA g k).isSome
      then addUnique (fieldList (fun r => r.nttpi) g k) s
      else fieldList (fun r => r.nttpi) g k := by
  cases hs : lookupA g s with
  | none => rw [processPage_not_mem g s hs]; simp [fieldList, hs]
  | some rel =>
    rw [processPage_eq g s rel hs,
      fieldList_foldAdd_frame (fun r => r.nttpi) (pushRi s) (fun r => rfl),
      fieldList_inferPrevStage (fun r => r.nttpi) (fun r v => rfl),
      fieldList_inferNextStage (fun r => r.nttpi) (fun r v => rfl)]
    unfold symStages
    rw [fieldList_foldAdd_frame (fun r => r.nttpi) (pushDc s) (fun r => rfl),
      fieldList_foldAdd_frame (fun r => r.nttpi) (pushEq s) (fun r => rfl),
      fieldList_foldAdd_frame (fun r => r.nttpi) (pushEc s) (fun r => rfl),
      fieldList_foldAdd_frame (fun r => r.nttpi) (pushPo s) (fun r => rfl),
      fieldList_foldAdd_frame (fun r => r.nttpi) (pushTppi s) (fun r => rfl),
      fieldList_foldAdd_addU (fun r => r.nttpi) (pushNttpi s) (fun r => rfl)]
    simp [fieldList, hs]

/-- Processing page `s` dedup-appends `s` to `target.tppi` for every
existing target in `s.tpp`, and touches no other `tppi` list. -/
theorem tppi_processPage (g : Graph) (s k : String) :
    fieldList (fun r => r.tppi) (processPage g s) k =
      if k ∈ fieldList (fun r => r.tpp) g s ∧ (lookupA g k).isSome
      then addUnique (fieldList (fun r => r.tppi) g k) s
      else fieldList (fun r => r.tppi) g k := by
  cases hs : lookupA g s with
  | none => rw [processPage_not_mem g s hs]; simp [fieldList, hs]
  | some rel =>
    rw [processPage_eq g s rel hs,
      fieldList_foldAdd_frame (fun r => r.tppi) (pushRi s) (fun r => rfl),
      fieldList_inferPrevStage (fun r => r.tppi) (fun r v => rfl),
      fieldList_inferNextStage (fun r => r.tppi) (fun r v => rfl)]
    unfold symStages
    rw [fieldList_foldAdd_frame (fun r => r.tppi) (pushDc s) (fun r => rfl),
      fieldList_foldAdd_frame (fun r => r.tppi) (pushEq s) (fun r => rfl),
      fieldList_foldAdd_frame (fun r => r.tppi) (pushEc s) (fun r => rfl),
      fieldList_foldAdd_frame (fun r => r.tppi) (pushPo s) (fun r => rfl),
      fieldList_foldAdd_addU (fun r => r.tppi) (pushTppi s) (fun r => rfl),
      isSome_foldAdd,
      fieldList_foldAdd_frame (fun r => r.tppi) (pushNttpi s) (fun r => rfl)]
    simp [fieldList, hs]

/-- Processing page `s` dedup-appends `s` to `target.po` for every
existing target in `s.po` (as read when the `PO` loop starts), and
touches no other `po` list. -/
theorem po_processPage (g : Graph) (s k : String) :
    fieldList (fun r => r.po) (processPage g s) k =
      if k ∈ fieldList (fun r => r.po) g s ∧ (lookupA g k).isSome
      then addUnique (fieldList (fun r => r.po) g k) s
      else fieldList (fun r => r.po) g k := by
  cases hs : lookupA g s with
  | none => rw [processPage_not_mem g s hs]; simp [fieldList, hs]
  | some rel =>
    rw [processPage_eq g s rel hs,
      fieldList_foldAdd_frame (fun r => r.po) (pushRi s) (fun r => rfl),
      fieldList_inferPrevStage (fun r => r.po) (fun r v => rfl),
      fieldList_inferNextStage (fun r => r.po) (fun r v => rfl)]
    unfold symStages
    rw [fieldList_foldAdd_frame (fun r => r.po) (pushDc s) (fun r => rfl),
      fieldList_foldAdd_frame (fun r => r.po) (pushEq s) (fun r => rfl),
      fieldList_foldAdd_frame (fun r => r.po) (pushEc s) (fun r => rfl),
      fieldList_foldAdd_addU (fun r => r.po) (pushPo s) (fun r => rfl),
      isSome_foldAdd, isSome_foldAdd,
      fieldList_foldAdd_frame (fun r => r.po) (pushTppi s) (fun r => rfl),
      fieldList_foldAdd_frame (fun r => r.po) (pushNttpi s) (fun r => rfl)]
    simp [fieldList, hs]

/-- Processing page `s` dedup-appends `s` to `target.ec` for every
existing target in `s.ec`, and touches no other `ec` list. -/
theorem ec_processPage (g : Graph) (s k : String) :
    fieldList (fun r => r.ec) (processPage g s) k =
      if k ∈ fieldList (fun r => r.ec) g s ∧ (lookupA g k).isSome
      then addUnique (fieldList (fun r => r.ec) g k) s
      else fieldList (fun r => r.ec) g k := by
  cases hs : lookupA g s with
  | none => rw [processPage_not_mem g s hs]; simp [fieldList, hs]
  | some rel =>
    rw [processPage_eq g s rel hs,
      fieldList_foldAdd_frame (fun r => r.ec) (pushRi s) (fun r => rfl),
      fieldList_inferPrevStage (fun r => r.ec) (fun r v => rfl),
      fieldList_inferNextStage (fun r => r.ec) (fun r v => rfl)]
    unfold symStages
    rw [fieldList_foldAdd_frame (fun r => r.ec) (pushDc s) (fun r => rfl),
      fieldList_foldAdd_frame (fun r => r.ec) (pushEq s) (fun r => rfl),
      fieldList_foldAdd_addU (fun r => r.ec) (pushEc s) (fun r => rfl),
      isSome_foldAdd, isSome_foldAdd, isSome_foldAdd,
      fieldList_foldAdd_frame (fun r => r.ec) (pushPo s) (fun r => rfl),
      fieldList_foldAdd_frame (fun r => r.ec) (pushTppi s) (fun r => rfl),
      fieldList_foldAdd_frame (fun r => r.ec) (pushNttpi s) (fun r => rfl)]
    simp [fieldList, hs]

/-- Processing page `s` dedup-appends `s` to `target.eq` for every
existing target in `s.eq`, and touches no other `eq` list. -/
theorem eq_processPage (g : Graph) (s k : String) :
    fieldList (fun r => r.eq) (processPage g s) k =
      if k ∈ fieldList (fun r => r.eq) g s ∧ (lookupA g k).isSome
      then addUnique (fieldList (fun r => r.eq) g k) s
      else fieldList (fun r => r.eq) g k := by
  cases hs : lookupA g s with
  | none => rw [processPage_not_mem g s hs]; simp [fieldList, hs]
  | some rel =>
    rw [processPage_eq g s rel hs,
      fieldList_foldAdd_frame (fun r => r.eq) (pushRi s) (fun r => rfl),
      fieldList_inferPrevStage (fun r => r.eq) (fun r v => rfl),
      fieldList_inferNextStage (fun r => r.eq) (fun r v => rfl)]
    unfold symStages
    rw [fieldList_foldAdd_frame (fun r => r.eq) (pushDc s) (fun r => rfl),
      fieldList_foldAdd_addU (fun r => r.eq) (pushEq s) (fun r => rfl),
      isSome_foldAdd, isSome_foldAdd, isSome_foldAdd, isSome_foldAdd,
      fieldList_foldAdd_frame (fun r => r.eq) (pushEc s) (fun r => rfl),
      fieldList_foldAdd_frame (fun r => r.eq) (pushPo s) (fun r => rfl),
      fieldList_foldAdd_frame (fun r => r.eq) (pushTppi s) (fun r => rfl),
      fieldList_foldAdd_frame (fun r => r.eq) (pushNttpi s) (fun r => rfl)]
    simp [fieldList, hs]

/-- Processing page `s` dedup-appends `s` to `target.dc` for every
existing target in `s.dc`, and touches no other `dc` list. -/
theorem dc_processPage (g : Graph) (s k : String) :
    fieldList (fun r => r.dc) (processPage g s) k =
      if k ∈ fieldList (fun r => r.dc) g s ∧ (lookupA g k).isSome
      then addUnique (fieldList (fun r => r.dc) g k) s
      else fieldList (fun r => r.dc) g k := by
  cases hs : lookupA g s with
  | none => rw [processPage_not_mem g s hs]; simp [fieldList, hs]
  | some rel =>
    rw [processPage_eq g s rel hs,
      fieldList_foldAdd_frame (fun r => r.dc) (pushRi s) (fun r => rfl),
      fieldList_inferPrevStage (fun r => r.dc) (fun r v => rfl),
      fieldList_inferNextStage (fun r => r.dc) (fun r v => rfl)]
    unfold symStages
    rw [fieldList_foldAdd_addU (fun r => r.dc) (pushDc s) (fun r => rfl),
      isSome_foldAdd, isSome_foldAdd, isSome_foldAdd, isSome_foldAdd, isSome_foldAdd,
      fieldList_foldAdd_frame (fun r => r.dc) (pushEq s) (fun r => rfl),
      fieldList_foldAdd_frame (fun r => r.dc) (pushEc s) (fun r => rfl),
      fieldList_foldAdd_frame (fun r => r.dc) (pushPo s) (fun r => rfl),
      fieldList_foldAdd_frame (fun r => r.dc) (pushTppi s) (fun r => rfl),
      fieldList_foldAdd_frame (fun r => r.dc) (pushNttpi s) (fun r => rfl)]
    simp [fieldList, hs]

/-- Processing page `s` dedup-appends `s` to `target.ri` for every
existing target in `s.r`, and touches no other `ri` list. -/
theorem ri_processPage (g : Graph) (s k : String) :
    fieldList (fun r => r.ri) (processPage g s) k =
      if k ∈ fieldList (fun r => r.r) g s ∧ (lookupA g k).isSome
      then addUnique (fieldList (fun r => r.ri) g k) s
      else fieldList (fun r => r.ri) g k := by
  cases hs : lookupA g s with
  | none => rw [processPage_not_mem g s hs]; simp [fieldList, hs]
  | some rel =>
    rw [processPage_eq g s rel hs,
      fieldList_foldAdd_addU (fun r => r.ri) (pushRi s) (fun r => rfl),
      isSome_inferPrevStage, isSome_inferNextStage, isSome_symStages,
      fieldList_inferPrevStage (fun r => r.ri) (fun r v => rfl),
      fieldList_inferNextStage (fun r => r.ri) (fun r v => rfl),
      fieldList_symStages_frame (fun r => r.ri) g s rel k (fun r => rfl) (fun r => rfl)
        (fun r => rfl) (fun r => rfl) (fun r => rfl) (fun r => rfl)]
    simp [fieldList, hs]

/-! ## Abstract fold invariants for pass 2 -/

/-- Turn a per-field value equation into a membership characterization. -/
theorem processChar_of_val (flv fwd : Graph → String → List String)
    (hval : ∀ g s k, flv (processPage g s) k =
      if k ∈ fwd g s ∧ (lookupA g k).isSome then addUnique (flv g k) s else flv g k) :
    ∀ g s k x, x ∈ flv (processPage g s) k ↔
      x ∈ flv g k ∨ (x = s ∧ k ∈ fwd g s ∧ (lookupA g k).isSome) := by
  intro g s k x
  rw [hval]
  by_cases hc : k ∈ fwd g s ∧ (lookupA g k).isSome
  · rw [if_pos hc, mem_addUnique]
    constructor
    · rintro (h | rfl)
      · exact Or.inl h
      · exact Or.inr ⟨rfl, hc.1, hc.2⟩
    · rintro (h | ⟨rfl, _, _⟩)
      · exact Or.inl h
      · exact Or.inr rfl
  · rw [if_neg hc]
    constructor
    · exact Or.inl
    · rintro (h | ⟨rfl, h1, h2⟩)
      · exact h
      · exact absurd ⟨h1, h2⟩ hc

/-- Generic symmetry argument: folding a step whose only new membership
in `k`'s set is the processed slug itself (and only when `k` is in the
processed slug's own set), over a list containing every present key,
yields a symmetric membership relation on present keys. -/
theorem foldl_sym_mem_iff {α : Type} (step : α → String → α)
    (mem : α → String → String → Prop) (pres : α → String → Prop)
    (hchar : ∀ a s k x, mem (step a s) k x ↔ mem a k x ∨ (x = s ∧ mem a s k ∧ pres a k))
    (hpres : ∀ a s k, pres (step a s) k ↔ pres a k)
    (a0 : α) (ks : List String) (hks : ∀ k, pres a0 k → k ∈ ks) :
    ∀ A B, pres a0 A → pres a0 B →
      (mem (ks.foldl step a0) A B ↔ mem (ks.foldl step a0) B A) := by
  have hmono : ∀ (l : List String) (a : α) (k x : String),
      mem a k x → mem (l.foldl step a) k x := by
    intro l
    induction l with
    | nil => intro a k x h; exact h
    | cons s l ih =>
      intro a k x h
      rw [List.foldl_cons]
      exact ih _ _ _ ((hchar a s k x).mpr (Or.inl h))
  have hpresf : ∀ (l : List String) (a : α) (k : String),
      pres (l.foldl step a) k ↔ pres a k := by
    intro l
    induction l with
    | nil => intro a k; exact Iff.rfl
    | cons s l ih =>
      intro a k
      rw [List.foldl_cons]
      exact (ih _ _).trans (hpres a s k)
  have hinv : ∀ (l : List String) (a : α),
      (∀ k x, mem a k x → mem a0 k x ∨ mem a x k) →
      (∀ k x, mem (l.foldl step a) k x → mem a0 k x ∨ mem (l.foldl step a) x k) := by
    intro l
    induction l with
    | nil => intro a h; exact h
    | cons s l ih =>
      intro a h
      rw [List.foldl_cons]
      apply ih
      intro k x hm
      rcases (hchar a s k x).mp hm with hm1 | ⟨hxs, hm2, _⟩
      · rcases h k x hm1 with h0 | h1
        · exact Or.inl h0
        · exact Or.inr ((hchar a s x k).mpr (Or.inl h1))
      · subst hxs
        exact Or.inr ((hchar a x x k).mpr (Or.inl hm2))
  have hmain : ∀ A B, pres a0 A → pres a0 B → mem (ks.foldl step a0) A B →
      mem (ks.foldl step a0) B A := by
    intro A B hA hB hm
    rcases hinv ks a0 (fun k x h => Or.inl h) A B hm with h0 | h1
    · obtain ⟨l1, l2, hsplit⟩ := List.append_of_mem (hks A hA)
      subst hsplit
      rw [List.foldl_append, List.foldl_cons]
      exact hmono l2 _ _ _ ((hchar (l1.foldl step a0) A B A).mpr
        (Or.inr ⟨rfl, hmono l1 _ _ _ h0, (hpresf l1 a0 B).mpr hB⟩))
    · exact h1
  intro A B hA hB
  exact ⟨hmain A B hA hB, hmain B A hB hA⟩

/-- The forward component of a directed pair is left untouched by any
fold of the step. -/
theorem foldl_dir_frame {α : Type} (step : α → String → α) (fwd : α → String → List String)
    (hfw : ∀ a s k, fwd (step a s) k = fwd a k) (ks : List String) (a0 : α) (k : String) :
    fwd (ks.foldl step a0) k = fwd a0 k := by
  induction ks generalizing a0 with
  | nil => rfl
  | cons s l ih => rw [List.foldl_cons, ih, hfw]

/-- Generic inverse-completeness argument for the directed pairs. -/
theorem foldl_dir_complete {α : Type} (step : α → String → α)
    (mem : α → String → String → Prop) (pres : α → String → Prop)
    (fwd : α → String → List String)
    (hfw : ∀ a s k, fwd (step a s) k = fwd a k)
    (hchar : ∀ a s k x, mem (step a s) k x ↔ mem a k x ∨ (x = s ∧ k ∈ fwd a s ∧ pres a k))
    (hpres : ∀ a s k, pres (step a s) k ↔ pres a k)
    (a0 : α) (ks : List String) (hks : ∀ k, pres a0 k → k ∈ ks)
    (A B : String) (hA : pres a0 A) (hB : pres a0 B) (hmem : B ∈ fwd a0 A) :
    mem (ks.foldl step a0) B A := by
  have hmono : ∀ (l : List String) (a : α) (k x : String),
      mem a k x → mem (l.foldl step a) k x := by
    intro l
    induction l with
    | nil => intro a k x h; exact h
    | cons s l ih =>
      intro a k x h
      rw [List.foldl_cons]
      exact ih _ _ _ ((hchar a s k x).mpr (Or.inl h))
  have hpresf : ∀ (l : List String) (a : α) (k : String),
      pres (l.foldl step a) k ↔ pres a k := by
    intro l
    induction l with
    | nil => intro a k; exact Iff.rfl
    | cons s l ih =>
      intro a k
      rw [List.foldl_cons]
      exact (ih _ _).trans (hpres a s k)
  obtain ⟨l1, l2, hsplit⟩ := List.append_of_mem (hks A hA)
  subst hsplit
  rw [List.foldl_append, List.foldl_cons]
  apply hmono l2
  apply (hchar (l1.foldl step a0) A B A).mpr
  refine Or.inr ⟨rfl, ?_, (hpresf l1 a0 B).mpr hB⟩
  rw [foldl_dir_frame step fwd hfw l1 a0 A]
  exact hmem

/-- Keys are stable across the whole of pass 2. -/
theorem keysOf_pass2 (ks : List String) (g : Graph) :
    keysOf (ks.foldl processPage g) = keysOf g := by
  induction ks generalizing g with
  | nil => rfl
  | cons s l ih => rw [List.foldl_cons, ih, keysOf_processPage]

theorem buildRelationsGraph_fst (store : List RawPage) :
    (buildRelationsGraph store).1 =
      (keysOf (pass1Graph store)).foldl processPage (pass1Graph store) := rfl

theorem mem_keys_final (store : List RawPage) (A : String) :
    A ∈ keysOf (buildRelationsGraph store).1 ↔
      (lookupA (pass1Graph store) A).isSome := by
  rw [buildRelationsGraph_fst, keysOf_pass2, mem_keysOf_iff_isSome]

/-! ## Claims C1 and C2 -/

/-- C1: After `buildRelationsGraph` completes, for every pair of pages
A and B present in the graph and every symmetric relation kind in
{po, ec, eq, dc}, B is a member of `graph[A].<kind>` if and only if A
is a member of `graph[B].<kind>`, regardless of which of the two pages
declared the relation and of the order in which pass 2 processes the
pages (the page store, hence the processing order, is universally
quantified). -/
theorem C1_symmetric_membership (store : List RawPage) (A B : String)
    (hA : A ∈ keysOf (buildRelationsGraph store).1)
    (hB : B ∈ keysOf (buildRelationsGraph store).1) :
    (B ∈ fieldList (fun r => r.po) (buildRelationsGraph store).1 A ↔
      A ∈ fieldList (fun r => r.po) (buildRelationsGraph store).1 B) ∧
    (B ∈ fieldList (fun r => r.ec) (buildRelationsGraph store).1 A ↔
      A ∈ fieldList (fun r => r.ec) (buildRelationsGraph store).1 B) ∧
    (B ∈ fieldList (fun r => r.eq) (buildRelationsGraph store).1 A ↔
      A ∈ fieldList (fun r => r.eq) (buildRelationsGraph store).1 B) ∧
    (B ∈ fieldList (fun r => r.dc) (buildRelationsGraph store).1 A ↔
      A ∈ fieldList (fun r => r.dc) (buildRelationsGraph store).1 B) := by
  rw [mem_keys_final] at hA hB
  rw [buildRelationsGraph_fst]
  have hks : ∀ k, (lookupA (pass1Graph store) k).isSome →
      k ∈ keysOf (pass1Graph store) :=
    fun k h => (mem_keysOf_iff_isSome _ k).mpr h
  have hpres : ∀ (a : Graph) (s k : String),
      ((lookupA (processPage a s) k).isSome : Prop) ↔ (lookupA a k).isSome := by
    intro a s k
    rw [isSome_processPage]
  refine ⟨?_, ?_, ?_, ?_⟩
  · exact foldl_sym_mem_iff processPage
      (fun g k x => x ∈ fieldList (fun r => r.po) g k)
      (fun g k => (lookupA g k).isSome)
      (processChar_of_val (fun g k => fieldList (fun r => r.po) g k)
        (fun g k => fieldList (fun r => r.po) g k) po_processPage)
      hpres (pass1Graph store) (keysOf (pass1Graph store)) hks A B hA hB
  · exact foldl_sym_mem_iff processPage
      (fun g k x => x ∈ fieldList (fun r => r.ec) g k)
      (fun g k => (lookupA g k).isSome)
      (processChar_of_val (fun g k => fieldList (fun r => r.ec) g k)
        (fun g k => fieldList (fun r => r.ec) g k) ec_processPage)
      hpres (pass1Graph store) (keysOf (pass1Graph store)) hks A B hA hB
  · exact foldl_sym_mem_iff processPage
      (fun g k x => x ∈ fieldList (fun r => r.eq) g k)
      (fun g k => (lookupA g k).isSome)
      (processChar_of_val (fun g k => fieldList (fun r => r.eq) g k)
        (fun g k => fieldList (fun r => r.eq) g k) eq_processPage)
      hpres (pass1Graph store) (keysOf (pass1Graph store)) hks A B hA hB
  · exact foldl_sym_mem_iff processPage
      (fun g k x => x ∈ fieldList (fun r => r.dc) g k)
      (fun g k => (lookupA g k).isSome)
      (processChar_of_val (fun g k => fieldList (fun r => r.dc) g k)
        (fun g k => fieldList (fun r => r.dc) g k) dc_processPage)
      hpres (pass1Graph store) (keysOf (pass1Graph store)) hks A B hA hB

/-- A two-page store with one declared `po` relation, used as witness
input. -/
def storeW1 : List RawPage :=
  [ { id := "a", title := "A", body := "", po := some ["b"] },
    { id := "b", title := "B", body := "" } ]

/-- Witness for C1 at a concrete store. -/
theorem C1_symmetric_membership_witness :
    ("a" ∈ keysOf (buildRelationsGraph storeW1).1) ∧
    ("b" ∈ keysOf (buildRelationsGraph storeW1).1) ∧
    (("b" ∈ fieldList (fun r => r.po) (buildRelationsGraph storeW1).1 "a" ↔
       "a" ∈ fieldList (fun r => r.po) (buildRelationsGraph storeW1).1 "b") ∧
     ("b" ∈ fieldList (fun r => r.ec) (buildRelationsGraph storeW1).1 "a" ↔
       "a" ∈ fieldList (fun r => r.ec) (buildRelationsGraph storeW1).1 "b") ∧
     ("b" ∈ fieldList (fun r => r.eq) (buildRelationsGraph storeW1).1 "a" ↔
       "a" ∈ fieldList (fun r => r.eq) (buildRelationsGraph storeW1).1 "b") ∧
     ("b" ∈ fieldList (fun r => r.dc) (buildRelationsGraph storeW1).1 "a" ↔
       "a" ∈ fieldList (fun r => r.dc) (buildRelationsGraph storeW1).1 "b")) :=
  ⟨by decide, by decide, C1_symmetric_membership storeW1 "a" "b" (by decide) (by decide)⟩

/-- C2: After `buildRelationsGraph` completes, for all pages A and B
present in the graph: `B ∈ graph[A].ntpp` implies `A ∈ graph[B].nttpi`;
`B ∈ graph[A].tpp` implies `A ∈ graph[B].tppi`; and `B ∈ graph[A].r`
implies `A ∈ graph[B].ri`. -/
theorem C2_inverse_completeness (store : List RawPage) (A B : String)
    (hA : A ∈ keysOf (buildRelationsGraph store).1)
    (hB : B ∈ keysOf (buildRelationsGraph store).1) :
    (B ∈ fieldList (fun r => r.ntpp) (buildRelationsGraph store).1 A →
      A ∈ fieldList (fun r => r.nttpi) (buildRelationsGraph store).1 B) ∧
    (B ∈ fieldList (fun r => r.tpp) (buildRelationsGraph store).1 A →
      A ∈ fieldList (fun r => r.tppi) (buildRelationsGraph store).1 B) ∧
    (B ∈ fieldList (fun r => r.r) (buildRelationsGraph store).1 A →
      A ∈ fieldList (fun r => r.ri) (buildRelationsGraph store).1 B) := by
  rw [mem_keys_final] at hA hB
  rw [buildRelationsGraph_fst]
  have hks : ∀ k, (lookupA (pass1Graph store) k).isSome →
      k ∈ keysOf (pass1Graph store) :=
    fun k h => (mem_keysOf_iff_isSome _ k).mpr h
  have hpres : ∀ (a : Graph) (s k : String),
      ((lookupA (processPage a s) k).isSome : Prop) ↔ (lookupA a k).isSome := by
    intro a s k
    rw [isSome_processPage]
  refine ⟨?_, ?_, ?_⟩
  · intro hm
    rw [foldl_dir_frame processPage (fun g k => fieldList (fun r => r.ntpp) g k)
      ntpp_processPage] at hm
    exact foldl_dir_complete processPage
      (fun g k x => x ∈ fieldList (fun r => r.nttpi) g k)
      (fun g k => (lookupA g k).isSome)
      (fun g k => fieldList (fun r => r.ntpp) g k)
      ntpp_processPage
      (processChar_of_val (fun g k => fieldList (fun r => r.nttpi) g k)
        (fun g k => fieldList (fun r => r.ntpp) g k) nttpi_processPage)
      hpres (pass1Graph store) (keysOf (pass1Graph store)) hks A B hA hB hm
  · intro hm
    rw [foldl_dir_frame processPage (fun g k => fieldList (fun r => r.tpp) g k)
      tpp_processPage] at hm
    exact foldl_dir_complete processPage
      (fun g k x => x ∈ fieldList (fun r => r.tppi) g k)
      (fun g k => (lookupA g k).isSome)
      (fun g k => fieldList (fun r => r.tpp) g k)
      tpp_processPage
      (processChar_of_val (fun g k => fieldList (fun r => r.tppi) g k)
        (fun g k => fieldList (fun r => r.tpp) g k) tppi_processPage)
      hpres (pass1Graph store) (keysOf (pass1Graph store)) hks A B hA hB hm
  · intro hm
    rw [foldl_dir_frame processPage (fun g k => fieldList (fun r => r.r) g k)
      r_processPage] at hm
    exact foldl_dir_complete processPage
      (fun g k x => x ∈ fieldList (fun r => r.ri) g k)
      (fun g k => (lookupA g k).isSome)
      (fun g k => fieldList (fun r => r.r) g k)
      r_processPage
      (processChar_of_val (fun g k => fieldList (fun r => r.ri) g k)
        (fun g k => fieldList (fun r => r.r) g k) ri_processPage)
      hpres (pass1Graph store) (keysOf (pass1Graph store)) hks A B hA hB hm

/-! ## Claim C9 -/

/-- C9: Running `buildRelationsGraph` twice over the same immutable
page store (the same pages in the same enumeration order) produces
identical relations graphs and page-info maps.  In this embedding the
construction is a pure function of the page store, so the two runs
coincide definitionally; the JS source has no other input (no
randomness, clock, or I/O inside the build) beyond the documented
first-write-wins tie-breaks, which are themselves functions of the
store order. -/
theorem C9_deterministic_rebuild (store : List RawPage) :
    (buildRelationsGraph store).1 = (buildRelationsGraph store).1 ∧
    (buildRelationsGraph store).2 = (buildRelationsGraph store).2 :=
  ⟨rfl, rfl⟩

/-! ## What pass 2 does to `next` and `prev` pointers -/

/-- Master equation for `prev`: processing a present page `s` assigns
`(s.next).prev = s` exactly when `s.next` is truthy, names an existing
entry, and that entry's `prev` is falsy. -/
theorem prevOf_processPage (g : Graph) (s k : String) (rel : PageRelations)
    (hs : lookupA g s = some rel) :
    prevOf (processPage g s) k =
      match rel.next with
      | some nx =>
        if nx = "" then prevOf g k
        else if k = nx ∧ (lookupA g k).isSome ∧ ¬ truthy (prevOf g k) then some s
        else prevOf g k
      | none => prevOf g k := by
  rw [processPage_eq g s rel hs,
    prevOf_foldAdd_frame (pushRi s) (fun r => rfl),
    prevOf_inferPrevStage]
  cases hn : rel.next with
  | none => rw [inferNextStage_none, prevOf_symStages]
  | some nx =>
    by_cases hnx : nx = ""
    · subst hnx
      rw [inferNextStage_empty, prevOf_symStages]
      simp
    · rw [prevOf_inferNextStage _ s nx hnx k, prevOf_symStages, isSome_symStages]
      simp [hnx]

/-- Master equation for `next`: processing `s` assigns
`(s.prev).next = s` exactly when the live `s.prev` — possibly just set
by the `Next -> Prev` step when `s.next = s` — is truthy, names an
existing entry, and that entry's `next` is falsy. -/
theorem nextOf_processPage (g : Graph) (s k : String) (rel : PageRelations)
    (hs : lookupA g s = some rel) :
    nextOf (processPage g s) k =
      match (if rel.next = some s ∧ s ≠ "" ∧ ¬ truthy rel.prev
             then some s else rel.prev) with
      | some pv =>
        if pv = "" then nextOf g k
        else if k = pv ∧ (lookupA g k).isSome ∧ ¬ truthy (nextOf g k) then some s
        else nextOf g k
      | none => nextOf g k := by
  rw [processPage_eq g s rel hs, nextOf_foldAdd_frame (pushRi s) (fun r => rfl)]
  have hgs : prevOf g s = rel.prev := by
    unfold prevOf
    rw [hs]
  have hps : prevOf (inferNextStage (symStages g s rel) s rel.next) s =
      (if rel.next = some s ∧ s ≠ "" ∧ ¬ truthy rel.prev
       then some s else rel.prev) := by
    cases hn : rel.next with
    | none =>
      rw [inferNextStage_none, prevOf_symStages, hgs]
      simp
    | some nx =>
      by_cases hnx : nx = ""
      · subst hnx
        rw [inferNextStage_empty, prevOf_symStages, hgs,
          if_neg (fun hc => hc.2.1 (by injection hc.1 with h2; exact h2.symm))]
      · rw [prevOf_inferNextStage _ s nx hnx s, prevOf_symStages, isSome_symStages,
          hgs, hs]
        by_cases hsnx : s = nx
        · subst hsnx
          by_cases hp : truthy rel.prev <;> simp [hnx, hp]
        · have hnxs : ¬ nx = s := fun h => hsnx h.symm
          simp [hsnx, hnxs]
  split
  next pv heq =>
    by_cases hpv : pv = ""
    · subst hpv
      rw [inferPrevStage_of_prev_empty _ s (hps.trans heq), nextOf_inferNextStage,
        nextOf_symStages, if_pos rfl]
    · rw [nextOf_inferPrevStage _ s pv (hps.trans heq) hpv k, nextOf_inferNextStage,
        nextOf_symStages, isSome_inferNextStage, isSome_symStages, if_neg hpv]
  next heq =>
    rw [inferPrevStage_of_prev_none _ s (hps.trans heq), nextOf_inferNextStage,
      nextOf_symStages]

/-- The `prev` pointer of the page being processed, after processing:
either freshly self-assigned (only when `s.next = s`) or untouched. -/
theorem prevOf_processPage_self (g : Graph) (s : String) (rel : PageRelations)
    (hs : lookupA g s = some rel) :
    prevOf (processPage g s) s =
      (if rel.next = some s ∧ s ≠ "" ∧ ¬ truthy rel.prev then some s else rel.prev) := by
  have hgs : prevOf g s = rel.prev := by
    unfold prevOf
    rw [hs]
  have h := prevOf_processPage g s s rel hs
  split at h
  next nx heq =>
    by_cases hnx : nx = ""
    · subst hnx
      rw [if_pos rfl] at h
      rw [h, hgs,
        if_neg (fun hc => hc.2.1 (by rw [hc.1] at heq; injection heq))]
    · rw [if_neg hnx] at h
      rw [h, hgs, hs, heq]
      by_cases hsnx : s = nx
      · subst hsnx
        by_cases hp : truthy rel.prev <;> simp [hnx, hp]
      · have hnxs : ¬ nx = s := fun h2 => hsnx h2.symm
        simp [hsnx, hnxs]
  next heq =>
    rw [h, hgs, heq]
    simp

/-- Either a `prev` pointer is untouched by one pass-2 step, or the
write conditions all held and it now names the processed page. -/
theorem prevOf_processPage_cases (g : Graph) (s k : String) :
    prevOf (processPage g s) k = prevOf g k ∨
      (nextOf g s = some k ∧ k ≠ "" ∧ (lookupA g k).isSome ∧
       truthy (prevOf g k) = false ∧ prevOf (processPage g s) k = some s) := by
  cases hls : lookupA g s with
  | none =>
    rw [processPage_not_mem g s hls]
    exact Or.inl rfl
  | some rel =>
    have h := prevOf_processPage g s k rel hls
    split at h
    next nx heq =>
      by_cases hnx : nx = ""
      · rw [if_pos hnx] at h
        exact Or.inl h
      · rw [if_neg hnx] at h
        by_cases hc : k = nx ∧ (lookupA g k).isSome ∧ ¬ truthy (prevOf g k)
        · rw [if_pos hc] at h
          refine Or.inr ⟨?_, ?_, hc.2.1, by simpa using hc.2.2, h⟩
          · unfold nextOf
            rw [hls]
            show rel.next = some k
            rw [heq, hc.1]
          · rw [hc.1]; exact hnx
        · rw [if_neg hc] at h
          exact Or.inl h
    next heq =>
      exact Or.inl h

/-- When all write conditions hold, the `prev` write does happen. -/
theorem prevOf_processPage_write (g : Graph) (s B : String)
    (hn : nextOf g s = some B) (hBne : B ≠ "") (hB : (lookupA g B).isSome)
    (hfal : truthy (prevOf g B) = false) :
    prevOf (processPage g s) B = some s := by
  cases hls : lookupA g s with
  | none =>
    unfold nextOf at hn
    rw [hls] at hn
    simp at hn
  | some rel =>
    have hn2 : rel.next = some B := by
      unfold nextOf at hn
      rw [hls] at hn
      exact hn
    have h := prevOf_processPage g s B rel hls
    split at h
    next nx heq =>
      have hnxB : B = nx := by
        rw [hn2] at heq
        injection heq
      subst hnxB
      rw [if_neg hBne, if_pos ⟨rfl, hB, by simp [hfal]⟩] at h
      exact h
    next heq =>
      rw [hn2] at heq
      simp at heq

/-- Either a `next` pointer is untouched by one pass-2 step, or the
write conditions all held: it now names the processed page `s`, and in
the resulting graph `s.prev` names the written page. -/
theorem nextOf_processPage_cases (g : Graph) (s k : String) :
    nextOf (processPage g s) k = nextOf g k ∨
      (prevOf (processPage g s) s = some k ∧ k ≠ "" ∧ (lookupA g k).isSome ∧
       truthy (nextOf g k) = false ∧ nextOf (processPage g s) k = some s) := by
  cases hls : lookupA g s with
  | none =>
    rw [processPage_not_mem g s hls]
    exact Or.inl rfl
  | some rel =>
    have h := nextOf_processPage g s k rel hls
    have hself := prevOf_processPage_self g s rel hls
    split at h
    next pv heq =>
      by_cases hpv : pv = ""
      · rw [if_pos hpv] at h
        exact Or.inl h
      · rw [if_neg hpv] at h
        by_cases hc : k = pv ∧ (lookupA g k).isSome ∧ ¬ truthy (nextOf g k)
        · rw [if_pos hc] at h
          refine Or.inr ⟨?_, ?_, hc.2.1, by simpa using hc.2.2, h⟩
          · rw [hself, heq, hc.1]
          · rw [hc.1]; exact hpv
        · rw [if_neg hc] at h
          exact Or.inl h
    next heq =>
      exact Or.inl h

/-! ## Persistence of set (truthy) `next`/`prev` pointers -/

theorem nextOf_inferPrevStage_truthy (g : Graph) (s k : String)
    (h : truthy (nextOf g k)) : nextOf (inferPrevStage g s) k = nextOf g k := by
  cases hp : prevOf g s with
  | none => rw [inferPrevStage_of_prev_none g s hp]
  | some pv =>
    by_cases hpv : pv = ""
    · subst hpv
      rw [inferPrevStage_of_prev_empty g s hp]
    · rw [nextOf_inferPrevStage g s pv hp hpv k, if_neg (fun hc => hc.2.2 h)]

/-- A set (truthy) `prev` pointer is never overwritten by pass 2. -/
theorem prevOf_processPage_truthy (g : Graph) (s k : String)
    (h : truthy (prevOf g k)) : prevOf (processPage g s) k = prevOf g k := by
  cases hs : lookupA g s with
  | none => rw [processPage_not_mem g s hs]
  | some rel =>
    rw [processPage_eq g s rel hs,
      prevOf_foldAdd_frame (pushRi s) (fun r => rfl),
      prevOf_inferPrevStage]
    cases hn : rel.next with
    | none => rw [inferNextStage_none, prevOf_symStages]
    | some nx =>
      by_cases hnx : nx = ""
      · subst hnx
        rw [inferNextStage_empty, prevOf_symStages]
      · rw [prevOf_inferNextStage _ s nx hnx k, prevOf_symStages,
          if_neg (fun hc => hc.2.2 h)]

/-- A set (truthy) `next` pointer is never overwritten by pass 2. -/
theorem nextOf_processPage_truthy (g : Graph) (s k : String)
    (h : truthy (nextOf g k)) : nextOf (processPage g s) k = nextOf g k := by
  cases hs : lookupA g s with
  | none => rw [processPage_not_mem g s hs]
  | some rel =>
    rw [processPage_eq g s rel hs,
      nextOf_foldAdd_frame (pushRi s) (fun r => rfl)]
    rw [nextOf_inferPrevStage_truthy]
    · rw [nextOf_inferNextStage, nextOf_symStages]
    · rw [nextOf_inferNextStage, nextOf_symStages]
      exact h

theorem nextOf_fold_truthy (l : List String) (g : Graph) (k : String)
    (h : truthy (nextOf g k)) : nextOf (l.foldl processPage g) k = nextOf g k := by
  induction l generalizing g with
  | nil => rfl
  | cons s l ih =>
    rw [List.foldl_cons]
    have h1 : nextOf (processPage g s) k = nextOf g k := nextOf_processPage_truthy g s k h
    rw [ih (processPage g s) (by rw [h1]; exact h), h1]

theorem prevOf_fold_truthy (l : List String) (g : Graph) (k : String)
    (h : truthy (prevOf g k)) : prevOf (l.foldl processPage g) k = prevOf g k := by
  induction l generalizing g with
  | nil => rfl
  | cons s l ih =>
    rw [List.foldl_cons]
    have h1 : prevOf (processPage g s) k = prevOf g k := prevOf_processPage_truthy g s k h
    rw [ih (processPage g s) (by rw [h1]; exact h), h1]

theorem isSome_pass2 (l : List String) (g : Graph) (k : String) :
    (lookupA (l.foldl processPage g) k).isSome = (lookupA g k).isSome := by
  induction l generalizing g with
  | nil => rfl
  | cons s l ih => rw [List.foldl_cons, ih, isSome_processPage]

/-! ## Origin invariants for the `next`/`prev` inference -/

/-- Every truthy `prev` entry was either already there in the base
graph or was written by its value's page, whose `next` still names the
entry's owner. -/
def PrevOrigin (g0 g : Graph) : Prop :=
  ∀ B p, prevOf g B = some p → p ≠ "" →
    prevOf g0 B = some p ∨ (nextOf g p = some B ∧ B ≠ "")

theorem prevOrigin_step (g0 g : Graph) (s : String) (h : PrevOrigin g0 g) :
    PrevOrigin g0 (processPage g s) := by
  intro B p hp hpne
  rcases prevOf_processPage_cases g s B with he | ⟨hn, hBne, hBsome, hfal, hw⟩
  · rw [he] at hp
    rcases h B p hp hpne with h0 | ⟨h1, h2⟩
    · exact Or.inl h0
    · refine Or.inr ⟨?_, h2⟩
      rw [nextOf_processPage_truthy g s p (by rw [h1]; simp [truthy, h2]), h1]
  · have hps : p = s := by rw [hw] at hp; injection hp with h2; exact h2.symm
    refine Or.inr ⟨?_, hBne⟩
    rw [hps, nextOf_processPage_truthy g s s (by rw [hn]; simp [truthy, hBne]), hn]

theorem prevOrigin_fold (g0 : Graph) (l : List String) (g : Graph)
    (h : PrevOrigin g0 g) : PrevOrigin g0 (l.foldl processPage g) := by
  induction l generalizing g with
  | nil => exact h
  | cons s l ih =>
    rw [List.foldl_cons]
    exact ih _ (prevOrigin_step g0 g s h)

/-- Every truthy `next` entry was either already there in the base
graph or was inferred from its value's `prev`. -/
def NextOrigin (g0 g : Graph) : Prop :=
  ∀ A v, nextOf g A = some v → v ≠ "" →
    nextOf g0 A = some v ∨ (prevOf g v = some A ∧ A ≠ "")

theorem nextOrigin_step (g0 g : Graph) (s : String) (h : NextOrigin g0 g) :
    NextOrigin g0 (processPage g s) := by
  intro A v hv hvne
  rcases nextOf_processPage_cases g s A with he | ⟨hw1, hAne, hAsome, hfal, hw⟩
  · rw [he] at hv
    rcases h A v hv hvne with h0 | ⟨h1, h2⟩
    · exact Or.inl h0
    · refine Or.inr ⟨?_, h2⟩
      rw [prevOf_processPage_truthy g s v (by rw [h1]; simp [truthy, h2]), h1]
  · have hvs : v = s := by rw [hw] at hv; injection hv with h2; exact h2.symm
    refine Or.inr ⟨?_, hAne⟩
    rw [hvs]
    exact hw1

theorem nextOrigin_fold (g0 : Graph) (l : List String) (g : Graph)
    (h : NextOrigin g0 g) : NextOrigin g0 (l.foldl processPage g) := by
  induction l generalizing g with
  | nil => exact h
  | cons s l ih =>
    rw [List.foldl_cons]
    exact ih _ (nextOrigin_step g0 g s h)

/-- The state of `B.prev` after page `A`'s `next = B` inference ran:
it names `A`, or it keeps a truthy pass-1 declared value, or it names
an earlier-processed page `C` whose `next` still points at `B`. -/
def QInv (g0 : Graph) (A B : String) (g : Graph) : Prop :=
  prevOf g B = some A
  ∨ (∃ p, p ≠ "" ∧ prevOf g0 B = some p ∧ prevOf g B = some p)
  ∨ (∃ C, C ∈ keysOf g0 ∧ C ≠ A ∧ C ≠ "" ∧ nextOf g C = some B ∧ prevOf g B = some C)

theorem qinv_step (g0 : Graph) (A B : String) (hBne : B ≠ "") (g : Graph) (s : String)
    (hkeys : keysOf g = keysOf g0) (h : QInv g0 A B g) : QInv g0 A B (processPage g s) := by
  rcases prevOf_processPage_cases g s B with he | ⟨hn, _, _, hfal, hw⟩
  · rcases h with h1 | ⟨p, hp1, hp2, hp3⟩ | ⟨C, hc1, hc2, hc3, hc4, hc5⟩
    · exact Or.inl (by rw [he]; exact h1)
    · exact Or.inr (Or.inl ⟨p, hp1, hp2, by rw [he]; exact hp3⟩)
    · refine Or.inr (Or.inr ⟨C, hc1, hc2, hc3, ?_, by rw [he]; exact hc5⟩)
      rw [nextOf_processPage_truthy g s C (by rw [hc4]; simp [truthy, hBne]), hc4]
  · by_cases hsA : s = A
    · exact Or.inl (by rw [hw, hsA])
    · by_cases hsE : s = ""
      · exfalso
        rcases h with h1 | ⟨p, hp1, hp2, hp3⟩ | ⟨C, hc1, hc2, hc3, hc4, hc5⟩
        · rw [h1] at hfal
          simp [truthy] at hfal
          exact hsA (hsE.trans hfal.symm)
        · rw [hp3] at hfal
          simp [truthy] at hfal
          exact hp1 hfal
        · rw [hc5] at hfal
          simp [truthy] at hfal
          exact hc3 hfal
      · refine Or.inr (Or.inr ⟨s, ?_, hsA, hsE, ?_, hw⟩)
        · have hsome : (lookupA g s).isSome := by
            unfold nextOf at hn
            cases hls : lookupA g s
            · rw [hls] at hn; simp at hn
            · simp
          rw [← hkeys]
          exact (mem_keysOf_iff_isSome g s).mpr hsome
        · rw [nextOf_processPage_truthy g s s (by rw [hn]; simp [truthy, hBne]), hn]

theorem qinv_fold (g0 : Graph) (A B : String) (hBne : B ≠ "") (l : List String)
    (g : Graph) (hkeys : keysOf g = keysOf g0) (h : QInv g0 A B g) :
    QInv g0 A B (l.foldl processPage g) := by
  induction l generalizing g with
  | nil => exact h
  | cons s l ih =>
    rw [List.foldl_cons]
    exact ih (processPage g s) (by rw [keysOf_processPage]; exact hkeys)
      (qinv_step g0 A B hBne g s hkeys h)

theorem qinv_establish (g0 g : Graph) (A B : String) (hBne : B ≠ "")
    (hkeys : keysOf g = keysOf g0) (horigin : PrevOrigin g0 g)
    (hnext : nextOf g A = some B) (hB : (lookupA g B).isSome) :
    QInv g0 A B (processPage g A) := by
  by_cases hfal : truthy (prevOf g B)
  · cases hpb : prevOf g B with
    | none =>
      rw [hpb] at hfal
      simp [truthy] at hfal
    | some p =>
      have hpne : p ≠ "" := by
        rw [hpb] at hfal
        simpa [truthy] using hfal
      rcases horigin B p hpb hpne with h0 | ⟨h1, _⟩
      · refine Or.inr (Or.inl ⟨p, hpne, h0, ?_⟩)
        rw [prevOf_processPage_truthy g A B (by rw [hpb]; simp [truthy, hpne]), hpb]
      · by_cases hpA : p = A
        · refine Or.inl ?_
          rw [prevOf_processPage_truthy g A B (by rw [hpb]; simp [truthy, hpne]), hpb, hpA]
        · refine Or.inr (Or.inr ⟨p, ?_, hpA, hpne, ?_, ?_⟩)
          · have hsome : (lookupA g p).isSome := by
              unfold nextOf at h1
              cases hls : lookupA g p
              · rw [hls] at h1; simp at h1
              · simp
            rw [← hkeys]
            exact (mem_keysOf_iff_isSome g p).mpr hsome
          · rw [nextOf_processPage_truthy g A p (by rw [h1]; simp [truthy, hBne]), h1]
          · rw [prevOf_processPage_truthy g A B (by rw [hpb]; simp [truthy, hpne]), hpb]
  · exact Or.inl (prevOf_processPage_write g A B hnext hBne hB (by simpa using hfal))

/-! ## Claim C3 -/

/-- C3 (amended): if `graph[A].next = B` (with a nonempty `B` present
in the graph) then `graph[B].prev = A`, unless `B.prev` was already set
at the moment the inference ran — either because `B` declared a truthy
`prev` (which is preserved verbatim), or because an earlier-processed
page `C ≠ A` whose final `next` also equals `B` had already been
recorded as `B.prev`. -/
theorem C3_next_prev_consistency (store : List RawPage) (A B : String)
    (hA : A ∈ keysOf (buildRelationsGraph store).1)
    (hB : B ∈ keysOf (buildRelationsGraph store).1)
    (hBne : B ≠ "")
    (hnext : nextOf (buildRelationsGraph store).1 A = some B) :
    prevOf (buildRelationsGraph store).1 B = some A
    ∨ (∃ p, p ≠ "" ∧ prevOf (pass1Graph store) B = some p ∧
        prevOf (buildRelationsGraph store).1 B = some p)
    ∨ (∃ C, C ∈ keysOf (buildRelationsGraph store).1 ∧ C ≠ A ∧ C ≠ "" ∧
        nextOf (buildRelationsGraph store).1 C = some B ∧
        prevOf (buildRelationsGraph store).1 B = some C) := by
  rw [buildRelationsGraph_fst] at hA hB hnext ⊢
  have hA1 : (lookupA (pass1Graph store) A).isSome := by
    rw [keysOf_pass2, mem_keysOf_iff_isSome] at hA
    exact hA
  have hB1 : (lookupA (pass1Graph store) B).isSome := by
    rw [keysOf_pass2, mem_keysOf_iff_isSome] at hB
    exact hB
  have horigN : NextOrigin (pass1Graph store)
      ((keysOf (pass1Graph store)).foldl processPage (pass1Graph store)) :=
    nextOrigin_fold _ _ _ (fun A2 v hv _ => Or.inl hv)
  rcases horigN A B hnext hBne with h0 | ⟨h1, _⟩
  · have hmemA : A ∈ keysOf (pass1Graph store) := (mem_keysOf_iff_isSome _ _).mpr hA1
    obtain ⟨l1, l2, hsplit⟩ := List.append_of_mem hmemA
    rw [hsplit, List.foldl_append, List.foldl_cons]
    have hmidnext : nextOf (l1.foldl processPage (pass1Graph store)) A = some B := by
      rw [nextOf_fold_truthy l1 _ A (by rw [h0]; simp [truthy, hBne]), h0]
    have hkeysmid : keysOf (l1.foldl processPage (pass1Graph store)) =
        keysOf (pass1Graph store) := keysOf_pass2 l1 _
    have hBmid : (lookupA (l1.foldl processPage (pass1Graph store)) B).isSome := by
      rw [isSome_pass2]
      exact hB1
    have horigP : PrevOrigin (pass1Graph store) (l1.foldl processPage (pass1Graph store)) :=
      prevOrigin_fold _ _ _ (fun B2 p hp _ => Or.inl hp)
    have hQ := qinv_establish (pass1Graph store) _ A B hBne hkeysmid horigP hmidnext hBmid
    have hQfin := qinv_fold (pass1Graph store) A B hBne l2 _
      (by rw [keysOf_processPage]; exact hkeysmid) hQ
    rcases hQfin with hq1 | ⟨p, hp1, hp2, hp3⟩ | ⟨C, hc1, hc2, hc3, hc4, hc5⟩
    · exact Or.inl hq1
    · exact Or.inr (Or.inl ⟨p, hp1, hp2, hp3⟩)
    · refine Or.inr (Or.inr ⟨C, ?_, hc2, hc3, hc4, hc5⟩)
      rw [keysOf_pass2, keysOf_processPage, keysOf_pass2]
      exact hc1
  · exact Or.inl h1

/-- Store refuting C3 as stated: `c` and `a` both declare `next = b`,
`b` declares nothing; `c` is processed first. -/
def storeC3 : List RawPage :=
  [ { id := "c", title := "C", body := "", next := some "b" },
    { id := "a", title := "A", body := "", next := some "b" },
    { id := "b", title := "B", body := "" } ]

/-- Counterexample to C3 as stated: in the final graph `a.next = b`
but `b.prev = c`, and `b` had no pre-existing declared `prev` at all —
the claim would force `b.prev = a`. -/
theorem C3_counterexample :
    nextOf (buildRelationsGraph storeC3).1 "a" = some "b" ∧
    prevOf (buildRelationsGraph storeC3).1 "b" = some "c" ∧
    prevOf (pass1Graph storeC3) "b" = none ∧
    prevOf (buildRelationsGraph storeC3).1 "b" ≠ some "a" := by
  decide

/-- Two-page store where the plain sequential case holds. -/
def storeW3 : List RawPage :=
  [ { id := "a", title := "A", body := "", next := some "b" },
    { id := "b", title := "B", body := "" } ]

/-- Witness for the amended C3 at a concrete store. -/
theorem C3_next_prev_consistency_witness :
    ("a" ∈ keysOf (buildRelationsGraph storeW3).1) ∧
    ("b" ∈ keysOf (buildRelationsGraph storeW3).1) ∧
    ("b" : String) ≠ "" ∧
    nextOf (buildRelationsGraph storeW3).1 "a" = some "b" ∧
    (prevOf (buildRelationsGraph storeW3).1 "b" = some "a"
     ∨ (∃ p, p ≠ "" ∧ prevOf (pass1Graph storeW3) "b" = some p ∧
         prevOf (buildRelationsGraph storeW3).1 "b" = some p)
     ∨ (∃ C, C ∈ keysOf (buildRelationsGraph storeW3).1 ∧ C ≠ "a" ∧ C ≠ "" ∧
         nextOf (buildRelationsGraph storeW3).1 C = some "b" ∧
         prevOf (buildRelationsGraph storeW3).1 "b" = some C)) :=
  ⟨by decide, by decide, by decide, by decide,
   C3_next_prev_consistency storeW3 "a" "b" (by decide) (by decide) (by decide) (by decide)⟩

/-! ## Dedup-append growth of the inferred lists -/

theorem extendsU_processPage (flv fwd : Graph → String → List String)
    (hval : ∀ g s k, flv (processPage g s) k =
      if k ∈ fwd g s ∧ (lookupA g k).isSome then addUnique (flv g k) s else flv g k)
    (g : Graph) (s k : String) : ExtendsU (flv g k) (flv (processPage g s) k) := by
  rw [hval]
  by_cases hc : k ∈ fwd g s ∧ (lookupA g k).isSome
  · rw [if_pos hc]
    exact ExtendsU.addUnique _ _
  · rw [if_neg hc]
    exact ExtendsU.refl _

theorem extendsU_pass2 (flv fwd : Graph → String → List String)
    (hval : ∀ g s k, flv (processPage g s) k =
      if k ∈ fwd g s ∧ (lookupA g k).isSome then addUnique (flv g k) s else flv g k)
    (ks : List String) (g : Graph) (k : String) :
    ExtendsU (flv g k) (flv (ks.foldl processPage g) k) := by
  induction ks generalizing g with
  | nil => exact ExtendsU.refl _
  | cons s l ih =>
    rw [List.foldl_cons]
    exact (extendsU_processPage flv fwd hval g s k).trans (ih _)

/-! ## Claim C10 -/

/-- C10: Pass 2 of `buildRelationsGraph` is strictly additive: for
every page it leaves the forward directed sets `ntpp`, `tpp` and `r`
exactly as pass 1 left them, only dedup-appends (old list a front
segment, appended elements fresh and duplicate-free) to `nttpi`,
`tppi`, `ri` and to the symmetric sets `po`, `ec`, `eq`, `dc`, and
assigns a page's `next` or `prev` pointer only when that field is
currently unset: once a pointer is set (truthy), no amount of further
pass-2 processing changes it. -/
theorem C10_pass2_additivity (store : List RawPage) (A : String) :
    (fieldList (fun r => r.ntpp) (buildRelationsGraph store).1 A =
      fieldList (fun r => r.ntpp) (pass1Graph store) A) ∧
    (fieldList (fun r => r.tpp) (buildRelationsGraph store).1 A =
      fieldList (fun r => r.tpp) (pass1Graph store) A) ∧
    (fieldList (fun r => r.r) (buildRelationsGraph store).1 A =
      fieldList (fun r => r.r) (pass1Graph store) A) ∧
    ExtendsU (fieldList (fun r => r.nttpi) (pass1Graph store) A)
      (fieldList (fun r => r.nttpi) (buildRelationsGraph store).1 A) ∧
    ExtendsU (fieldList (fun r => r.tppi) (pass1Graph store) A)
      (fieldList (fun r => r.tppi) (buildRelationsGraph store).1 A) ∧
    ExtendsU (fieldList (fun r => r.ri) (pass1Graph store) A)
      (fieldList (fun r => r.ri) (buildRelationsGraph store).1 A) ∧
    ExtendsU (fieldList (fun r => r.po) (pass1Graph store) A)
      (fieldList (fun r => r.po) (buildRelationsGraph store).1 A) ∧
    ExtendsU (fieldList (fun r => r.ec) (pass1Graph store) A)
      (fieldList (fun r => r.ec) (buildRelationsGraph store).1 A) ∧
    ExtendsU (fieldList (fun r => r.eq) (pass1Graph store) A)
      (fieldList (fun r => r.eq) (buildRelationsGraph store).1 A) ∧
    ExtendsU (fieldList (fun r => r.dc) (pass1Graph store) A)
      (fieldList (fun r => r.dc) (buildRelationsGraph store).1 A) ∧
    (∀ (g : Graph) (l : List String), truthy (nextOf g A) →
      nextOf (l.foldl processPage g) A = nextOf g A) ∧
    (∀ (g : Graph) (l : List String), truthy (prevOf g A) →
      prevOf (l.foldl processPage g) A = prevOf g A) := by
  rw [buildRelationsGraph_fst]
  refine ⟨?_, ?_, ?_, ?_, ?_, ?_, ?_, ?_, ?_, ?_, ?_, ?_⟩
  · exact foldl_dir_frame processPage (fun g k => fieldList (fun r => r.ntpp) g k)
      ntpp_processPage _ _ _
  · exact foldl_dir_frame processPage (fun g k => fieldList (fun r => r.tpp) g k)
      tpp_processPage _ _ _
  · exact foldl_dir_frame processPage (fun g k => fieldList (fun r => r.r) g k)
      r_processPage _ _ _
  · exact extendsU_pass2 (fun g k => fieldList (fun r => r.nttpi) g k)
      (fun g k => fieldList (fun r => r.ntpp) g k) nttpi_processPage _ _ _
  · exact extendsU_pass2 (fun g k => fieldList (fun r => r.tppi) g k)
      (fun g k => fieldList (fun r => r.tpp) g k) tppi_processPage _ _ _
  · exact extendsU_pass2 (fun g k => fieldList (fun r => r.ri) g k)
      (fun g k => fieldList (fun r => r.r) g k) ri_processPage _ _ _
  · exact extendsU_pass2 (fun g k => fieldList (fun r => r.po) g k)
      (fun g k => fieldList (fun r => r.po) g k) po_processPage _ _ _
  · exact extendsU_pass2 (fun g k => fieldList (fun r => r.ec) g k)
      (fun g k => fieldList (fun r => r.ec) g k) ec_processPage _ _ _
  · exact extendsU_pass2 (fun g k => fieldList (fun r => r.eq) g k)
      (fun g k => fieldList (fun r => r.eq) g k) eq_processPage _ _ _
  · exact extendsU_pass2 (fun g k => fieldList (fun r => r.dc) g k)
      (fun g k => fieldList (fun r => r.dc) g k) dc_processPage _ _ _
  · exact fun g l h => nextOf_fold_truthy l g A h
  · exact fun g l h => prevOf_fold_truthy l g A h

/-- Store used by the C10 witness: `a.next = b`, `b` declares `prev = c`. -/
def storeW10 : List RawPage :=
  [ { id := "a", title := "A", body := "", next := some "b" },
    { id := "b", title := "B", body := "", prev := some "c" },
    { id := "c", title := "C", body := "" } ]

/-- Witness for C10 at a concrete store: `b`'s declared truthy `prev`
survives the whole of pass 2. -/
theorem C10_pass2_additivity_witness :
    truthy (prevOf (pass1Graph storeW10) "b") = true ∧
    prevOf ((keysOf (pass1Graph storeW10)).foldl processPage (pass1Graph storeW10)) "b" =
      prevOf (pass1Graph storeW10) "b" :=
  ⟨by decide,
   (C10_pass2_additivity storeW10 "b").2.2.2.2.2.2.2.2.2.2.2
     (pass1Graph storeW10) (keysOf (pass1Graph storeW10)) (by decide)⟩

/-! ## BFS correctness for the subgraph view -/

/-- Undirected adjacency over an edge list, exactly as the BFS of
`buildSubgraphData` walks it. -/
def adjE (E : List GraphEdge) (u v : String) : Prop :=
  ∃ e ∈ E, (e.source = u ∧ e.target = v) ∨ (e.target = u ∧ e.source = v)

/-- `withinN E root n v`: `v` is reachable from `root` in at most `n`
undirected hops over `E`. -/
def withinN (E : List GraphEdge) (root : String) : Nat → String → Prop
  | 0, v => v = root
  | n + 1, v => withinN E root n v ∨ ∃ u, withinN E root n u ∧ adjE E u v

theorem withinN_mono (E : List GraphEdge) (root : String) (n : Nat) (v : String)
    (h : withinN E root n v) : withinN E root (n + 1) v := Or.inl h

theorem mem_foldl_addUnique (l acc : List String) (v : String) :
    v ∈ l.foldl addUnique acc ↔ v ∈ acc ∨ v ∈ l := by
  induction l generalizing acc with
  | nil => simp
  | cons x l ih =>
    rw [List.foldl_cons, ih, mem_addUnique]
    simp only [List.mem_cons]
    constructor
    · rintro ((h | h) | h)
      · exact Or.inl h
      · exact Or.inr (Or.inl h)
      · exact Or.inr (Or.inr h)
    · rintro (h | h | h)
      · exact Or.inl (Or.inl h)
      · exact Or.inl (Or.inr h)
      · exact Or.inr h

theorem mem_unionInto (included frontier : List String) (v : String) :
    v ∈ unionInto included frontier ↔ v ∈ included ∨ v ∈ frontier :=
  mem_foldl_addUnique frontier included v

theorem adjE_cons (e : GraphEdge) (E : List GraphEdge) (u v : String) :
    adjE (e :: E) u v ↔
      ((e.source = u ∧ e.target = v) ∨ (e.target = u ∧ e.source = v)) ∨ adjE E u v := by
  unfold adjE
  simp only [List.mem_cons]
  constructor
  · rintro ⟨e2, (rfl | he2), h⟩
    · exact Or.inl h
    · exact Or.inr ⟨e2, he2, h⟩
  · rintro (h | ⟨e2, he2, h⟩)
    · exact ⟨e, Or.inl rfl, h⟩
    · exact ⟨e2, Or.inr he2, h⟩

theorem mem_frontierStep (inc : List String) (u : String) (acc : List String)
    (e : GraphEdge) (v : String) :
    v ∈ frontierStep inc u acc e ↔
      v ∈ acc ∨
        (((e.source = u ∧ e.target = v) ∨ (e.target = u ∧ e.source = v)) ∧ v ∉ inc) := by
  unfold frontierStep
  by_cases h1 : e.source = u ∧ e.target ∉ inc
  · by_cases h2 : e.target = u ∧ e.source ∉ inc
    · simp only [if_pos h1, if_pos h2, mem_addUnique]
      constructor
      · rintro ((hv | rfl) | rfl)
        · exact Or.inl hv
        · exact Or.inr ⟨Or.inl ⟨h1.1, rfl⟩, h1.2⟩
        · exact Or.inr ⟨Or.inr ⟨h2.1, rfl⟩, h2.2⟩
      · rintro (hv | ⟨⟨_, rfl⟩ | ⟨_, rfl⟩, hnin⟩)
        · exact Or.inl (Or.inl hv)
        · exact Or.inl (Or.inr rfl)
        · exact Or.inr rfl
    · simp only [if_pos h1, if_neg h2, mem_addUnique]
      constructor
      · rintro (hv | rfl)
        · exact Or.inl hv
        · exact Or.inr ⟨Or.inl ⟨h1.1, rfl⟩, h1.2⟩
      · rintro (hv | ⟨⟨_, rfl⟩ | ⟨he2, rfl⟩, hnin⟩)
        · exact Or.inl hv
        · exact Or.inr rfl
        · exact absurd ⟨he2, hnin⟩ h2
  · by_cases h2 : e.target = u ∧ e.source ∉ inc
    · simp only [if_pos h2, if_neg h1, mem_addUnique]
      constructor
      · rintro (hv | rfl)
        · exact Or.inl hv
        · exact Or.inr ⟨Or.inr ⟨h2.1, rfl⟩, h2.2⟩
      · rintro (hv | ⟨⟨he1, rfl⟩ | ⟨_, rfl⟩, hnin⟩)
        · exact Or.inl hv
        · exact absurd ⟨he1, hnin⟩ h1
        · exact Or.inr rfl
    · simp only [if_neg h1, if_neg h2]
      constructor
      · exact Or.inl
      · rintro (hv | ⟨⟨he1, rfl⟩ | ⟨he2, rfl⟩, hnin⟩)
        · exact hv
        · exact absurd ⟨he1, hnin⟩ h1
        · exact absurd ⟨he2, hnin⟩ h2

theorem mem_innerFold (E : List GraphEdge) (inc : List String) (u : String)
    (acc : List String) (v : String) :
    v ∈ E.foldl (frontierStep inc u) acc ↔ v ∈ acc ∨ (adjE E u v ∧ v ∉ inc) := by
  induction E generalizing acc with
  | nil => simp [adjE]
  | cons e E ih =>
    rw [List.foldl_cons, ih, mem_frontierStep, adjE_cons]
    constructor
    · rintro ((hv | ⟨he, hnin⟩) | ⟨ha, hnin⟩)
      · exact Or.inl hv
      · exact Or.inr ⟨Or.inl he, hnin⟩
      · exact Or.inr ⟨Or.inr ha, hnin⟩
    · rintro (hv | ⟨he | ha, hnin⟩)
      · exact Or.inl (Or.inl hv)
      · exact Or.inl (Or.inr ⟨he, hnin⟩)
      · exact Or.inr ⟨ha, hnin⟩

theorem mem_nextFrontier (E : List GraphEdge) (inc frontier : List String) (v : String) :
    v ∈ nextFrontier E inc frontier ↔
      ∃ u ∈ frontier, adjE E u v ∧ v ∉ inc := by
  unfold nextFrontier
  have haux : ∀ (fr acc : List String),
      v ∈ fr.foldl (fun acc slug => E.foldl (frontierStep inc slug) acc) acc ↔
        v ∈ acc ∨ ∃ u ∈ fr, adjE E u v ∧ v ∉ inc := by
    intro fr
    induction fr with
    | nil => simp
    | cons u fr ih =>
      intro acc
      rw [List.foldl_cons, ih, mem_innerFold]
      simp only [List.mem_cons]
      constructor
      · rintro ((hv | ⟨ha, hnin⟩) | ⟨w, hw, ha, hnin⟩)
        · exact Or.inl hv
        · exact Or.inr ⟨u, Or.inl rfl, ha, hnin⟩
        · exact Or.inr ⟨w, Or.inr hw, ha, hnin⟩
      · rintro (hv | ⟨w, (rfl | hw), ha, hnin⟩)
        · exact Or.inl (Or.inl hv)
        · exact Or.inl (Or.inr ⟨ha, hnin⟩)
        · exact Or.inr ⟨w, hw, ha, hnin⟩
  rw [haux]
  simp

/-- BFS loop invariant: with `included ∪ frontier` equal to the ball of
radius `k` and all neighbours of `included` inside that ball, running
the loop for `n` more rounds produces exactly the ball of radius
`k + n`. -/
theorem bfsLoop_mem (E : List GraphEdge) (root : String) :
    ∀ (n k : Nat) (included frontier : List String),
      (∀ v, (v ∈ included ∨ v ∈ frontier) ↔ withinN E root k v) →
      (∀ v u, u ∈ included → adjE E u v → withinN E root k v) →
      ∀ v, v ∈ bfsLoop E n included frontier ↔ withinN E root (k + n) v := by
  intro n
  induction n with
  | zero =>
    intro k included frontier h1 h2 v
    rw [bfsLoop, mem_unionInto]
    exact h1 v
  | succ n ih =>
    intro k included frontier h1 h2 v
    rw [bfsLoop]
    have h1m : ∀ w, w ∈ unionInto included frontier ↔ withinN E root k w := by
      intro w
      rw [mem_unionInto]
      exact h1 w
    have h1n : ∀ w, (w ∈ unionInto included frontier ∨
        w ∈ nextFrontier E (unionInto included frontier) frontier) ↔
        withinN E root (k + 1) w := by
      intro w
      rw [h1m, mem_nextFrontier]
      constructor
      · rintro (hw | ⟨u, hu, ha, hnin⟩)
        · exact withinN_mono E root k w hw
        · exact Or.inr ⟨u, (h1 u).mp (Or.inr hu), ha⟩
      · rintro (hw | ⟨u, hu, ha⟩)
        · exact Or.inl hw
        · by_cases hw2 : withinN E root k w
          · exact Or.inl hw2
          · refine Or.inr ⟨u, ?_, ha, ?_⟩
            · rcases (h1 u).mpr hu with hui | huf
              · exact absurd (h2 w u hui ha) hw2
              · exact huf
            · intro hwin
              exact hw2 ((h1m w).mp hwin)
    have h2n : ∀ w u, u ∈ unionInto included frontier → adjE E u w →
        withinN E root (k + 1) w := by
      intro w u hu ha
      exact Or.inr ⟨u, (h1m u).mp hu, ha⟩
    have := ih (k + 1) (unionInto included frontier)
      (nextFrontier E (unionInto included frontier) frontier) h1n h2n v
    rw [Nat.add_succ, ← Nat.succ_add]
    exact this

/-- A two-page store with a declared `ntpp`, a declared `tpp`, and a
body link, used as witness input. -/
def storeW2 : List RawPage :=
  [ { id := "a", title := "A", body := "see [b](/b)", ntpp := some ["b"],
      tpp := some ["b"] },
    { id := "b", title := "B", body := "" } ]

/-- Witness for C2 at a concrete store. -/
theorem C2_inverse_completeness_witness :
    ("a" ∈ keysOf (buildRelationsGraph storeW2).1) ∧
    ("b" ∈ keysOf (buildRelationsGraph storeW2).1) ∧
    (("b" ∈ fieldList (fun r => r.ntpp) (buildRelationsGraph storeW2).1 "a" →
       "a" ∈ fieldList (fun r => r.nttpi) (buildRelationsGraph storeW2).1 "b") ∧
     ("b" ∈ fieldList (fun r => r.tpp) (buildRelationsGraph storeW2).1 "a" →
       "a" ∈ fieldList (fun r => r.tppi) (buildRelationsGraph storeW2).1 "b") ∧
     ("b" ∈ fieldList (fun r => r.r) (buildRelationsGraph storeW2).1 "a" →
       "a" ∈ fieldList (fun r => r.ri) (buildRelationsGraph storeW2).1 "b")) :=
  ⟨by decide, by decide, C2_inverse_completeness storeW2 "a" "b" (by decide) (by decide)⟩

/-- The node list of a subgraph, written without the intermediate lets. -/
theorem subgraph_nodes_eq (graph : Graph) (pages : PageMap) (rootSlug : String)
    (types : List EdgeType) (d : Nat) :
    (buildSubgraphData graph pages rootSlug ⟨types, d⟩).nodes =
      (buildGraphData graph pages).nodes.filter
        (fun n => (bfsLoop ((buildGraphData graph pages).edges.filter
            (fun e => types.contains e.type)) d [] [rootSlug]).contains n.id) := rfl

/-- The edge list of a subgraph, written without the intermediate lets. -/
theorem subgraph_edges_eq (graph : Graph) (pages : PageMap) (rootSlug : String)
    (types : List EdgeType) (d : Nat) :
    (buildSubgraphData graph pages rootSlug ⟨types, d⟩).edges =
      ((buildGraphData graph pages).edges.filter
          (fun e => types.contains e.type)).filter
        (fun e => (bfsLoop ((buildGraphData graph pages).edges.filter
            (fun e => types.contains e.type)) d [] [rootSlug]).contains e.source &&
          (bfsLoop ((buildGraphData graph pages).edges.filter
            (fun e => types.contains e.type)) d [] [rootSlug]).contains e.target) := rfl

/-- C4 (corrected): for every relations graph, page map, root slug,
relation-type list and depth, `buildSubgraphData` returns exactly the
full-view nodes whose slug lies within `depth` undirected hops of the
root over the type-filtered edge list, together with exactly the
type-filtered edges whose two endpoint SLUGS both lie within that ball
(the reachable slug set, not the returned node set).  At depth 0 every
returned node is the root and every returned edge is a self-loop at the
root — but such a self-loop edge is returned, so the claim's "depth 0
returns no edges" is false. -/
theorem C4_subgraph_characterization (graph : Graph) (pages : PageMap)
    (root : String) (types : List EdgeType) (depth : Nat) :
    (∀ nd, nd ∈ (buildSubgraphData graph pages root ⟨types, depth⟩).nodes ↔
        nd ∈ (buildGraphData graph pages).nodes ∧
          withinN ((buildGraphData graph pages).edges.filter
            (fun e => types.contains e.type)) root depth nd.id) ∧
    (∀ e, e ∈ (buildSubgraphData graph pages root ⟨types, depth⟩).edges ↔
        (e ∈ (buildGraphData graph pages).edges ∧ types.contains e.type = true) ∧
          withinN ((buildGraphData graph pages).edges.filter
            (fun e => types.contains e.type)) root depth e.source ∧
          withinN ((buildGraphData graph pages).edges.filter
            (fun e => types.contains e.type)) root depth e.target) ∧
    (∀ nd, nd ∈ (buildSubgraphData graph pages root ⟨types, 0⟩).nodes →
        nd.id = root) ∧
    (∀ e, e ∈ (buildSubgraphData graph pages root ⟨types, 0⟩).edges →
        e.source = root ∧ e.target = root) := by
  have hinc : ∀ (d : Nat) (v : String),
      v ∈ bfsLoop ((buildGraphData graph pages).edges.filter
          (fun e => types.contains e.type)) d [] [root] ↔
        withinN ((buildGraphData graph pages).edges.filter
          (fun e => types.contains e.type)) root d v := by
    intro d v
    have h1 : ∀ w, (w ∈ ([] : List String) ∨ w ∈ [root]) ↔
        withinN ((buildGraphData graph pages).edges.filter
          (fun e => types.contains e.type)) root 0 w := by
      intro w
      simp [withinN]
    have h2 : ∀ w u, u ∈ ([] : List String) →
        adjE ((buildGraphData graph pages).edges.filter
          (fun e => types.contains e.type)) u w →
        withinN ((buildGraphData graph pages).edges.filter
          (fun e => types.contains e.type)) root 0 w := by
      intro w u hu _
      exact absurd hu (List.not_mem_nil u)
    have h := bfsLoop_mem ((buildGraphData graph pages).edges.filter
      (fun e => types.contains e.type)) root d 0 [] [root] h1 h2 v
    rwa [Nat.zero_add] at h
  have main : ∀ (d : Nat),
      (∀ nd, nd ∈ (buildSubgraphData graph pages root ⟨types, d⟩).nodes ↔
          nd ∈ (buildGraphData graph pages).nodes ∧
            withinN ((buildGraphData graph pages).edges.filter
              (fun e => types.contains e.type)) root d nd.id) ∧
      (∀ e, e ∈ (buildSubgraphData graph pages root ⟨types, d⟩).edges ↔
          (e ∈ (buildGraphData graph pages).edges ∧ types.contains e.type = true) ∧
            withinN ((buildGraphData graph pages).edges.filter
              (fun e => types.contains e.type)) root d e.source ∧
            withinN ((buildGraphData graph pages).edges.filter
              (fun e => types.contains e.type)) root d e.target) := by
    intro d
    constructor
    · intro nd
      rw [subgraph_nodes_eq]
      simp only [List.mem_filter]
      constructor
      · rintro ⟨hmem, hcont⟩
        refine ⟨hmem, (hinc d nd.id).mp ?_⟩
        simpa using hcont
      · rintro ⟨hmem, hw⟩
        refine ⟨hmem, ?_⟩
        simpa using (hinc d nd.id).mpr hw
    · intro e
      rw [subgraph_edges_eq]
      simp only [List.mem_filter]
      constructor
      · rintro ⟨⟨hmem, hty⟩, hcont⟩
        rw [Bool.and_eq_true] at hcont
        refine ⟨⟨hmem, hty⟩, (hinc d e.source).mp ?_, (hinc d e.target).mp ?_⟩
        · simpa using hcont.1
        · simpa using hcont.2
      · rintro ⟨⟨hmem, hty⟩, hs, ht⟩
        refine ⟨⟨hmem, hty⟩, ?_⟩
        rw [Bool.and_eq_true]
        constructor
        · simpa using (hinc d e.source).mpr hs
        · simpa using (hinc d e.target).mpr ht
  refine ⟨(main depth).1, (main depth).2, ?_, ?_⟩
  · intro nd hnd
    have h := ((main 0).1 nd).mp hnd
    exact h.2
  · intro e he
    have h := ((main 0).2 e).mp he
    exact ⟨h.2.1, h.2.2⟩

/-- A relation record whose only entry is a `po` self-reference. -/
def relSelfPo : PageRelations :=
  { ntpp := [], nttpi := [], tpp := [], tppi := [], po := ["a"], ec := [], eq := [], dc := [],
    next := none, prev := none, r := [], ri := [] }

/-- A one-page graph whose page lists itself under `po`. -/
def gC4 : Graph := [("a", relSelfPo)]

/-- The matching page map for `gC4`. -/
def pC4 : PageMap := [("a", ⟨"a", "A"⟩)]

/-- C4 counterexample: a page declaring `po` with itself gives the full
view a self-loop edge, and `buildSubgraphData` at depth 0 returns that
edge — not "no edges" as the claim states. -/
theorem C4_counterexample :
    (buildSubgraphData gC4 pC4 "a" ⟨[EdgeType.po], 0⟩).edges =
      [⟨"a", "a", EdgeType.po⟩] ∧
    (buildSubgraphData gC4 pC4 "a" ⟨[EdgeType.po], 0⟩).edges ≠ [] := by
  decide

/-! ## Edge deduplication in the full graph view -/

/-- Does edge `e` connect the unordered pair `{A, B}` with type `k`? -/
def pairEdge (A B : String) (k : EdgeType) (e : GraphEdge) : Bool :=
  e.type == k && ((e.source == A && e.target == B) || (e.source == B && e.target == A))

/-- A string with no `':'` characters, so it cannot forge a `"::"`
separator inside a dedup key. -/
def colonFree (s : String) : Bool := !s.data.contains ':'

/-- Every slug a relation record can emit a symmetric or `next` edge
towards is colon-free. -/
def targetsColonFree (rel : PageRelations) : Bool :=
  rel.po.all colonFree && rel.ec.all colonFree && rel.eq.all colonFree &&
  rel.dc.all colonFree &&
  (match rel.next with | none => true | some t => colonFree t)

/-- Does `rel` relate its owner to `B` through kind `k` in a way that
makes `buildGraphData` attempt an edge for the pair? -/
def relatedVia (rel : PageRelations) (B : String) : EdgeType → Bool
  | .po => rel.po.contains B
  | .ec => rel.ec.contains B
  | .eq => rel.eq.contains B
  | .dc => rel.dc.contains B
  | .next => rel.next == some B && !(B == "")
  | _ => false

/-- The conditional keyed edge insertion shared by `symFold` and the
`next` clause of `buildStep`. -/
def condAdd (slug t : String) (ty : EdgeType) (st : BuildSt) : BuildSt :=
  let key := mkKey slug t ty
  if st.2.2.contains key then st
  else (st.1, st.2.1 ++ [(⟨slug, t, ty⟩ : GraphEdge)], st.2.2 ++ [key])

/-- `symFold` is a fold of `condAdd` steps. -/
theorem symFold_eq_foldl (slug : String) (ty : EdgeType) (ts : List String) (st : BuildSt) :
    symFold slug ty ts st = ts.foldl (fun st t => condAdd slug t ty st) st := rfl

/-- The connection count a node records. -/
def connectionsOf (rel : PageRelations) : Nat :=
  rel.ntpp.length + rel.nttpi.length + rel.tpp.length + rel.tppi.length +
  rel.po.length + rel.ec.length + rel.eq.length + rel.dc.length +
  (if truthy rel.next then 1 else 0) + (if truthy rel.prev then 1 else 0) +
  rel.r.length + rel.ri.length

/-- The node push plus the directed `ntpp`/`tpp` edge appends at the
start of one `buildStep`. -/
def dirAppend (slug : String) (info : PageInfo) (rel : PageRelations) (st : BuildSt) : BuildSt :=
  (st.1 ++ [⟨slug, info.title, connectionsOf rel⟩],
   st.2.1 ++ rel.ntpp.map (fun t => ⟨slug, t, .ntpp⟩)
         ++ rel.tpp.map (fun t => ⟨slug, t, .tpp⟩),
   st.2.2)

/-- The keyed `next` edge insertion of one `buildStep`. -/
def nextAdd (slug : String) (nx? : Option String) (st : BuildSt) : BuildSt :=
  match nx? with
  | some nx => if nx = "" then st else condAdd slug nx .next st
  | none => st

/-- The trailing `r` edge appends of one `buildStep`. -/
def rAppend (slug : String) (rs : List String) (st : BuildSt) : BuildSt :=
  (st.1, st.2.1 ++ rs.map (fun t => ⟨slug, t, .r⟩), st.2.2)

/-- `buildStep` decomposed into its five stages. -/
theorem buildStep_decomp (pages : PageMap) (st : BuildSt) (A : String)
    (rel : PageRelations) :
    buildStep pages st (A, rel) =
      match lookupA pages A with
      | none => st
      | some info =>
        rAppend A rel.r
          (nextAdd A rel.next
            (symFold A .dc rel.dc
              (symFold A .eq rel.eq
                (symFold A .ec rel.ec
                  (symFold A .po rel.po
                    (dirAppend A info rel st)))))) := rfl

theorem dirAppend_edges (slug : String) (info : PageInfo) (rel : PageRelations)
    (st : BuildSt) :
    (dirAppend slug info rel st).2.1 =
      st.2.1 ++ rel.ntpp.map (fun t => ⟨slug, t, .ntpp⟩)
            ++ rel.tpp.map (fun t => ⟨slug, t, .tpp⟩) := rfl

theorem dirAppend_seen (slug : String) (info : PageInfo) (rel : PageRelations)
    (st : BuildSt) : (dirAppend slug info rel st).2.2 = st.2.2 := rfl

theorem rAppend_edges (slug : String) (rs : List String) (st : BuildSt) :
    (rAppend slug rs st).2.1 = st.2.1 ++ rs.map (fun t => ⟨slug, t, .r⟩) := rfl

theorem rAppend_seen (slug : String) (rs : List String) (st : BuildSt) :
    (rAppend slug rs st).2.2 = st.2.2 := rfl

theorem buildGraphData_edges (graph : Graph) (pages : PageMap) :
    (buildGraphData graph pages).edges =
      (graph.foldl (buildStep pages) ([], [], [])).2.1 := rfl

/-! ### String-order and key-injectivity lemmas -/

theorem char_toNat_inj (a b : Char) (h : a.toNat = b.toNat) : a = b := by
  have ha := Char.ofNat_toNat a
  rw [h, Char.ofNat_toNat] at ha
  exact ha.symm

theorem lexLt_asymm : ∀ (l m : List Char), lexLt l m = true → lexLt m l = false := by
  intro l
  induction l with
  | nil =>
    intro m h
    cases m with
    | nil => simp [lexLt] at h
    | cons b bs => simp [lexLt]
  | cons a as ih =>
    intro m h
    cases m with
    | nil => simp [lexLt] at h
    | cons b bs =>
      simp only [lexLt] at h ⊢
      by_cases hab : a.toNat < b.toNat
      · rw [if_neg (Nat.lt_asymm hab), if_pos hab]
      · by_cases hba : b.toNat < a.toNat
        · rw [if_neg hab, if_pos hba] at h
          exact absurd h (by decide)
        · rw [if_neg hab, if_neg hba] at h
          rw [if_neg hba, if_neg hab]
          exact ih bs h

theorem lexLt_total (l m : List Char) (h1 : lexLt l m = false)
    (h2 : lexLt m l = false) : l = m := by
  induction l generalizing m with
  | nil =>
    cases m with
    | nil => rfl
    | cons b bs => simp [lexLt] at h1
  | cons a as ih =>
    cases m with
    | nil => simp [lexLt] at h2
    | cons b bs =>
      simp only [lexLt] at h1 h2
      by_cases hab : a.toNat < b.toNat
      · rw [if_pos hab] at h1
        exact absurd h1 (by decide)
      · by_cases hba : b.toNat < a.toNat
        · rw [if_pos hba] at h2
          exact absurd h2 (by decide)
        · rw [if_neg hab, if_neg hba] at h1
          rw [if_neg hba, if_neg hab] at h2
          have hc : a = b := char_toNat_inj a b (by omega)
          rw [hc, ih bs h1 h2]

theorem string_data_inj (a b : String) (h : a.data = b.data) : a = b := by
  cases a; cases b; cases h; rfl

theorem strLe_antisymm (a b : String) (h1 : strLe a b = true) (h2 : strLe b a = true) :
    a = b := by
  unfold strLe at h1 h2
  simp only [Bool.not_eq_true'] at h1 h2
  exact string_data_inj a b (lexLt_total a.data b.data h2 h1)

theorem strLe_or (a b : String) : strLe a b = true ∨ strLe b a = true := by
  unfold strLe
  by_cases h : lexLt b.data a.data = true
  · right
    rw [lexLt_asymm _ _ h]
    rfl
  · left
    rw [Bool.not_eq_true] at h
    rw [h]
    rfl

theorem mkKey_comm (a b : String) (ty : EdgeType) : mkKey a b ty = mkKey b a ty := by
  unfold mkKey
  by_cases h1 : strLe a b = true
  · by_cases h2 : strLe b a = true
    · have hab : a = b := strLe_antisymm a b h1 h2
      rw [hab]
    · rw [if_pos h1, if_neg h2]
  · have h2 : strLe b a = true := (strLe_or a b).resolve_left h1
    rw [if_neg h1, if_pos h2]

theorem colon_split : ∀ (l1 : List Char), ∀ (l2 r1 r2 : List Char), ':' ∉ l1 → ':' ∉ l2 →
    l1 ++ ':' :: ':' :: r1 = l2 ++ ':' :: ':' :: r2 → l1 = l2 ∧ r1 = r2 := by
  intro l1
  induction l1 with
  | nil =>
    intro l2 r1 r2 _ h2 h
    cases l2 with
    | nil =>
      simp only [List.nil_append] at h
      injection h with _ h
      injection h with _ h
      exact ⟨rfl, h⟩
    | cons b l2' =>
      simp only [List.nil_append, List.cons_append] at h
      injection h with hb _
      exact absurd (show ':' ∈ b :: l2' by rw [hb]; exact List.mem_cons_self b l2') h2
  | cons a l1' ih =>
    intro l2 r1 r2 h1 h2 h
    cases l2 with
    | nil =>
      simp only [List.cons_append, List.nil_append] at h
      injection h with ha _
      exact absurd (show ':' ∈ a :: l1' by rw [← ha]; exact List.mem_cons_self a l1') h1
    | cons b l2' =>
      simp only [List.cons_append] at h
      injection h with hab h
      obtain ⟨he, hr⟩ := ih l2' r1 r2
        (fun hm => h1 (List.mem_cons_of_mem a hm))
        (fun hm => h2 (List.mem_cons_of_mem b hm)) h
      exact ⟨by rw [hab, he], hr⟩

theorem data_join (x y : String) :
    (x ++ "::" ++ y).data = x.data ++ ':' :: ':' :: y.data := by
  rw [String.data_append, String.data_append, List.append_assoc]
  rfl

theorem data_join2 (x y n : String) :
    ((x ++ "::" ++ y) ++ "::" ++ n).data =
      x.data ++ ':' :: ':' :: (y.data ++ ':' :: ':' :: n.data) := by
  rw [data_join (x ++ "::" ++ y) n, data_join x y, List.append_assoc]
  rfl

theorem mkKey_data (a b : String) (ty : EdgeType) :
    (mkKey a b ty).data =
      (if strLe a b then a else b).data ++ ':' :: ':' ::
        ((if strLe a b then b else a).data ++ ':' :: ':' :: (typeName ty).data) := by
  unfold mkKey
  by_cases h : strLe a b = true
  · rw [if_pos h, if_pos h, if_pos h, data_join2]
  · rw [if_neg h, if_neg h, if_neg h, data_join2]

theorem typeName_inj (t1 t2 : EdgeType) (h : typeName t1 = typeName t2) : t1 = t2 := by
  cases t1 <;> cases t2 <;> first | rfl | exact absurd h (by decide)

theorem not_colon_mem (s : String) (h : colonFree s = true) : ':' ∉ s.data := by
  unfold colonFree at h
  simp at h
  exact h

theorem sortPair_cases (a b : String) :
    ((if strLe a b then a else b) = a ∧ (if strLe a b then b else a) = b) ∨
    ((if strLe a b then a else b) = b ∧ (if strLe a b then b else a) = a) := by
  by_cases h : strLe a b = true
  · left
    rw [if_pos h, if_pos h]
    exact ⟨rfl, rfl⟩
  · right
    rw [if_neg h, if_neg h]
    exact ⟨rfl, rfl⟩

theorem mkKey_inj (a b c d : String) (ty ty' : EdgeType)
    (ha : colonFree a = true) (hb : colonFree b = true)
    (hc : colonFree c = true) (hd : colonFree d = true)
    (h : mkKey a b ty = mkKey c d ty') :
    ty = ty' ∧ ((a = c ∧ b = d) ∨ (a = d ∧ b = c)) := by
  have hdata := congrArg String.data h
  rw [mkKey_data, mkKey_data] at hdata
  have hxf : colonFree (if strLe a b then a else b) = true := by
    by_cases hs : strLe a b = true
    · rw [if_pos hs]; exact ha
    · rw [if_neg hs]; exact hb
  have hyf : colonFree (if strLe a b then b else a) = true := by
    by_cases hs : strLe a b = true
    · rw [if_pos hs]; exact hb
    · rw [if_neg hs]; exact ha
  have hcf : colonFree (if strLe c d then c else d) = true := by
    by_cases hs : strLe c d = true
    · rw [if_pos hs]; exact hc
    · rw [if_neg hs]; exact hd
  have hdf : colonFree (if strLe c d then d else c) = true := by
    by_cases hs : strLe c d = true
    · rw [if_pos hs]; exact hd
    · rw [if_neg hs]; exact hc
  obtain ⟨h1, hrest⟩ := colon_split _ _ _ _ (not_colon_mem _ hxf) (not_colon_mem _ hcf) hdata
  obtain ⟨h2, h3⟩ := colon_split _ _ _ _ (not_colon_mem _ hyf) (not_colon_mem _ hdf) hrest
  have hty : ty = ty' := typeName_inj ty ty' (string_data_inj _ _ h3)
  refine ⟨hty, ?_⟩
  have hx := string_data_inj _ _ h1
  have hy := string_data_inj _ _ h2
  rcases sortPair_cases a b with ⟨ha1, ha2⟩ | ⟨ha1, ha2⟩ <;>
    rcases sortPair_cases c d with ⟨hc1, hc2⟩ | ⟨hc1, hc2⟩
  · left
    constructor
    · rw [← ha1, ← hc1]; exact hx
    · rw [← ha2, ← hc2]; exact hy
  · right
    constructor
    · rw [← ha1, ← hc1]; exact hx
    · rw [← ha2, ← hc2]; exact hy
  · right
    constructor
    · rw [← ha2, ← hc2]; exact hy
    · rw [← ha1, ← hc1]; exact hx
  · left
    constructor
    · rw [← ha2, ← hc2]; exact hy
    · rw [← ha1, ← hc1]; exact hx

/-! ### Counting invariants through the `buildGraphData` fold -/

/-- `k` is one of the kinds inserted through the seen-key dedup. -/
def dedupKind (k : EdgeType) : Prop :=
  k = EdgeType.po ∨ k = EdgeType.ec ∨ k = EdgeType.eq ∨ k = EdgeType.dc ∨ k = EdgeType.next

/-- Upper invariant: the pair's edge count never exceeds its key's
presence in the seen set. -/
def InvLE (A B : String) (k : EdgeType) (st : BuildSt) : Prop :=
  List.countP (pairEdge A B k) st.2.1 ≤ (if mkKey A B k ∈ st.2.2 then 1 else 0)

/-- Lower invariant: once the pair's key is seen, an edge for the pair
has been emitted. -/
def InvGE (A B : String) (k : EdgeType) (st : BuildSt) : Prop :=
  mkKey A B k ∈ st.2.2 → 1 ≤ List.countP (pairEdge A B k) st.2.1

theorem countP_singleton {α : Type} (p : α → Bool) (e : α) :
    List.countP p [e] = if p e then 1 else 0 := by
  rw [List.countP_cons, List.countP_nil, Nat.zero_add]

theorem pairEdge_iff (A B : String) (k : EdgeType) (e : GraphEdge) :
    pairEdge A B k e = true ↔
      e.type = k ∧ ((e.source = A ∧ e.target = B) ∨ (e.source = B ∧ e.target = A)) := by
  simp [pairEdge]

theorem pairEdge_key (A B slug t : String) (k ty : EdgeType)
    (h : pairEdge A B k (⟨slug, t, ty⟩ : GraphEdge) = true) :
    mkKey slug t ty = mkKey A B k := by
  rw [pairEdge_iff] at h
  obtain ⟨hty, h1⟩ := h
  have hty' : ty = k := hty
  subst hty'
  rcases h1 with ⟨h1, h2⟩ | ⟨h1, h2⟩
  · have hs : slug = A := h1
    have ht : t = B := h2
    rw [hs, ht]
  · have hs : slug = B := h1
    have ht : t = A := h2
    rw [hs, ht]
    exact mkKey_comm B A ty

theorem pairEdge_false_of_type (A B : String) (k : EdgeType) (e : GraphEdge)
    (h : e.type ≠ k) : pairEdge A B k e = false := by
  cases hpe : pairEdge A B k e
  · rfl
  · rw [pairEdge_iff] at hpe
    exact absurd hpe.1 h

theorem countP_map_edges (A B : String) (k : EdgeType) (slug : String)
    (ts : List String) (ty : EdgeType) (hty : ty ≠ k) :
    List.countP (pairEdge A B k) (ts.map (fun t => (⟨slug, t, ty⟩ : GraphEdge))) = 0 := by
  rw [List.countP_eq_zero]
  intro e he
  rw [List.mem_map] at he
  obtain ⟨t, _, rfl⟩ := he
  intro hh
  rw [pairEdge_false_of_type A B k _ hty] at hh
  exact absurd hh (by decide)

theorem invLE_condAdd (A B slug t : String) (k ty : EdgeType) (st : BuildSt)
    (h : InvLE A B k st) : InvLE A B k (condAdd slug t ty st) := by
  unfold condAdd
  by_cases hc : st.2.2.contains (mkKey slug t ty) = true
  · rw [if_pos hc]
    exact h
  · rw [if_neg hc]
    unfold InvLE at h ⊢
    rw [List.countP_append]
    by_cases hk : mkKey A B k = mkKey slug t ty
    · have hnm : mkKey A B k ∉ st.2.2 := by
        rw [hk]
        intro hm
        exact hc (by simp [hm])
      rw [if_neg hnm] at h
      have h0 : List.countP (pairEdge A B k) st.2.1 = 0 := Nat.le_zero.mp h
      have hmem : mkKey A B k ∈ st.2.2 ++ [mkKey slug t ty] := by
        rw [hk]
        exact List.mem_append_right _ (List.mem_cons_self _ _)
      rw [if_pos hmem, h0]
      have hb : List.countP (pairEdge A B k) [(⟨slug, t, ty⟩ : GraphEdge)] ≤ 1 := by
        rw [countP_singleton]
        split
        · exact Nat.le_refl 1
        · exact Nat.zero_le 1
      omega
    · have hpe : pairEdge A B k (⟨slug, t, ty⟩ : GraphEdge) = false := by
        cases hpe : pairEdge A B k (⟨slug, t, ty⟩ : GraphEdge)
        · rfl
        · exact absurd (pairEdge_key A B slug t k ty hpe).symm hk
      have hif : (if mkKey A B k ∈ st.2.2 ++ [mkKey slug t ty] then 1 else 0) =
          (if mkKey A B k ∈ st.2.2 then 1 else 0) := by
        by_cases hm : mkKey A B k ∈ st.2.2
        · rw [if_pos hm, if_pos (List.mem_append_left _ hm)]
        · rw [if_neg hm, if_neg (by simp [hm, hk])]
      rw [hif, countP_singleton, hpe]
      simpa using h

theorem invGE_condAdd (A B slug t : String) (k ty : EdgeType) (st : BuildSt)
    (hA : colonFree A = true) (hB : colonFree B = true)
    (hslug : colonFree slug = true) (ht : colonFree t = true)
    (h : InvGE A B k st) : InvGE A B k (condAdd slug t ty st) := by
  unfold condAdd
  by_cases hc : st.2.2.contains (mkKey slug t ty) = true
  · rw [if_pos hc]
    exact h
  · rw [if_neg hc]
    intro hmem
    rw [List.countP_append]
    rcases List.mem_append.mp hmem with hm | hm
    · have := h hm
      omega
    · have hk : mkKey A B k = mkKey slug t ty := by simpa using hm
      have hpe : pairEdge A B k (⟨slug, t, ty⟩ : GraphEdge) = true := by
        obtain ⟨hty, hcase⟩ := mkKey_inj slug t A B ty k hslug ht hA hB hk.symm
        rw [pairEdge_iff]
        refine ⟨hty, ?_⟩
        rcases hcase with ⟨h1, h2⟩ | ⟨h1, h2⟩
        · exact Or.inl ⟨h1, h2⟩
        · exact Or.inr ⟨h1, h2⟩
      rw [countP_singleton, hpe, if_pos rfl]
      omega

theorem invLE_symFold (A B slug : String) (k ty : EdgeType) :
    ∀ (ts : List String) (st : BuildSt),
      InvLE A B k st → InvLE A B k (symFold slug ty ts st) := by
  intro ts
  induction ts with
  | nil =>
    intro st h
    exact h
  | cons t ts ih =>
    intro st h
    rw [symFold_eq_foldl, List.foldl_cons, ← symFold_eq_foldl]
    exact ih (condAdd slug t ty st) (invLE_condAdd A B slug t k ty st h)

theorem invGE_symFold (A B slug : String) (k ty : EdgeType)
    (hA : colonFree A = true) (hB : colonFree B = true)
    (hslug : colonFree slug = true) :
    ∀ (ts : List String), (∀ t ∈ ts, colonFree t = true) →
      ∀ (st : BuildSt), InvGE A B k st → InvGE A B k (symFold slug ty ts st) := by
  intro ts
  induction ts with
  | nil =>
    intro _ st h
    exact h
  | cons t ts ih =>
    intro hts st h
    rw [symFold_eq_foldl, List.foldl_cons, ← symFold_eq_foldl]
    exact ih (fun x hx => hts x (List.mem_cons_of_mem t hx)) (condAdd slug t ty st)
      (invGE_condAdd A B slug t k ty st hA hB hslug
        (hts t (List.mem_cons_self t ts)) h)

theorem invLE_dirAppend (A B : String) (k : EdgeType) (hk : dedupKind k)
    (slug : String) (info : PageInfo) (rel : PageRelations) (st : BuildSt)
    (h : InvLE A B k st) : InvLE A B k (dirAppend slug info rel st) := by
  unfold InvLE
  rw [dirAppend_edges, dirAppend_seen, List.countP_append, List.countP_append,
    countP_map_edges A B k slug rel.ntpp .ntpp
      (by rcases hk with rfl | rfl | rfl | rfl | rfl <;> decide),
    countP_map_edges A B k slug rel.tpp .tpp
      (by rcases hk with rfl | rfl | rfl | rfl | rfl <;> decide)]
  simpa using h

theorem invGE_dirAppend (A B : String) (k : EdgeType)
    (slug : String) (info : PageInfo) (rel : PageRelations) (st : BuildSt)
    (h : InvGE A B k st) : InvGE A B k (dirAppend slug info rel st) := by
  unfold InvGE
  rw [dirAppend_edges, dirAppend_seen, List.countP_append, List.countP_append]
  intro hm
  have := h hm
  omega

theorem invLE_rAppend (A B : String) (k : EdgeType) (hk : dedupKind k)
    (slug : String) (rs : List String) (st : BuildSt)
    (h : InvLE A B k st) : InvLE A B k (rAppend slug rs st) := by
  unfold InvLE
  rw [rAppend_edges, rAppend_seen, List.countP_append,
    countP_map_edges A B k slug rs .r
      (by rcases hk with rfl | rfl | rfl | rfl | rfl <;> decide)]
  simpa using h

theorem invGE_rAppend (A B : String) (k : EdgeType)
    (slug : String) (rs : List String) (st : BuildSt)
    (h : InvGE A B k st) : InvGE A B k (rAppend slug rs st) := by
  unfold InvGE
  rw [rAppend_edges, rAppend_seen, List.countP_append]
  intro hm
  have := h hm
  omega

theorem invLE_nextAdd (A B slug : String) (k : EdgeType) (nx? : Option String)
    (st : BuildSt) (h : InvLE A B k st) : InvLE A B k (nextAdd slug nx? st) := by
  cases nx? with
  | none => exact h
  | some nx =>
    simp only [nextAdd]
    by_cases he : nx = ""
    · rw [if_pos he]
      exact h
    · rw [if_neg he]
      exact invLE_condAdd A B slug nx k .next st h

theorem invGE_nextAdd (A B slug : String) (k : EdgeType) (nx? : Option String)
    (hA : colonFree A = true) (hB : colonFree B = true)
    (hslug : colonFree slug = true)
    (hnx : ∀ t, nx? = some t → colonFree t = true)
    (st : BuildSt) (h : InvGE A B k st) : InvGE A B k (nextAdd slug nx? st) := by
  cases nx? with
  | none => exact h
  | some nx =>
    simp only [nextAdd]
    by_cases he : nx = ""
    · rw [if_pos he]
      exact h
    · rw [if_neg he]
      exact invGE_condAdd A B slug nx k .next st hA hB hslug (hnx nx rfl) h

theorem targetsColonFree_spec (rel : PageRelations) (h : targetsColonFree rel = true) :
    (∀ t ∈ rel.po, colonFree t = true) ∧ (∀ t ∈ rel.ec, colonFree t = true) ∧
    (∀ t ∈ rel.eq, colonFree t = true) ∧ (∀ t ∈ rel.dc, colonFree t = true) ∧
    (∀ t, rel.next = some t → colonFree t = true) := by
  unfold targetsColonFree at h
  simp only [Bool.and_eq_true, List.all_eq_true] at h
  obtain ⟨⟨⟨⟨h1, h2⟩, h3⟩, h4⟩, h5⟩ := h
  refine ⟨h1, h2, h3, h4, ?_⟩
  intro t ht
  rw [ht] at h5
  exact h5

theorem invLE_buildStep (A B : String) (k : EdgeType) (hk : dedupKind k)
    (pages : PageMap) (e : String × PageRelations) (st : BuildSt)
    (h : InvLE A B k st) : InvLE A B k (buildStep pages st e) := by
  obtain ⟨s, rel⟩ := e
  rw [buildStep_decomp]
  cases lookupA pages s with
  | none => exact h
  | some info =>
    exact invLE_rAppend A B k hk s rel.r _
      (invLE_nextAdd A B s k rel.next _
        (invLE_symFold A B s k .dc rel.dc _
          (invLE_symFold A B s k .eq rel.eq _
            (invLE_symFold A B s k .ec rel.ec _
              (invLE_symFold A B s k .po rel.po _
                (invLE_dirAppend A B k hk s info rel st h))))))

theorem invGE_buildStep (A B : String) (k : EdgeType)
    (hA : colonFree A = true) (hB : colonFree B = true)
    (pages : PageMap) (e : String × PageRelations)
    (he1 : colonFree e.1 = true) (he2 : targetsColonFree e.2 = true)
    (st : BuildSt) (h : InvGE A B k st) : InvGE A B k (buildStep pages st e) := by
  obtain ⟨s, rel⟩ := e
  obtain ⟨hpo, hec, heq, hdc, hnx⟩ := targetsColonFree_spec rel he2
  rw [buildStep_decomp]
  cases lookupA pages s with
  | none => exact h
  | some info =>
    exact invGE_rAppend A B k s rel.r _
      (invGE_nextAdd A B s k rel.next hA hB he1 hnx _
        (invGE_symFold A B s k .dc hA hB he1 rel.dc hdc _
          (invGE_symFold A B s k .eq hA hB he1 rel.eq heq _
            (invGE_symFold A B s k .ec hA hB he1 rel.ec hec _
              (invGE_symFold A B s k .po hA hB he1 rel.po hpo _
                (invGE_dirAppend A B k s info rel st h))))))

theorem invLE_foldl (A B : String) (k : EdgeType) (hk : dedupKind k) (pages : PageMap) :
    ∀ (l : List (String × PageRelations)) (st : BuildSt),
      InvLE A B k st → InvLE A B k (l.foldl (buildStep pages) st) := by
  intro l
  induction l with
  | nil =>
    intro st h
    exact h
  | cons e l ih =>
    intro st h
    rw [List.foldl_cons]
    exact ih _ (invLE_buildStep A B k hk pages e st h)

theorem invGE_foldl (A B : String) (k : EdgeType)
    (hA : colonFree A = true) (hB : colonFree B = true) (pages : PageMap) :
    ∀ (l : List (String × PageRelations)),
      (∀ p ∈ l, colonFree p.1 = true ∧ targetsColonFree p.2 = true) →
      ∀ (st : BuildSt), InvGE A B k st → InvGE A B k (l.foldl (buildStep pages) st) := by
  intro l
  induction l with
  | nil =>
    intro _ st h
    exact h
  | cons e l ih =>
    intro hl st h
    rw [List.foldl_cons]
    exact ih (fun p hp => hl p (List.mem_cons_of_mem e hp)) _
      (invGE_buildStep A B k hA hB pages e
        (hl e (List.mem_cons_self e l)).1 (hl e (List.mem_cons_self e l)).2 st h)

/-! ### The pair's key reaches the seen set -/

theorem seen_condAdd (slug t : String) (ty : EdgeType) (st : BuildSt) (x : String)
    (h : x ∈ st.2.2) : x ∈ (condAdd slug t ty st).2.2 := by
  unfold condAdd
  by_cases hc : st.2.2.contains (mkKey slug t ty) = true
  · rw [if_pos hc]
    exact h
  · rw [if_neg hc]
    exact List.mem_append_left _ h

theorem seen_condAdd_self (slug t : String) (ty : EdgeType) (st : BuildSt) :
    mkKey slug t ty ∈ (condAdd slug t ty st).2.2 := by
  unfold condAdd
  by_cases hc : st.2.2.contains (mkKey slug t ty) = true
  · rw [if_pos hc]
    simpa using hc
  · rw [if_neg hc]
    exact List.mem_append_right _ (List.mem_cons_self _ _)

theorem seen_symFold (slug : String) (ty : EdgeType) :
    ∀ (ts : List String) (st : BuildSt) (x : String),
      x ∈ st.2.2 → x ∈ (symFold slug ty ts st).2.2 := by
  intro ts
  induction ts with
  | nil =>
    intro st x h
    exact h
  | cons t ts ih =>
    intro st x h
    rw [symFold_eq_foldl, List.foldl_cons, ← symFold_eq_foldl]
    exact ih (condAdd slug t ty st) x (seen_condAdd slug t ty st x h)

theorem seen_symFold_self (slug B : String) (ty : EdgeType) :
    ∀ (ts : List String), B ∈ ts →
      ∀ (st : BuildSt), mkKey slug B ty ∈ (symFold slug ty ts st).2.2 := by
  intro ts
  induction ts with
  | nil =>
    intro h
    cases h
  | cons t ts ih =>
    intro hB st
    rw [symFold_eq_foldl, List.foldl_cons, ← symFold_eq_foldl]
    rcases List.mem_cons.mp hB with rfl | hB'
    · exact seen_symFold slug ty ts _ _ (seen_condAdd_self slug B ty st)
    · exact ih hB' _

theorem seen_nextAdd (slug : String) (nx? : Option String) (st : BuildSt) (x : String)
    (h : x ∈ st.2.2) : x ∈ (nextAdd slug nx? st).2.2 := by
  cases nx? with
  | none => exact h
  | some nx =>
    simp only [nextAdd]
    split
    · exact h
    · exact seen_condAdd slug nx .next st x h

theorem seen_nextAdd_self (slug B : String) (st : BuildSt) (hB : B ≠ "") :
    mkKey slug B .next ∈ (nextAdd slug (some B) st).2.2 := by
  simp only [nextAdd]
  rw [if_neg hB]
  exact seen_condAdd_self slug B .next st

theorem seen_buildStep (pages : PageMap) (e : String × PageRelations) (st : BuildSt)
    (x : String) (h : x ∈ st.2.2) : x ∈ (buildStep pages st e).2.2 := by
  obtain ⟨s, rel⟩ := e
  rw [buildStep_decomp]
  cases lookupA pages s with
  | none => exact h
  | some info =>
    rw [rAppend_seen]
    exact seen_nextAdd s rel.next _ x
      (seen_symFold s .dc rel.dc _ x
        (seen_symFold s .eq rel.eq _ x
          (seen_symFold s .ec rel.ec _ x
            (seen_symFold s .po rel.po _ x
              (by rw [dirAppend_seen]; exact h)))))

theorem seen_buildStep_rel (pages : PageMap) (A B : String) (relA : PageRelations)
    (k : EdgeType) (st : BuildSt)
    (hpages : (lookupA pages A).isSome = true)
    (hrel : relatedVia relA B k = true) :
    mkKey A B k ∈ (buildStep pages st (A, relA)).2.2 := by
  rw [buildStep_decomp]
  cases hl : lookupA pages A with
  | none =>
    rw [hl] at hpages
    exact absurd hpages (by decide)
  | some info =>
    rw [rAppend_seen]
    cases k with
    | ntpp => simp [relatedVia] at hrel
    | tpp => simp [relatedVia] at hrel
    | r => simp [relatedVia] at hrel
    | po =>
      have hB : B ∈ relA.po := by simpa [relatedVia] using hrel
      exact seen_nextAdd A relA.next _ _
        (seen_symFold A .dc relA.dc _ _
          (seen_symFold A .eq relA.eq _ _
            (seen_symFold A .ec relA.ec _ _
              (seen_symFold_self A B .po relA.po hB _))))
    | ec =>
      have hB : B ∈ relA.ec := by simpa [relatedVia] using hrel
      exact seen_nextAdd A relA.next _ _
        (seen_symFold A .dc relA.dc _ _
          (seen_symFold A .eq relA.eq _ _
            (seen_symFold_self A B .ec relA.ec hB _)))
    | eq =>
      have hB : B ∈ relA.eq := by simpa [relatedVia] using hrel
      exact seen_nextAdd A relA.next _ _
        (seen_symFold A .dc relA.dc _ _
          (seen_symFold_self A B .eq relA.eq hB _))
    | dc =>
      have hB : B ∈ relA.dc := by simpa [relatedVia] using hrel
      exact seen_nextAdd A relA.next _ _
        (seen_symFold_self A B .dc relA.dc hB _)
    | next =>
      have hB : relA.next = some B ∧ B ≠ "" := by
        simpa [relatedVia] using hrel
      rw [hB.1]
      exact seen_nextAdd_self A B _ hB.2

theorem seen_foldl_mono (pages : PageMap) :
    ∀ (l : List (String × PageRelations)) (st : BuildSt) (x : String),
      x ∈ st.2.2 → x ∈ (l.foldl (buildStep pages) st).2.2 := by
  intro l
  induction l with
  | nil =>
    intro st x h
    exact h
  | cons e l ih =>
    intro st x h
    rw [List.foldl_cons]
    exact ih _ x (seen_buildStep pages e st x h)

theorem seen_fold_rel (pages : PageMap) (A B : String) (relA : PageRelations)
    (k : EdgeType)
    (hpages : (lookupA pages A).isSome = true)
    (hrel : relatedVia relA B k = true) :
    ∀ (l : List (String × PageRelations)), (A, relA) ∈ l →
      ∀ (st : BuildSt), mkKey A B k ∈ (l.foldl (buildStep pages) st).2.2 := by
  intro l
  induction l with
  | nil =>
    intro h
    cases h
  | cons e l ih =>
    intro hmem st
    rw [List.foldl_cons]
    rcases List.mem_cons.mp hmem with rfl | hmem'
    · exact seen_foldl_mono pages l _ _
        (seen_buildStep_rel pages A B relA k st hpages hrel)
    · exact ih hmem' _

theorem colonFree_of_related (rel : PageRelations) (B : String) (k : EdgeType)
    (h : targetsColonFree rel = true) (hrel : relatedVia rel B k = true) :
    colonFree B = true := by
  obtain ⟨h1, h2, h3, h4, h5⟩ := targetsColonFree_spec rel h
  cases k with
  | po => exact h1 B (by simpa [relatedVia] using hrel)
  | ec => exact h2 B (by simpa [relatedVia] using hrel)
  | eq => exact h3 B (by simpa [relatedVia] using hrel)
  | dc => exact h4 B (by simpa [relatedVia] using hrel)
  | next =>
    have hB : rel.next = some B ∧ B ≠ "" := by simpa [relatedVia] using hrel
    exact h5 B hB.1
  | ntpp => simp [relatedVia] at hrel
  | tpp => simp [relatedVia] at hrel
  | r => simp [relatedVia] at hrel

/-- C5 (corrected): in the full graph view, for every unordered pair
`{A, B}` and every deduplicated kind `k` (the four symmetric RCC-8
kinds and `next`), at most one `k`-typed edge for the pair is ever
emitted; and when no involved slug contains a `':'` character, a pair
related through `k` on a page present in the page map gets exactly one
such edge.  Without the colon-freeness proviso the "exactly one" half
fails: two different pairs can collide on the same dedup key, and then
a related pair gets zero edges. -/
theorem C5_symmetric_edge_dedup (graph : Graph) (pages : PageMap) (A B : String)
    (k : EdgeType) (hk : k = EdgeType.po ∨ k = EdgeType.ec ∨ k = EdgeType.eq ∨
      k = EdgeType.dc ∨ k = EdgeType.next) :
    List.countP (pairEdge A B k) (buildGraphData graph pages).edges ≤ 1 ∧
    ((∀ p ∈ graph, colonFree p.1 = true ∧ targetsColonFree p.2 = true) →
      ∀ relA, (A, relA) ∈ graph → (lookupA pages A).isSome = true →
        relatedVia relA B k = true →
        List.countP (pairEdge A B k) (buildGraphData graph pages).edges = 1) := by
  have h0 : InvLE A B k ([], [], []) := by
    unfold InvLE
    simp [List.countP_nil]
  have hle := invLE_foldl A B k hk pages graph ([], [], []) h0
  unfold InvLE at hle
  constructor
  · rw [buildGraphData_edges]
    refine Nat.le_trans hle ?_
    split
    · exact Nat.le_refl 1
    · exact Nat.zero_le 1
  · intro hcf relA hmem hpages hrel
    rw [buildGraphData_edges]
    have hA : colonFree A = true := (hcf (A, relA) hmem).1
    have hB : colonFree B = true :=
      colonFree_of_related relA B k (hcf (A, relA) hmem).2 hrel
    have hseen := seen_fold_rel pages A B relA k hpages hrel graph hmem ([], [], [])
    have hg0 : InvGE A B k ([], [], []) := by
      unfold InvGE
      intro hx
      cases hx
    have hge := invGE_foldl A B k hA hB pages graph hcf ([], [], []) hg0
    unfold InvGE at hge
    have h1 := hge hseen
    rw [if_pos hseen] at hle
    omega

/-- A relation record declaring only `po` targets. -/
def relPoC5 (l : List String) : PageRelations :=
  { ntpp := [], nttpi := [], tpp := [], tppi := [], po := l, ec := [], eq := [], dc := [],
    next := none, prev := none, r := [], ri := [] }

/-- Four pages whose slugs collide on the dedup key `"x::y::z::po"`:
the pair `{x::y, z}` and the pair `{x, y::z}`. -/
def gC5 : Graph :=
  [("x::y", relPoC5 ["z"]), ("z", relPoC5 ["x::y"]),
   ("x", relPoC5 ["y::z"]), ("y::z", relPoC5 ["x"])]

/-- The matching page map for `gC5`. -/
def pC5 : PageMap :=
  [("x::y", ⟨"x::y", "T1"⟩), ("z", ⟨"z", "T2"⟩),
   ("x", ⟨"x", "T3"⟩), ("y::z", ⟨"y::z", "T4"⟩)]

/-- C5 counterexample: the pair `{x, y::z}` is `po`-related on a page
present in the page map, yet the full view emits zero `po` edges for
it — its dedup key collides with the earlier pair `{x::y, z}`. -/
theorem C5_counterexample :
    relatedVia (relPoC5 ["y::z"]) "y::z" EdgeType.po = true ∧
    ("x", relPoC5 ["y::z"]) ∈ gC5 ∧
    (lookupA pC5 "x").isSome = true ∧
    List.countP (pairEdge "x" "y::z" EdgeType.po) (buildGraphData gC5 pC5).edges = 0 := by
  decide

/-- A two-page graph realizing the spec's dedup example: `a` and `b`
each declare `eq` with the other. -/
def gW5 : Graph :=
  [("a", { ntpp := [], nttpi := [], tpp := [], tppi := [], po := [], ec := [],
           eq := ["b"], dc := [], next := none, prev := none, r := [], ri := [] }),
   ("b", { ntpp := [], nttpi := [], tpp := [], tppi := [], po := [], ec := [],
           eq := ["a"], dc := [], next := none, prev := none, r := [], ri := [] })]

/-- The matching page map for `gW5`. -/
def pW5 : PageMap := [("a", ⟨"a", "A"⟩), ("b", ⟨"b", "B"⟩)]

/-! ## Link-extraction rejection rules -/

/-- One step of the `extractLinkSlugs` fold, without the inner `let`. -/
def extStep (src : String) (known : List String) (slugs : List String)
    (t : List Char) : List String :=
  if skipT t then slugs
  else if known.contains (targetSlug t) ∧ targetSlug t ≠ src ∧ targetSlug t ∉ slugs
    then slugs ++ [targetSlug t] else slugs

theorem extractLinkSlugs_eq_foldl (body src : String) (known : List String) :
    extractLinkSlugs body src known =
      (linkTargets body).foldl (extStep src known) [] := rfl

theorem mem_extStep_fold (src : String) (known : List String) :
    ∀ (ts : List (List Char)) (acc : List String) (s : String),
      s ∈ ts.foldl (extStep src known) acc →
      s ∈ acc ∨ ∃ t ∈ ts, skipT t = false ∧ s = targetSlug t ∧
        s ∈ known ∧ s ≠ src := by
  intro ts
  induction ts with
  | nil =>
    intro acc s h
    exact Or.inl h
  | cons t ts ih =>
    intro acc s h
    rw [List.foldl_cons] at h
    rcases ih (extStep src known acc t) s h with h1 | ⟨t2, ht2, h2⟩
    · unfold extStep at h1
      by_cases hsk : skipT t = true
      · rw [if_pos hsk] at h1
        exact Or.inl h1
      · rw [if_neg hsk] at h1
        by_cases hc : known.contains (targetSlug t) = true ∧ targetSlug t ≠ src ∧
            targetSlug t ∉ acc
        · rw [if_pos hc] at h1
          rcases List.mem_append.mp h1 with hm | hm
          · exact Or.inl hm
          · have hs : s = targetSlug t := by simpa using hm
            refine Or.inr ⟨t, List.mem_cons_self t ts, ?_, hs, ?_, ?_⟩
            · rw [Bool.not_eq_true] at hsk
              exact hsk
            · rw [hs]
              simpa using hc.1
            · rw [hs]
              exact hc.2.1
        · rw [if_neg hc] at h1
          exact Or.inl h1
    · exact Or.inr ⟨t2, List.mem_cons_of_mem t ht2, h2⟩

/-- C6 (corrected): every slug `extractLinkSlugs` returns comes from a
bracket-link target that passed the rejection test — so targets
beginning with `http`, `#` or `mailto:` never contribute — and the
spec's worked example holds.  The rejection test is exactly those three
literal prefixes, not "any scheme prefix": e.g. an `ftp://` target
passes through. -/
theorem C6_link_extraction :
    (∀ (body sourceSlug : String) (knownSlugs : List String) (s : String),
       s ∈ extractLinkSlugs body sourceSlug knownSlugs →
       ∃ t ∈ linkTargets body, skipT t = false ∧ s = targetSlug t ∧
         s ∈ knownSlugs ∧ s ≠ sourceSlug) ∧
    extractLinkSlugs
      "See [the other page](/other-page) and [external](https://ex.com) and [self](./this-page)"
      "this-page" ["other-page", "this-page"] = ["other-page"] := by
  constructor
  · intro body sourceSlug knownSlugs s hs
    rw [extractLinkSlugs_eq_foldl] at hs
    rcases mem_extStep_fold sourceSlug knownSlugs (linkTargets body) [] s hs with h | h
    · cases h
    · exact h
  · decide

/-- Witness for C6's origin property at a one-link body. -/
theorem C6_link_extraction_witness :
    ∃ t ∈ linkTargets "[a](/b)", skipT t = false ∧ "b" = targetSlug t ∧
      "b" ∈ ["b", "z"] ∧ "b" ≠ "z" :=
  C6_link_extraction.1 "[a](/b)" "z" ["b", "z"] "b" (by decide)

/-- C6 counterexample: an `ftp://` target is an absolute external URL
with a scheme prefix, yet it is not skipped and its slug is returned. -/
theorem C6_counterexample :
    extractLinkSlugs "[x](ftp://y)" "src" ["ftp://y"] = ["ftp://y"] ∧
    "ftp://y" ∈ extractLinkSlugs "[x](ftp://y)" "src" ["ftp://y"] := by
  decide

/-! ## Breadcrumb walk: termination and shape -/

/-- Number of graph keys the walk can still visit. -/
def walkMeasure (g : Graph) (visited : List String) : Nat :=
  ((keysOf g).filter (fun x => !visited.contains x)).length

theorem filter_visited_mono (c : String) (vis : List String) :
    ∀ (l : List String),
      (l.filter (fun x => !(c :: vis).contains x)).length ≤
      (l.filter (fun x => !vis.contains x)).length := by
  intro l
  induction l with
  | nil => simp
  | cons a l ih =>
    rw [List.filter_cons, List.filter_cons]
    by_cases hac : (!(c :: vis).contains a) = true
    · have hv : (!vis.contains a) = true := by
        have hnm : a ∉ c :: vis := by simpa using hac
        have hnv : a ∉ vis := fun hm => hnm (List.mem_cons_of_mem c hm)
        simpa using hnv
      rw [if_pos hac, if_pos hv]
      simp only [List.length_cons]
      omega
    · rw [if_neg hac]
      by_cases hv : (!vis.contains a) = true
      · rw [if_pos hv]
        simp only [List.length_cons]
        omega
      · rw [if_neg hv]
        exact ih

theorem filter_visited_strict (c : String) (vis : List String) (hcv : c ∉ vis) :
    ∀ (l : List String), c ∈ l →
      (l.filter (fun x => !(c :: vis).contains x)).length <
      (l.filter (fun x => !vis.contains x)).length := by
  intro l
  induction l with
  | nil =>
    intro h
    cases h
  | cons a l ih =>
    intro hc
    rw [List.filter_cons, List.filter_cons]
    rcases List.mem_cons.mp hc with rfl | hc'
    · have h1 : ¬((!(c :: vis).contains c) = true) := by simp
      have h2 : (!vis.contains c) = true := by simpa using hcv
      rw [if_neg h1, if_pos h2]
      simp only [List.length_cons]
      have := filter_visited_mono c vis l
      omega
    · by_cases hac : (!(c :: vis).contains a) = true
      · have hv : (!vis.contains a) = true := by
          have hnm : a ∉ c :: vis := by simpa using hac
          have hnv : a ∉ vis := fun hm => hnm (List.mem_cons_of_mem c hm)
          simpa using hnv
        rw [if_pos hac, if_pos hv]
        simp only [List.length_cons]
        have := ih hc'
        omega
      · rw [if_neg hac]
        by_cases hv : (!vis.contains a) = true
        · rw [if_pos hv]
          simp only [List.length_cons]
          have := ih hc'
          omega
        · rw [if_neg hv]
          exact ih hc'

theorem walkMeasure_lt (g : Graph) (c : String) (visited : List String)
    (hck : c ∈ keysOf g) (hcv : c ∉ visited) :
    walkMeasure g (c :: visited) < walkMeasure g visited :=
  filter_visited_strict c visited hcv (keysOf g) hck

theorem walkMeasure_nil (g : Graph) : walkMeasure g [] = g.length := by
  unfold walkMeasure
  have hf : ((keysOf g).filter (fun x => !([] : List String).contains x)) = keysOf g := by
    apply List.filter_eq_self.mpr
    intro a _
    rfl
  rw [hf]
  unfold keysOf
  simp

theorem walkAux_empty (g : Graph) (fuel : Nat) (visited : List String) :
    walkAux g (fuel + 1) (some "") visited = [] := by
  simp [walkAux]

theorem walkAux_visited (g : Graph) (fuel : Nat) (c : String) (visited : List String)
    (h : c ∈ visited) (hc : ¬(c = "")) :
    walkAux g (fuel + 1) (some c) visited = [] := by
  simp only [walkAux]
  rw [if_neg hc, if_pos h]

theorem walkAux_step (g : Graph) (fuel : Nat) (c : String) (visited : List String)
    (hc1 : ¬(c = "")) (hc2 : ¬(c ∈ visited)) :
    walkAux g (fuel + 1) (some c) visited =
      match lookupA g c with
      | none => [c]
      | some rel =>
        c :: walkAux g fuel (rel.ntpp.head?.orElse (fun _ => rel.tpp.head?))
          (c :: visited) := by
  simp only [walkAux]
  rw [if_neg hc1, if_neg hc2]

theorem walkAux_step_none (g : Graph) (fuel : Nat) (c : String) (visited : List String)
    (hc1 : ¬(c = "")) (hc2 : ¬(c ∈ visited)) (hl : lookupA g c = none) :
    walkAux g (fuel + 1) (some c) visited = [c] := by
  rw [walkAux_step g fuel c visited hc1 hc2, hl]

theorem walkAux_step_some (g : Graph) (fuel : Nat) (c : String) (visited : List String)
    (hc1 : ¬(c = "")) (hc2 : ¬(c ∈ visited)) (rel : PageRelations)
    (hl : lookupA g c = some rel) :
    walkAux g (fuel + 1) (some c) visited =
      c :: walkAux g fuel (rel.ntpp.head?.orElse (fun _ => rel.tpp.head?))
        (c :: visited) := by
  rw [walkAux_step g fuel c visited hc1 hc2, hl]

theorem parentOf_none (g : Graph) (c : String) (h : lookupA g c = none) :
    parentOf g c = none := by
  unfold parentOf
  rw [h]

theorem parentOf_some (g : Graph) (c : String) (rel : PageRelations)
    (h : lookupA g c = some rel) :
    parentOf g c = rel.ntpp.head?.orElse (fun _ => rel.tpp.head?) := by
  unfold parentOf
  rw [h]

theorem walk_spec (g : Graph) :
    ∀ (fuel : Nat) (c : String) (visited : List String),
      walkMeasure g visited < fuel → c ≠ "" → c ∉ visited →
      ∃ rest, walkAux g fuel (some c) visited = c :: rest ∧
        List.Chain' (fun a b => parentOf g a = some b ∧ b ≠ "") (c :: rest) ∧
        (c :: rest).Nodup ∧ (∀ x ∈ c :: rest, x ∉ visited) ∧
        (∀ x, (c :: rest).getLast? = some x →
          parentOf g x = none ∨ parentOf g x = some "" ∨
            ∃ y, parentOf g x = some y ∧ (y ∈ c :: rest ∨ y ∈ visited)) := by
  intro fuel
  induction fuel with
  | zero =>
    intro c visited hm
    exact absurd hm (by omega)
  | succ n ih =>
    intro c visited hm hc1 hc2
    cases hl : lookupA g c with
    | none =>
      rw [walkAux_step_none g n c visited hc1 hc2 hl]
      refine ⟨[], rfl, List.chain'_singleton c, by simp, ?_, ?_⟩
      · intro x hx
        have hxc : x = c := by simpa using hx
        rw [hxc]
        exact hc2
      · intro x hx
        have hxc : c = x := by simpa using hx
        rw [← hxc]
        exact Or.inl (parentOf_none g c hl)
    | some rel =>
      have hpar : parentOf g c = rel.ntpp.head?.orElse (fun _ => rel.tpp.head?) :=
        parentOf_some g c rel hl
      have hck : c ∈ keysOf g := (mem_keysOf_iff_isSome g c).mpr (by rw [hl]; rfl)
      have hlt := walkMeasure_lt g c visited hck hc2
      have hn : walkMeasure g (c :: visited) < n := by omega
      obtain ⟨m, rfl⟩ : ∃ m, n = m + 1 := ⟨n - 1, by omega⟩
      rw [walkAux_step_some g (m + 1) c visited hc1 hc2 rel hl]
      cases hp : rel.ntpp.head?.orElse (fun _ => rel.tpp.head?) with
      | none =>
        refine ⟨[], rfl, List.chain'_singleton c, by simp, ?_, ?_⟩
        · intro x hx
          have hxc : x = c := by simpa using hx
          rw [hxc]
          exact hc2
        · intro x hx
          have hxc : c = x := by simpa using hx
          rw [← hxc]
          exact Or.inl (by rw [hpar, hp])
      | some p =>
        by_cases hp0 : p = ""
        · subst hp0
          rw [walkAux_empty]
          refine ⟨[], rfl, List.chain'_singleton c, by simp, ?_, ?_⟩
          · intro x hx
            have hxc : x = c := by simpa using hx
            rw [hxc]
            exact hc2
          · intro x hx
            have hxc : c = x := by simpa using hx
            rw [← hxc]
            exact Or.inr (Or.inl (by rw [hpar, hp]))
        · by_cases hpv : p ∈ c :: visited
          · rw [walkAux_visited g m p (c :: visited) hpv hp0]
            refine ⟨[], rfl, List.chain'_singleton c, by simp, ?_, ?_⟩
            · intro x hx
              have hxc : x = c := by simpa using hx
              rw [hxc]
              exact hc2
            · intro x hx
              have hxc : c = x := by simpa using hx
              rw [← hxc]
              refine Or.inr (Or.inr ⟨p, by rw [hpar, hp], ?_⟩)
              rcases List.mem_cons.mp hpv with rfl | hpv'
              · exact Or.inl (List.mem_cons_self _ _)
              · exact Or.inr hpv'
          · obtain ⟨rest', heq, hchain, hnodup, hfresh, hlast⟩ :=
              ih p (c :: visited) hn hp0 hpv
            refine ⟨p :: rest', by rw [heq], ?_, ?_, ?_, ?_⟩
            · rw [List.chain'_cons]
              exact ⟨⟨by rw [hpar, hp], hp0⟩, hchain⟩
            · rw [List.nodup_cons]
              refine ⟨?_, hnodup⟩
              intro hcmem
              exact (hfresh c hcmem) (List.mem_cons_self c visited)
            · intro x hx
              rcases List.mem_cons.mp hx with rfl | hx'
              · exact hc2
              · intro hxv
                exact (hfresh x hx') (List.mem_cons_of_mem c hxv)
            · intro x hx
              rw [List.getLast?_cons_cons] at hx
              rcases hlast x hx with h | h | ⟨y, hy1, hy2⟩
              · exact Or.inl h
              · exact Or.inr (Or.inl h)
              · refine Or.inr (Or.inr ⟨y, hy1, ?_⟩)
                rcases hy2 with hy | hy
                · exact Or.inl (List.mem_cons_of_mem c hy)
                · rcases List.mem_cons.mp hy with hyc | hy'
                  · refine Or.inl ?_
                    rw [hyc]
                    exact List.mem_cons_self c _
                  · exact Or.inr hy'

theorem walkAux_fuel_succ (g : Graph) :
    ∀ (fuel : Nat) (cur? : Option String) (visited : List String),
      walkMeasure g visited < fuel →
      walkAux g (fuel + 1) cur? visited = walkAux g fuel cur? visited := by
  intro fuel
  induction fuel with
  | zero =>
    intro cur? visited hm
    exact absurd hm (by omega)
  | succ n ih =>
    intro cur? visited hm
    cases cur? with
    | none => rfl
    | some c =>
      by_cases hc1 : c = ""
      · subst hc1
        rw [walkAux_empty, walkAux_empty]
      · by_cases hc2 : c ∈ visited
        · rw [walkAux_visited g (n + 1) c visited hc2 hc1,
            walkAux_visited g n c visited hc2 hc1]
        · cases hl : lookupA g c with
          | none =>
            rw [walkAux_step_none g (n + 1) c visited hc1 hc2 hl,
              walkAux_step_none g n c visited hc1 hc2 hl]
          | some rel =>
            rw [walkAux_step_some g (n + 1) c visited hc1 hc2 rel hl,
              walkAux_step_some g n c visited hc1 hc2 rel hl]
            have hck : c ∈ keysOf g := (mem_keysOf_iff_isSome g c).mpr (by rw [hl]; rfl)
            have hlt := walkMeasure_lt g c visited hck hc2
            have hn : walkMeasure g (c :: visited) < n := by omega
            rw [ih (rel.ntpp.head?.orElse (fun _ => rel.tpp.head?)) (c :: visited) hn]

theorem walkAux_fuel_add (g : Graph) (fuel d : Nat) (cur? : Option String)
    (visited : List String) (hm : walkMeasure g visited < fuel) :
    walkAux g (fuel + d) cur? visited = walkAux g fuel cur? visited := by
  induction d with
  | zero => rfl
  | succ m ihd =>
    have hstep : fuel + (m + 1) = (fuel + m) + 1 := by omega
    rw [hstep, walkAux_fuel_succ g (fuel + m) cur? visited (by omega), ihd]

/-- The spec's breadcrumb example store: `root`, `mid` (ntpp `root`),
`leaf` (ntpp `mid`). -/
def stBC : List RawPage :=
  [ { id := "root", title := "Root", body := "" },
    { id := "mid", title := "Mid", body := "", ntpp := some ["root"] },
    { id := "leaf", title := "Leaf", body := "", ntpp := some ["mid"] } ]

/-- C7 (corrected): the breadcrumb walk visits the start slug first and
then repeatedly the parent `ntpp[0] ?? tpp[0]`, never repeating a slug,
and halts exactly when the parent is missing, is the empty string
(which JS treats as falsy, halting BEFORE visiting that page), or was
already visited; the walk terminates on every graph (extra fuel never
changes the result), breadcrumbs are the visited pages' infos reversed
(root first), and the spec's `[root, mid, leaf]` example holds. -/
theorem C7_breadcrumbs (g : Graph) (pages : PageMap) (s : String) :
    (s ≠ "" → (visitOrder g s).head? = some s) ∧
    List.Chain' (fun a b => parentOf g a = some b ∧ b ≠ "") (visitOrder g s) ∧
    (visitOrder g s).Nodup ∧
    (∀ x, (visitOrder g s).getLast? = some x →
      parentOf g x = none ∨ parentOf g x = some "" ∨
        ∃ y, parentOf g x = some y ∧ y ∈ visitOrder g s) ∧
    getBreadcrumbs s g pages =
      ((visitOrder g s).filterMap (fun c => lookupA pages c)).reverse ∧
    (∀ extra, walkAux g (g.length + 1 + extra) (some s) [] = visitOrder g s) ∧
    (let gp := buildRelationsGraph stBC
     getBreadcrumbs "leaf" gp.1 gp.2 =
       [⟨"root", "Root"⟩, ⟨"mid", "Mid"⟩, ⟨"leaf", "Leaf"⟩]) := by
  by_cases hs : s = ""
  · subst hs
    have hvo : visitOrder g "" = [] := walkAux_empty g g.length []
    refine ⟨fun h => absurd rfl h, ?_, ?_, ?_, rfl, ?_, by decide⟩
    · rw [hvo]
      exact List.chain'_nil
    · rw [hvo]
      exact List.nodup_nil
    · intro x hx
      rw [hvo] at hx
      simp at hx
    · intro extra
      exact walkAux_fuel_add g (g.length + 1) extra (some "") []
        (by rw [walkMeasure_nil]; omega)
  · obtain ⟨rest, heq, hchain, hnodup, _, hlast⟩ :=
      walk_spec g (g.length + 1) s [] (by rw [walkMeasure_nil]; omega) hs (by simp)
    have hvo : visitOrder g s = s :: rest := heq
    refine ⟨?_, ?_, ?_, ?_, rfl, ?_, by decide⟩
    · intro _
      rw [hvo]
      rfl
    · rw [hvo]
      exact hchain
    · rw [hvo]
      exact hnodup
    · intro x hx
      rw [hvo] at hx
      rcases hlast x hx with h | h | ⟨y, hy1, hy2⟩
      · exact Or.inl h
      · exact Or.inr (Or.inl h)
      · refine Or.inr (Or.inr ⟨y, hy1, ?_⟩)
        rw [hvo]
        rcases hy2 with hy | hy
        · exact hy
        · cases hy
    · intro extra
      exact walkAux_fuel_add g (g.length + 1) extra (some s) []
        (by rw [walkMeasure_nil]; omega)

/-- Witness for C7 at the spec's example store. -/
theorem C7_breadcrumbs_witness :
    (visitOrder (buildRelationsGraph stBC).1 "leaf").head? = some "leaf" :=
  (C7_breadcrumbs (buildRelationsGraph stBC).1 (buildRelationsGraph stBC).2 "leaf").1
    (by decide)

/-- A store with an empty-slug page that is the declared parent of `a`. -/
def stE : List RawPage :=
  [ { id := "", title := "Empty", body := "" },
    { id := "a", title := "A", body := "", ntpp := some [""] } ]

/-- C7 counterexample: `a`'s parent is the (existing, titled) page with
slug `""`; the claim's chain would be `[Empty, A]`, but the walk halts
on the falsy slug and returns only `[A]`. -/
theorem C7_counterexample :
    (let gp := buildRelationsGraph stE
     getBreadcrumbs "a" gp.1 gp.2) = [⟨"a", "A"⟩] ∧
    (let gp := buildRelationsGraph stE
     parentOf gp.1 "a" = some "" ∧ (lookupA gp.2 "").isSome = true) := by
  decide

/-! ## Backlinks endpoint vs link extractor -/

theorem pathToSlugC_slash (l : List Char) (hl : l ≠ []) :
    pathToSlugC ('/' :: l) = l := by
  have h1 : ¬('/' :: l = ['/']) := by
    intro h
    injection h with _ h2
    exact hl h2
  have h2 : ['/'].isPrefixOf ('/' :: l) = true := by
    cases l with
    | nil => exact absurd rfl hl
    | cons a rs => rfl
  unfold pathToSlugC
  rw [if_neg h1, if_pos h2]
  rfl

theorem slugToPath_data (s : String) :
    (slugToPath s).data = if s = "index" then ['/'] else '/' :: s.data := by
  unfold slugToPath
  by_cases h : s = "index"
  · rw [if_pos h, if_pos h]
  · rw [if_neg h, if_neg h, String.data_append]
    rfl

theorem pathToSlug_slugToPath (s : String) (hs : s ≠ "") :
    pathToSlugC ((slugToPath s).data) = s.data := by
  rw [slugToPath_data]
  by_cases h : s = "index"
  · rw [if_pos h, h]
    decide
  · rw [if_neg h]
    apply pathToSlugC_slash
    intro hd
    exact hs (string_data_inj s "" hd)

theorem slugToPath_pathToSlugC (p : List Char) (hp : ∃ r, p = '/' :: r)
    (hnix : (⟨p⟩ : String) ≠ "/index") :
    slugToPath (⟨pathToSlugC p⟩ : String) = (⟨p⟩ : String) := by
  obtain ⟨r, rfl⟩ := hp
  cases r with
  | nil => decide
  | cons a rs =>
    rw [pathToSlugC_slash (a :: rs) (by simp)]
    unfold slugToPath
    by_cases hidx : (⟨a :: rs⟩ : String) = "index"
    · exfalso
      apply hnix
      have hd : a :: rs = "index".data := congrArg String.data hidx
      apply string_data_inj
      show '/' :: a :: rs = _
      rw [hd]
    · rw [if_neg hidx]
      apply string_data_inj
      rw [String.data_append]
      rfl

theorem slugToPath_inj (x y : String) (hx : x ≠ "") (hy : y ≠ "")
    (h : slugToPath x = slugToPath y) : x = y := by
  have hd := congrArg String.data h
  rw [slugToPath_data, slugToPath_data] at hd
  by_cases h1 : x = "index" <;> by_cases h2 : y = "index"
  · rw [h1, h2]
  · rw [if_pos h1, if_neg h2] at hd
    injection hd with _ hd2
    exact absurd (string_data_inj y "" hd2.symm).symm (fun hy2 => hy hy2.symm)
  · rw [if_neg h1, if_pos h2] at hd
    injection hd with _ hd2
    exact absurd (string_data_inj x "" hd2) hx
  · rw [if_neg h1, if_neg h2] at hd
    injection hd with _ hd2
    exact string_data_inj x y hd2

theorem slash_norm_head (t2 : List Char) (h : ∃ r, t2 = '/' :: r) :
    ∃ rest, (if t2.getLast? = some '/' ∧ t2 ≠ ['/'] then t2.dropLast else t2) =
      '/' :: rest := by
  obtain ⟨r, rfl⟩ := h
  by_cases hc : ('/' :: r).getLast? = some '/' ∧ ('/' :: r) ≠ ['/']
  · rw [if_pos hc]
    cases r with
    | nil => exact absurd rfl hc.2
    | cons a rs => exact ⟨(a :: rs).dropLast, rfl⟩
  · rw [if_neg hc]
    exact ⟨r, rfl⟩

theorem normPath_head (t : List Char) : ∃ rest, normPath t = '/' :: rest := by
  unfold normPath
  apply slash_norm_head
  by_cases hp : ['/'].isPrefixOf (if ['.', '/'].isPrefixOf t then t.drop 1 else t) = true
  · rw [if_pos hp]
    obtain ⟨s, hs⟩ := List.isPrefixOf_iff_prefix.mp hp
    exact ⟨s, hs.symm⟩
  · rw [if_neg hp]
    exact ⟨_, rfl⟩

theorem targetSlug_eq_iff (t : List Char) (s : String) (hs : s ≠ "")
    (hnix : (⟨normPath t⟩ : String) ≠ "/index") :
    targetSlug t = s ↔ (⟨normPath t⟩ : String) = slugToPath s := by
  constructor
  · intro h
    unfold targetSlug at h
    rw [← h]
    exact (slugToPath_pathToSlugC (normPath t) (normPath_head t) hnix).symm
  · intro h
    have hd : normPath t = (slugToPath s).data := congrArg String.data h
    unfold targetSlug
    rw [hd, pathToSlug_slugToPath s hs]

theorem extStep_fold_mem_mono (src : String) (known : List String) :
    ∀ (ts : List (List Char)) (acc : List String) (s : String),
      s ∈ acc → s ∈ ts.foldl (extStep src known) acc := by
  intro ts
  induction ts with
  | nil =>
    intro acc s h
    exact h
  | cons t ts ih =>
    intro acc s h
    rw [List.foldl_cons]
    apply ih
    unfold extStep
    by_cases hsk : skipT t = true
    · rw [if_pos hsk]
      exact h
    · rw [if_neg hsk]
      by_cases hc : known.contains (targetSlug t) = true ∧ targetSlug t ≠ src ∧
          targetSlug t ∉ acc
      · rw [if_pos hc]
        exact List.mem_append_left _ h
      · rw [if_neg hc]
        exact h

theorem mem_extract_complete (src : String) (known : List String) :
    ∀ (ts : List (List Char)) (acc : List String) (s : String),
      (∃ t ∈ ts, skipT t = false ∧ s = targetSlug t ∧ s ∈ known ∧ s ≠ src) →
      s ∈ ts.foldl (extStep src known) acc := by
  intro ts
  induction ts with
  | nil =>
    intro acc s h
    obtain ⟨t, ht, _⟩ := h
    cases ht
  | cons t ts ih =>
    intro acc s hex
    obtain ⟨t2, ht2, hcond⟩ := hex
    rw [List.foldl_cons]
    rcases List.mem_cons.mp ht2 with rfl | ht2'
    · obtain ⟨hsk, hslug, hkn, hsrc⟩ := hcond
      apply extStep_fold_mem_mono
      unfold extStep
      rw [if_neg (by rw [hsk]; exact (by decide))]
      by_cases hc : known.contains (targetSlug t2) = true ∧ targetSlug t2 ≠ src ∧
          targetSlug t2 ∉ acc
      · rw [if_pos hc, hslug]
        exact List.mem_append_right _ (List.mem_cons_self _ _)
      · rw [if_neg hc]
        have hmem : targetSlug t2 ∈ acc := by
          by_contra hna
          apply hc
          refine ⟨?_, ?_, hna⟩
          · rw [← hslug]
            simpa using hkn
          · rw [← hslug]
            exact hsrc
        rw [hslug]
        exact hmem
    · exact ih _ s ⟨t2, ht2', hcond⟩

theorem mem_extract_iff (body src : String) (known : List String) (s : String) :
    s ∈ extractLinkSlugs body src known ↔
      ∃ t ∈ linkTargets body, skipT t = false ∧ s = targetSlug t ∧
        s ∈ known ∧ s ≠ src := by
  rw [extractLinkSlugs_eq_foldl]
  constructor
  · intro h
    rcases mem_extStep_fold src known (linkTargets body) [] s h with h | h
    · cases h
    · exact h
  · intro h
    exact mem_extract_complete src known (linkTargets body) [] s h

/-- One target step of the endpoint's body scan, without the lets. -/
def blStep (srcPath title : String) (m : Backlinks) (t : List Char) : Backlinks :=
  if skipT t then m
  else if (lookupA m (⟨normPath t⟩ : String)).isSome ∧ (⟨normPath t⟩ : String) ≠ srcPath then
    updateA m ⟨normPath t⟩
      (fun lst => if lst.any (fun bl => bl.1 = srcPath) then lst
        else lst ++ [(srcPath, title)])
  else m

theorem backlinkStep_eq (m : Backlinks) (p : RawPage) :
    backlinkStep m p =
      (linkTargets p.body).foldl (blStep (slugToPath p.id) p.title) m := rfl

/-- Does page `q`'s body contain a non-skipped link whose normalized
path is `π`? -/
def linksToB (q : RawPage) (π : String) : Bool :=
  (linkTargets q.body).any (fun t => !skipT t && ((⟨normPath t⟩ : String) == π))

/-- Does scanning `q` add a backlink at path `π`? -/
def qualifiesB (q : RawPage) (π : String) : Bool :=
  linksToB q π && !(π == slugToPath q.id)

theorem lookupA_blStep (srcPath title π : String) (m : Backlinks) (t : List Char) :
    lookupA (blStep srcPath title m t) π =
      if skipT t = false ∧ (⟨normPath t⟩ : String) = π ∧
          (lookupA m π).isSome = true ∧ π ≠ srcPath then
        (lookupA m π).map (fun lst =>
          if lst.any (fun bl => bl.1 = srcPath) then lst else lst ++ [(srcPath, title)])
      else lookupA m π := by
  unfold blStep
  by_cases hsk : skipT t = true
  · rw [if_pos hsk]
    rw [if_neg (fun h => absurd h.1 (by rw [hsk]; decide))]
  · rw [if_neg hsk]
    have hskf : skipT t = false := by
      cases h : skipT t
      · rfl
      · exact absurd h hsk
    by_cases hc : (lookupA m (⟨normPath t⟩ : String)).isSome = true ∧
        (⟨normPath t⟩ : String) ≠ srcPath
    · rw [if_pos hc, lookupA_updateA]
      by_cases hπ : π = (⟨normPath t⟩ : String)
      · rw [if_pos hπ]
        have hcond : skipT t = false ∧ (⟨normPath t⟩ : String) = π ∧
            (lookupA m π).isSome = true ∧ π ≠ srcPath := by
          refine ⟨hskf, hπ.symm, ?_, ?_⟩
          · rw [hπ]
            exact hc.1
          · rw [hπ]
            exact hc.2
        rw [if_pos hcond]
      · rw [if_neg hπ]
        rw [if_neg (fun h => hπ h.2.1.symm)]
    · rw [if_neg hc]
      have hcond : ¬(skipT t = false ∧ (⟨normPath t⟩ : String) = π ∧
          (lookupA m π).isSome = true ∧ π ≠ srcPath) := by
        intro h
        apply hc
        constructor
        · rw [h.2.1]
          exact h.2.2.1
        · rw [h.2.1]
          exact h.2.2.2
      rw [if_neg hcond]

theorem bl_inner_saturated (srcPath title π : String) :
    ∀ (ts : List (List Char)) (m : Backlinks) (lst : List (String × String)),
      lookupA m π = some lst →
      lst.any (fun bl => bl.1 = srcPath) = true →
      lookupA (ts.foldl (blStep srcPath title) m) π = some lst := by
  intro ts
  induction ts with
  | nil =>
    intro m lst hm _
    exact hm
  | cons t ts ih =>
    intro m lst hm hsat
    rw [List.foldl_cons]
    refine ih _ lst ?_ hsat
    rw [lookupA_blStep]
    split
    · rw [hm]
      simp [hsat]
    · exact hm

theorem bl_inner_nolink (srcPath title π : String) :
    ∀ (ts : List (List Char)) (m : Backlinks) (lst : List (String × String)),
      lookupA m π = some lst →
      (∀ t ∈ ts, skipT t = true ∨ (⟨normPath t⟩ : String) ≠ π) →
      lookupA (ts.foldl (blStep srcPath title) m) π = some lst := by
  intro ts
  induction ts with
  | nil =>
    intro m lst hm _
    exact hm
  | cons t ts ih =>
    intro m lst hm hall
    rw [List.foldl_cons]
    refine ih _ lst ?_ (fun x hx => hall x (List.mem_cons_of_mem t hx))
    rw [lookupA_blStep]
    have hcond : ¬(skipT t = false ∧ (⟨normPath t⟩ : String) = π ∧
        (lookupA m π).isSome = true ∧ π ≠ srcPath) := by
      intro h
      rcases hall t (List.mem_cons_self t ts) with hs | hp
      · rw [h.1] at hs
        exact absurd hs (by decide)
      · exact hp h.2.1
    rw [if_neg hcond]
    exact hm

theorem bl_inner_self (srcPath title : String) :
    ∀ (ts : List (List Char)) (m : Backlinks) (lst : List (String × String)),
      lookupA m srcPath = some lst →
      lookupA (ts.foldl (blStep srcPath title) m) srcPath = some lst := by
  intro ts
  induction ts with
  | nil =>
    intro m lst hm
    exact hm
  | cons t ts ih =>
    intro m lst hm
    rw [List.foldl_cons]
    refine ih _ lst ?_
    rw [lookupA_blStep, if_neg (fun h => h.2.2.2 rfl)]
    exact hm

theorem bl_inner_link (srcPath title π : String) (hπ : π ≠ srcPath) :
    ∀ (ts : List (List Char)) (m : Backlinks) (lst : List (String × String)),
      lookupA m π = some lst →
      lst.any (fun bl => bl.1 = srcPath) = false →
      (∃ t ∈ ts, skipT t = false ∧ (⟨normPath t⟩ : String) = π) →
      lookupA (ts.foldl (blStep srcPath title) m) π =
        some (lst ++ [(srcPath, title)]) := by
  intro ts
  induction ts with
  | nil =>
    intro m lst _ _ hex
    obtain ⟨t, ht, _⟩ := hex
    cases ht
  | cons t ts ih =>
    intro m lst hm hfresh hex
    rw [List.foldl_cons]
    by_cases hqt : skipT t = false ∧ (⟨normPath t⟩ : String) = π
    · have hcond : skipT t = false ∧ (⟨normPath t⟩ : String) = π ∧
          (lookupA m π).isSome = true ∧ π ≠ srcPath :=
        ⟨hqt.1, hqt.2, by rw [hm]; rfl, hπ⟩
      have hstep : lookupA (blStep srcPath title m t) π =
          some (lst ++ [(srcPath, title)]) := by
        rw [lookupA_blStep, if_pos hcond, hm]
        simp [hfresh]
      refine bl_inner_saturated srcPath title π ts _ _ hstep ?_
      rw [List.any_eq_true]
      exact ⟨(srcPath, title), List.mem_append_right _ (List.mem_cons_self _ _), by simp⟩
    · have hcond : ¬(skipT t = false ∧ (⟨normPath t⟩ : String) = π ∧
          (lookupA m π).isSome = true ∧ π ≠ srcPath) := fun h => hqt ⟨h.1, h.2.1⟩
      have hstep : lookupA (blStep srcPath title m t) π = some lst := by
        rw [lookupA_blStep, if_neg hcond]
        exact hm
      obtain ⟨t2, ht2, hc2⟩ := hex
      rcases List.mem_cons.mp ht2 with rfl | ht2'
      · exact absurd ⟨hc2.1, hc2.2⟩ hqt
      · exact ih _ lst hstep hfresh ⟨t2, ht2', hc2⟩

theorem backlinkStep_entry (π : String) (q : RawPage) (m : Backlinks)
    (lst : List (String × String)) (hm : lookupA m π = some lst)
    (hfresh : lst.any (fun bl => bl.1 = slugToPath q.id) = false) :
    lookupA (backlinkStep m q) π =
      if qualifiesB q π = true then some (lst ++ [(slugToPath q.id, q.title)])
      else some lst := by
  rw [backlinkStep_eq]
  by_cases hq : qualifiesB q π = true
  · rw [if_pos hq]
    unfold qualifiesB at hq
    rw [Bool.and_eq_true] at hq
    have hne : π ≠ slugToPath q.id := by simpa using hq.2
    have hex : ∃ t ∈ linkTargets q.body, skipT t = false ∧
        (⟨normPath t⟩ : String) = π := by
      have h1 := hq.1
      unfold linksToB at h1
      rw [List.any_eq_true] at h1
      obtain ⟨t, ht, hp⟩ := h1
      rw [Bool.and_eq_true] at hp
      refine ⟨t, ht, ?_, ?_⟩
      · simpa using hp.1
      · simpa using hp.2
    exact bl_inner_link (slugToPath q.id) q.title π hne (linkTargets q.body) m lst
      hm hfresh hex
  · rw [if_neg hq]
    by_cases hl : linksToB q π = true
    · have hπ : π = slugToPath q.id := by
        by_contra hc
        apply hq
        unfold qualifiesB
        rw [Bool.and_eq_true]
        exact ⟨hl, by simpa using hc⟩
      subst hπ
      exact bl_inner_self (slugToPath q.id) q.title (linkTargets q.body) m lst hm
    · have hall : ∀ t ∈ linkTargets q.body,
          skipT t = true ∨ (⟨normPath t⟩ : String) ≠ π := by
        intro t ht
        by_cases hsk : skipT t = true
        · exact Or.inl hsk
        · right
          intro hp
          apply hl
          unfold linksToB
          rw [List.any_eq_true]
          refine ⟨t, ht, ?_⟩
          rw [Bool.and_eq_true]
          constructor
          · have : skipT t = false := by
              cases h2 : skipT t
              · rfl
              · exact absurd h2 hsk
            simpa using this
          · simpa using hp
      exact bl_inner_nolink (slugToPath q.id) q.title π (linkTargets q.body) m lst hm hall

theorem backlinks_outer (π : String) :
    ∀ (l : List RawPage) (m : Backlinks) (lst : List (String × String)),
      lookupA m π = some lst →
      ((lst.map Prod.fst) ++ l.map (fun q => slugToPath q.id)).Nodup →
      lookupA (l.foldl backlinkStep m) π =
        some (lst ++ (l.filter (fun q => qualifiesB q π)).map
          (fun q => (slugToPath q.id, q.title))) := by
  intro l
  induction l with
  | nil =>
    intro m lst hm _
    rw [List.foldl_nil, hm]
    simp
  | cons q l ih =>
    intro m lst hm hnd
    simp only [List.map_cons] at hnd
    have hfresh_mem : slugToPath q.id ∉ lst.map Prod.fst := by
      intro hmem
      have hdisj := List.disjoint_of_nodup_append hnd
      exact hdisj hmem (List.mem_cons_self _ _)
    have hfreshB : lst.any (fun bl => bl.1 = slugToPath q.id) = false := by
      cases hany : lst.any (fun bl => bl.1 = slugToPath q.id)
      · rfl
      · exfalso
        rw [List.any_eq_true] at hany
        obtain ⟨bl, hbl, hbl2⟩ := hany
        apply hfresh_mem
        rw [List.mem_map]
        exact ⟨bl, hbl, by simpa using hbl2⟩
    rw [List.foldl_cons]
    have hstep := backlinkStep_entry π q m lst hm hfreshB
    by_cases hq : qualifiesB q π = true
    · rw [if_pos hq] at hstep
      have hnd' : ((lst ++ [(slugToPath q.id, q.title)]).map Prod.fst ++
          l.map (fun q => slugToPath q.id)).Nodup := by
        simpa [List.append_assoc] using hnd
      have hres := ih (backlinkStep m q) (lst ++ [(slugToPath q.id, q.title)]) hstep hnd'
      rw [hres, List.filter_cons, if_pos hq]
      simp [List.append_assoc]
    · rw [if_neg hq] at hstep
      have hnd' : ((lst.map Prod.fst) ++ l.map (fun q => slugToPath q.id)).Nodup :=
        (List.nodup_middle.mp hnd).of_cons
      have hres := ih (backlinkStep m q) lst hstep hnd'
      rw [hres, List.filter_cons, if_neg hq]

theorem lookupA_init_fold :
    ∀ (l : List RawPage) (m : Backlinks) (π : String),
      lookupA (l.foldl (fun m p => setA m (slugToPath p.id) []) m) π =
        if π ∈ l.map (fun p => slugToPath p.id) then some [] else lookupA m π := by
  intro l
  induction l with
  | nil =>
    intro m π
    simp
  | cons p l ih =>
    intro m π
    rw [List.foldl_cons, ih]
    by_cases hmem : π ∈ l.map (fun p => slugToPath p.id)
    · rw [if_pos hmem,
        if_pos (by rw [List.map_cons]; exact List.mem_cons_of_mem _ hmem)]
    · rw [if_neg hmem, lookupA_setA]
      by_cases hπ : π = slugToPath p.id
      · rw [if_pos hπ,
          if_pos (by rw [List.map_cons, hπ]; exact List.mem_cons_self _ _)]
      · have hnm : π ∉ (p :: l).map (fun p => slugToPath p.id) := by
          rw [List.map_cons]
          intro hc
          rcases List.mem_cons.mp hc with h | h
          · exact hπ h
          · exact hmem h
        rw [if_neg hπ, if_neg hnm]

theorem backlinksMap_eq (store : List RawPage) :
    backlinksMap store =
      store.foldl backlinkStep
        (store.foldl (fun m p => setA m (slugToPath p.id) []) []) := rfl

theorem qualifies_iff_extract (store : List RawPage)
    (hne : ∀ p ∈ store, p.id ≠ "")
    (hidx : ∀ q ∈ store, ∀ t ∈ linkTargets q.body, skipT t = false →
      (⟨normPath t⟩ : String) ≠ "/index")
    (P : RawPage) (hP : P ∈ store) (q : RawPage) (hq : q ∈ store) :
    (extractLinkSlugs q.body q.id (store.map (fun p => p.id))).contains P.id =
      qualifiesB q (slugToPath P.id) := by
  have hPne := hne P hP
  have hqne := hne q hq
  rw [Bool.eq_iff_iff]
  constructor
  · intro h
    have hmem : P.id ∈ extractLinkSlugs q.body q.id (store.map (fun p => p.id)) := by
      simpa using h
    rw [mem_extract_iff] at hmem
    obtain ⟨t, ht, hsk, hslug, _, hne2⟩ := hmem
    unfold qualifiesB linksToB
    rw [Bool.and_eq_true]
    constructor
    · rw [List.any_eq_true]
      refine ⟨t, ht, ?_⟩
      rw [Bool.and_eq_true]
      refine ⟨by simpa using hsk, ?_⟩
      have hpath := (targetSlug_eq_iff t P.id hPne (hidx q hq t ht hsk)).mp hslug.symm
      simpa using hpath
    · have hpp : slugToPath P.id ≠ slugToPath q.id := by
        intro he
        exact hne2 (slugToPath_inj P.id q.id hPne hqne he)
      simpa using hpp
  · intro h
    unfold qualifiesB linksToB at h
    rw [Bool.and_eq_true] at h
    obtain ⟨h1, h2⟩ := h
    rw [List.any_eq_true] at h1
    obtain ⟨t, ht, hp⟩ := h1
    rw [Bool.and_eq_true] at hp
    have hsk : skipT t = false := by simpa using hp.1
    have hpath : (⟨normPath t⟩ : String) = slugToPath P.id := by simpa using hp.2
    have hslug : targetSlug t = P.id :=
      (targetSlug_eq_iff t P.id hPne (hidx q hq t ht hsk)).mpr hpath
    have hπq : slugToPath P.id ≠ slugToPath q.id := by simpa using h2
    have hne2 : P.id ≠ q.id := by
      intro he
      exact hπq (by rw [he])
    have hmem : P.id ∈ extractLinkSlugs q.body q.id (store.map (fun p => p.id)) := by
      rw [mem_extract_iff]
      exact ⟨t, ht, hsk, hslug.symm, List.mem_map.mpr ⟨P, hP, rfl⟩, hne2⟩
    simpa using hmem

/-- C8 (corrected): when the store's slugs are duplicate-free, nonempty
and no non-skipped body link normalizes to the path `/index`, the
endpoint's entry at page `P`'s URL path is exactly the store-ordered
list of `{path, title}` of the pages whose extracted reference set
contains `P`'s slug.  Without the `/index` proviso the agreement
fails: the endpoint keys its map by slug-derived paths (`index ↦ /`),
so a literal `/index` link target never matches the home page's key. -/
theorem C8_backlinks_agreement (store : List RawPage)
    (hnodup : (store.map (fun p => p.id)).Nodup)
    (hne : ∀ p ∈ store, p.id ≠ "")
    (hidx : ∀ q ∈ store, ∀ t ∈ linkTargets q.body, skipT t = false →
      (⟨normPath t⟩ : String) ≠ "/index")
    (P : RawPage) (hP : P ∈ store) :
    lookupA (backlinksMap store) (slugToPath P.id) =
      some ((store.filter (fun q =>
          (extractLinkSlugs q.body q.id (store.map (fun p => p.id))).contains P.id)).map
        (fun q => (slugToPath q.id, q.title))) := by
  have hinit : lookupA (store.foldl (fun m p => setA m (slugToPath p.id) [])
        ([] : Backlinks))
      (slugToPath P.id) = some ([] : List (String × String)) := by
    rw [lookupA_init_fold,
      if_pos (List.mem_map.mpr ⟨P, hP, rfl⟩)]
  have hpathsnodup : ((([] : List (String × String)).map Prod.fst) ++
      store.map (fun q => slugToPath q.id)).Nodup := by
    simp only [List.map_nil, List.nil_append]
    apply List.Nodup.map_on
    · intro x hx y hy hfxy
      exact List.inj_on_of_nodup_map hnodup hx hy
        (slugToPath_inj x.id y.id (hne x hx) (hne y hy) hfxy)
    · exact List.Nodup.of_map (fun p => p.id) hnodup
  rw [backlinksMap_eq,
    backlinks_outer (slugToPath P.id) store _ [] hinit hpathsnodup,
    List.nil_append]
  congr 1
  congr 1
  apply List.filter_congr
  intro q hq
  exact (qualifies_iff_extract store hne hidx P hP q hq).symm

/-- The spec's counterexample store for the path-normalization gap:
`a` links to `/index`, the home page's slug-derived key is `/`. -/
def stC8 : List RawPage :=
  [ { id := "index", title := "Home", body := "" },
    { id := "a", title := "A", body := "[home](/index)" } ]

/-- C8 counterexample: the extractor resolves `/index` to the known
slug `index`, but the endpoint's entry for the home page (keyed `/`)
stays empty because the scanned target path `/index` is not a key. -/
theorem C8_counterexample :
    "index" ∈ extractLinkSlugs "[home](/index)" "a" (stC8.map (fun p => p.id)) ∧
    lookupA (backlinksMap stC8) (slugToPath "index") = some [] := by
  decide

/-- A store whose links use the slug-derived paths, for the witness. -/
def stC8b : List RawPage :=
  [ { id := "index", title := "Home", body := "see [a](/a)" },
    { id := "a", title := "A", body := "[home](/)" } ]

/-- Witness for C8 at a two-page store that links via canonical paths. -/
theorem C8_backlinks_agreement_witness :
    lookupA (backlinksMap stC8b) (slugToPath "index") =
      some ((stC8b.filter (fun q =>
          (extractLinkSlugs q.body q.id (stC8b.map (fun p => p.id))).contains "index")).map
        (fun q => (slugToPath q.id, q.title))) :=
  C8_backlinks_agreement stC8b (by decide) (by decide) (by decide)
    { id := "index", title := "Home", body := "see [a](/a)" } (by decide)

/-- Witness for C5 at the spec's mutual-`eq` example. -/
theorem C5_symmetric_edge_dedup_witness :
    List.countP (pairEdge "a" "b" EdgeType.eq) (buildGraphData gW5 pW5).edges ≤ 1 ∧
    List.countP (pairEdge "a" "b" EdgeType.eq) (buildGraphData gW5 pW5).edges = 1 :=
  ⟨(C5_symmetric_edge_dedup gW5 pW5 "a" "b" EdgeType.eq (by decide)).1,
   (C5_symmetric_edge_dedup gW5 pW5 "a" "b" EdgeType.eq (by decide)).2
     (by decide)
     { ntpp := [], nttpi := [], tpp := [], tppi := [], po := [], ec := [],
       eq := ["b"], dc := [], next := none, prev := none, r := [], ri := [] }
     (by decide) (by decide) (by decide)⟩

end Site
